import Mathlib

/-!
# Substreams: squashing, output-cache ranges and store deltas

A shallow embedding of the range algebra, the store squasher and the store
delta operations of the substreams runtime, with the properties the
specification states about them.

Block numbers are Go `uint64` values; they are embedded as `Nat`, and the one
place where the source subtracts (`Range.Len`, `Len() - storeSaveInterval`)
is embedded modulo `2^64`.
-/

namespace Substreams

/-! ## Ranges (package block) -/

/-- A half-open block range `[StartBlock, ExclusiveEndBlock)`, the two fields of
`block.Range` as the sources build and read it. -/
structure Range where
  StartBlock : Nat
  ExclusiveEndBlock : Nat
deriving DecidableEq, Repr

/-- Two neighbouring ranges are contiguous when the first ends where the second
starts (the test of cache.go:257, `next.StartBlock != r.ExclusiveEndBlock`). -/
def Range.Contiguous (a b : Range) : Prop :=
  a.ExclusiveEndBlock = b.StartBlock

instance (a b : Range) : Decidable (Range.Contiguous a b) := by
  unfold Range.Contiguous; infer_instance

/-! ## listContinuousCacheRanges (pipeline/execout/cachev1/cache.go:247-264) -/

/-- The `for i, r := range cachedRanges` loop of listContinuousCacheRanges, from
the current index on: the first argument of the list is `r`, the element after
it (when `cachedRangeCount > i+1`) is `next`, and `out` is the slice built so
far. `continue` goes on with the tail, `break` returns `out`. -/
def listContinuousLoop (fromBlock : Nat) : List Range → List Range → List Range
  | [], out => out
  | r :: rest, out =>
    if r.StartBlock < fromBlock then
      listContinuousLoop fromBlock rest out
    else
      match rest with
      | [] => out ++ [r]
      | next :: _ =>
        if next.StartBlock != r.ExclusiveEndBlock then out ++ [r]
        else listContinuousLoop fromBlock rest (out ++ [r])

/-- The function listContinuousCacheRanges(cachedRanges, from): the loop started
with an empty `out`. -/
def listContinuousCacheRanges (cachedRanges : List Range) (fromBlock : Nat) : List Range :=
  listContinuousLoop fromBlock cachedRanges []

/-- The ranges left after discarding those with `StartBlock < from`. -/
def discardBefore (fromBlock : Nat) (R : List Range) : List Range :=
  R.filter (fun r => decide (fromBlock ≤ r.StartBlock))

/-- The longest run of pairwise contiguous ranges at the head of a list. -/
def contiguousRun : List Range → List Range
  | [] => []
  | [a] => [a]
  | a :: b :: rest =>
    if a.ExclusiveEndBlock = b.StartBlock then a :: contiguousRun (b :: rest) else [a]

/-! ## sort.Slice (Go standard library)

The sources sort slices with `sort.Slice(data, less)`, which is outside the
repository. On slices of at most twelve elements Go runs its insertion sort,
`for i := a+1; i < b; i++ { for j := i; j > a && less(j, j-1); j-- { swap(j, j-1) } }`;
that algorithm is the embedding of `sort.Slice` here, for slices of every
length. `less(j, j-1)` compares the element being moved with its left
neighbour, so no element is ever compared with itself. -/

/-- The inner loop of the insertion sort: `x` moves left past every neighbour
`p` with `less x p`. The list holds the elements to the left of `x`, nearest
first, and the result is that list with `x` put in place, nearest first. -/
def sinkLeft {α : Type} (less : α → α → Bool) (x : α) : List α → List α
  | [] => [x]
  | p :: ps => if less x p then p :: sinkLeft less x ps else x :: p :: ps

/-- The call `sort.Slice(data, less)`: every element in turn is sunk into the
already processed elements to its left. -/
def sortSlice {α : Type} (less : α → α → Bool) (data : List α) : List α :=
  (data.foldl (fun leftRev x => sinkLeft less x leftRev) []).reverse

/-! ## The store squasher (orchestrator/storesquasher.go) -/

/-- Subtraction of two `uint64` values (it wraps around below zero). -/
def u64sub (a b : Nat) : Nat := (a + 2 ^ 64 - b % 2 ^ 64) % 2 ^ 64

/-- Modelled from the spec: `block.Range.Len` is not among the sources; a range
is the half-open `[start, end)` of the data model, so its length is
`ExclusiveEndBlock - StartBlock`, computed in `uint64`. -/
def Range.Len (r : Range) : Nat := u64sub r.ExclusiveEndBlock r.StartBlock

/-- The full store held by a squasher, as far as the squasher reads it: the
module's initial block (`InitialBlock()`) and the store's content, whose type
is left open. -/
structure FullKV (σ : Type) where
  initialBlock : Nat
  content : σ

/-- The errors the squasher produces. `wrapped` is
`fmt.Errorf("process range %s: %w", ...)` of processRanges. -/
inductive SquashError where
  | nonContiguous (expected got : Nat)
  | loadFailed
  | mergeFailed
  | wrapped (r : Range) (cause : SquashError)
  | waiting
  | ctxErr
deriving DecidableEq, Repr

/-- What a call of processRange ends with: `nil`, the sentinel `SkipRange`,
another error, or the runtime panic of `% 0`. -/
inductive RangeOutcome where
  | done
  | skipRange
  | failed (e : SquashError)
  | panicked
deriving DecidableEq, Repr

/-- The calls the squasher issues on stores, in the order it issues them:
loading the store of a range, merging it into the full store (with whether the
merge succeeded), and the two tasks handed to the error group, deleting the
merged file and saving the full store at a block. -/
inductive Effect where
  | load (r : Range)
  | merge (r : Range) (ok : Bool)
  | deleteStore (atBlock : Nat)
  | save (atBlock : Nat)
deriving DecidableEq, Repr

/-- The collaborators of the squasher that are outside the sources.
`loadStore r` is `NewPartialKV(...).Load(ctx, r.ExclusiveEndBlock)` for the
store of range `r` (`none` when it returns an error); `merge` is
`FullKV.Merge`, giving the receiver after the call and whether it returned no
error; `saveFails e` tells whether `Save(ctx, e)` returns an error;
`stopSeen round i` tells whether a failure of an earlier task has become
visible to the `i`-th call of `eg.Stop()` in the given round of launch;
`elapsed round` is `time.Since(start)` of that round. -/
structure Env (σ : Type) where
  loadStore : Range → Option σ
  merge : FullKV σ → σ → FullKV σ × Bool
  saveFails : Nat → Bool
  stopSeen : Nat → Nat → Bool
  elapsed : Nat → Nat

/-- The fields of StoreSquasher that its loop reads or writes. -/
structure StoreSquasher (σ : Type) where
  store : FullKV σ
  ranges : List Range
  targetExclusiveEndBlock : Nat
  nextExpectedStartBlock : Nat
  targetExclusiveEndBlockReach : Bool
  storeSaveInterval : Nat

/-- The constructor NewStoreSquasher. -/
def NewStoreSquasher {σ : Type} (initialStore : FullKV σ)
    (targetExclusiveBlock nextExpectedStartBlock storeSaveInterval : Nat) :
    StoreSquasher σ :=
  { store := initialStore
    ranges := []
    targetExclusiveEndBlock := targetExclusiveBlock
    nextExpectedStartBlock := nextExpectedStartBlock
    targetExclusiveEndBlockReach := false
    storeSaveInterval := storeSaveInterval }

/-- The method IsEmpty. -/
def StoreSquasher.IsEmpty {σ : Type} (s : StoreSquasher σ) : Bool :=
  s.ranges.isEmpty

/-- Whether a task handed to the error group fails: only `Save` can. -/
def Effect.fails {σ : Type} (env : Env σ) : Effect → Bool
  | .save e => env.saveFails e
  | _ => false

/-- The result of `eg.Wait()`: an error when a task of the group failed. -/
def egWaitFails {σ : Type} (env : Env σ) (tasks : List Effect) : Bool :=
  tasks.any (Effect.fails env)

/-- The call `eg.Stop()`: true only once a task of the group has failed, and
then only when that failure is already visible. -/
def egStop {σ : Type} (env : Env σ) (round i : Nat) (tasks : List Effect) : Bool :=
  env.stopSeen round i && egWaitFails env tasks

/-- The method processRange (storesquasher.go:173-228): the outcome, the
squasher afterwards and the store calls issued. -/
def processRange {σ : Type} (env : Env σ) (s : StoreSquasher σ) (squashableRange : Range) :
    RangeOutcome × StoreSquasher σ × List Effect :=
  if squashableRange.StartBlock < s.nextExpectedStartBlock then
    (.failed (.nonContiguous s.nextExpectedStartBlock squashableRange.StartBlock), s, [])
  else if s.nextExpectedStartBlock != squashableRange.StartBlock then
    (.skipRange, s, [])
  else
    match env.loadStore squashableRange with
    | none => (.failed .loadFailed, s, [.load squashableRange])
    | some nextStore =>
      let merged := env.merge s.store nextStore
      if !merged.2 then
        (.failed .mergeFailed, { s with store := merged.1 },
          [.load squashableRange, .merge squashableRange false])
      else
        let s1 := { s with store := merged.1,
                           nextExpectedStartBlock := squashableRange.ExclusiveEndBlock }
        let issued := [Effect.load squashableRange, .merge squashableRange true,
          .deleteStore squashableRange.ExclusiveEndBlock]
        if s1.storeSaveInterval == 0 then (.panicked, s1, issued)
        else
          let isSaveIntervalReached :=
            squashableRange.ExclusiveEndBlock % s1.storeSaveInterval == 0
          let isFirstKvForModule :=
            isSaveIntervalReached && squashableRange.StartBlock == s1.store.initialBlock
          let isCompletedKv :=
            isSaveIntervalReached && u64sub squashableRange.Len s1.storeSaveInterval == 0
          if isFirstKvForModule || isCompletedKv then
            (.done, s1, issued ++ [.save squashableRange.ExclusiveEndBlock])
          else (.done, s1, issued)

/-- The struct rangeProgress. -/
structure rangeProgress where
  squashCount : Nat
  lastExclusiveEndBlock : Nat
deriving DecidableEq, Repr

/-- What processRanges returns: `(out, nil)`, `(nil, err)`, or the panic of a
processRange call. -/
inductive RangesOutcome where
  | progress (out : rangeProgress)
  | failed (e : SquashError)
  | panicked
deriving DecidableEq, Repr

/-- The `for` loop of processRanges (storesquasher.go:139-167) on the buffer
`rs` (the value of `s.ranges`), in its `i`-th iteration, with the progress `out`
and the store calls issued so far in this round. -/
def processRangesLoop {σ : Type} (env : Env σ) (round : Nat) :
    List Range → Nat → StoreSquasher σ → rangeProgress → List Effect →
      RangesOutcome × StoreSquasher σ × List Effect
  | [], _, s, out, issued => (.progress out, { s with ranges := [] }, issued)
  | r :: rest, i, s, out, issued =>
    if egStop env round i issued then
      (.progress out, { s with ranges := r :: rest }, issued)
    else
      match processRange env { s with ranges := r :: rest } r with
      | (.skipRange, s1, e1) => (.progress out, s1, issued ++ e1)
      | (.failed e, s1, e1) => (.failed (.wrapped r e), s1, issued ++ e1)
      | (.panicked, s1, e1) => (.panicked, s1, issued ++ e1)
      | (.done, s1, e1) =>
        let out1 := { out with lastExclusiveEndBlock := (out.lastExclusiveEndBlock + 1) % 2 ^ 64 }
        let s2 := { s1 with
          ranges := rest
          targetExclusiveEndBlockReach :=
            if r.ExclusiveEndBlock == s1.targetExclusiveEndBlock then true
            else s1.targetExclusiveEndBlockReach }
        let out2 := { out1 with lastExclusiveEndBlock := r.ExclusiveEndBlock }
        processRangesLoop env round rest (i + 1) s2 out2 (issued ++ e1)

/-- The method processRanges, called in the given round of launch with a fresh
error group. -/
def processRanges {σ : Type} (env : Env σ) (round : Nat) (s : StoreSquasher σ) :
    RangesOutcome × StoreSquasher σ × List Effect :=
  processRangesLoop env round s.ranges 0 s ⟨0, 0⟩ []

/-- What the `select` of launch receives: the context is done, a batch of
ranges arrives on the inbox, or the inbox is closed. -/
inductive Event where
  | ctxDone
  | chunk (partialsChunks : List Range)
  | closed
deriving DecidableEq, Repr

/-- Where the goroutine of launch stands: still looping, returned, or stopped
by a runtime panic (a nil `out` read, or the panic of processRange). -/
inductive Status where
  | running
  | returned
  | crashed
deriving DecidableEq, Repr

/-- The goroutine of launch with what it has done so far: the squasher, the
number of rounds run, the values sent on `waitForCompletion` (`none` is nil),
the blocks passed to `SignalCompletionUpUntil`, the store calls issued, and
the two duration gauges. -/
structure LaunchState (σ : Type) where
  squasher : StoreSquasher σ
  status : Status
  round : Nat
  completion : List (Option SquashError)
  signals : List Nat
  effects : List Effect
  lastSquashDuration : Nat
  lastSquashAvgDuration : Nat

/-- The comparison launch passes to `sort.Slice` (storesquasher.go:95-97). -/
def launchLess (a b : Range) : Bool :=
  decide (a.StartBlock < b.ExclusiveEndBlock)

/-- One iteration of the `for` loop of launch (storesquasher.go:80-128) on what
the `select` receives. -/
def launchStep {σ : Type} (env : Env σ) (st : LaunchState σ) : Event → LaunchState σ
  | .ctxDone =>
    { st with status := .returned, completion := st.completion ++ [some .ctxErr] }
  | .closed =>
    { st with status := .returned, completion := st.completion ++ [none] }
  | .chunk partialsChunks =>
    let s0 := { st.squasher with
      ranges := sortSlice launchLess (st.squasher.ranges ++ partialsChunks) }
    match processRanges env st.round s0 with
    | (.panicked, s1, issued) =>
      { st with squasher := s1, status := .crashed, effects := st.effects ++ issued }
    | (.failed e, s1, issued) =>
      if egWaitFails env issued then
        { st with squasher := s1, status := .returned, effects := st.effects ++ issued,
                  completion := st.completion ++ [some e, some .waiting] }
      else
        { st with squasher := s1, status := .crashed, effects := st.effects ++ issued,
                  completion := st.completion ++ [some e] }
    | (.progress out, s1, issued) =>
      if egWaitFails env issued then
        { st with squasher := s1, status := .returned, effects := st.effects ++ issued,
                  completion := st.completion ++ [some .waiting] }
      else
        let totalDuration := env.elapsed st.round
        let avgDuration :=
          if out.squashCount > 0 then totalDuration / out.squashCount else 0
        { st with
          squasher := s1
          round := st.round + 1
          effects := st.effects ++ issued
          signals :=
            if out.lastExclusiveEndBlock != 0 then st.signals ++ [out.lastExclusiveEndBlock]
            else st.signals
          lastSquashDuration := totalDuration
          lastSquashAvgDuration := avgDuration }

/-- The goroutine started on a squasher. -/
def launchInit {σ : Type} (s : StoreSquasher σ) : LaunchState σ :=
  { squasher := s, status := .running, round := 0, completion := [], signals := [],
    effects := [], lastSquashDuration := 0, lastSquashAvgDuration := 0 }

/-- The goroutine driven by a sequence of `select` outcomes; once it has
returned or crashed nothing more happens. -/
def launchRun {σ : Type} (env : Env σ) : LaunchState σ → List Event → LaunchState σ
  | st, [] => st
  | st, ev :: evs =>
    match st.status with
    | .running => launchRun env (launchStep env st ev) evs
    | _ => st

/-- The method launch on a squasher, driven by a sequence of `select` outcomes. -/
def launch {σ : Type} (env : Env σ) (s : StoreSquasher σ) (events : List Event) :
    LaunchState σ :=
  launchRun env (launchInit s) events

/-- The ranges merged into the full store, in merge order: the successful
`Merge` calls of a run. -/
def mergedRanges : List Effect → List Range
  | [] => []
  | .merge r true :: t => r :: mergedRanges t
  | _ :: t => mergedRanges t

/-- A list of ranges is a gapless, non-overlapping chain from block `a` to block
`b`: the first starts at `a`, each next one starts where the one before it
ends, and the last ends at `b`. -/
def ChainFromTo : Nat → List Range → Nat → Prop
  | a, [], b => a = b
  | a, r :: rs, b => r.StartBlock = a ∧ ChainFromTo r.ExclusiveEndBlock rs b

/-- An environment in which every store call succeeds: each range has a store
to load, merging keeps the full store as it is, no save fails. -/
def quietEnv : Env Unit :=
  { loadStore := fun _ => some ()
    merge := fun st _ => (st, true)
    saveFails := fun _ => false
    stopSeen := fun _ _ => false
    elapsed := fun _ => 0 }

/-- A squasher of a module with initial block 0 and save interval 100, expecting
block 0 next, with target block 200. -/
def demoSquasher : StoreSquasher Unit :=
  NewStoreSquasher ⟨0, ()⟩ 200 0 100

/-- The environment `quietEnv` in which every round of launch takes 500 units of
time. -/
def timedEnv : Env Unit :=
  { quietEnv with elapsed := fun _ => 500 }

/-- A squasher of a module with initial block 0 and save interval 100 that has
merged up to block 100 and expects block 100 next, with target block 300. -/
def squasherAt100 : StoreSquasher Unit :=
  NewStoreSquasher ⟨0, ()⟩ 300 100 100

/-- The full store after the stores of the given ranges have been merged into
it one after the other, in the order of the list: what "merged in this order"
means for the content of the full store. A range whose store cannot be loaded
is passed over. -/
def mergeAll {σ : Type} (env : Env σ) (st : FullKV σ) : List Range → FullKV σ
  | [] => st
  | r :: rs =>
    match env.loadStore r with
    | some nextStore => mergeAll env (env.merge st nextStore).1 rs
    | none => mergeAll env st rs

/-- The environment `quietEnv` in which every `Save` of the full store fails. -/
def saveFailEnv : Env Unit :=
  { quietEnv with saveFails := fun _ => true }

/-- An environment whose stores record what was merged: the store of a range
holds that range, a merge appends the content of the partial store to the full
store, and no call fails. -/
def recordingEnv : Env (List Range) :=
  { loadStore := fun r => some [r]
    merge := fun st nextStore => ({ st with content := st.content ++ nextStore }, true)
    saveFails := fun _ => false
    stopSeen := fun _ _ => false
    elapsed := fun _ => 0 }

/-! ## Store deltas and ordinal reads (package store)

Of the store package the sources hold `Append` and the tests of `ApplyDelta`,
`ApplyDeltasReverse` and of the ordinal reads; the other methods of `BaseStore`
are embedded as the specification describes them and as the tests use them. -/

/-- A store value, Go `[]byte`. -/
abbrev Bytes := List UInt8

/-- The map `kv` of a store, Go `map[string][]byte`: a key is absent or bound to
a value. -/
abbrev KV := String → Option Bytes

/-- The empty map, `make(map[string][]byte)`. -/
def KV.empty : KV := fun _ => none

/-- The assignment `kv[key] = value`. -/
def KV.set (kv : KV) (key : String) (value : Bytes) : KV :=
  fun k => if k = key then some value else kv k

/-- The call `delete(kv, key)`. -/
def KV.delete (kv : KV) (key : String) : KV :=
  fun k => if k = key then none else kv k

/-- The operation of a delta, `op ∈ {create, update, delete}`. -/
inductive Operation where
  | CREATE
  | UPDATE
  | DELETE
deriving DecidableEq, Repr

/-- A recorded mutation of a store, `pbsubstreams.StoreDelta` with the fields
the tests set: `{op, key, old_value, new_value, ordinal}`. -/
structure StoreDelta where
  Operation : Operation
  Ordinal : Nat
  Key : String
  OldValue : Bytes
  NewValue : Bytes
deriving DecidableEq, Repr

/-- The two fields of BaseStore that deltas and reads touch: the map `kv` and
the deltas of the current block. -/
structure BaseStore where
  kv : KV
  deltas : List StoreDelta

/-- Modelled from the spec: the body of `ApplyDelta` is not among the sources.
It "applies one delta authoritatively": as TestApplyDelta expects, a create or
an update binds the key to the new value and a delete removes the key. -/
def BaseStore.ApplyDelta (s : BaseStore) (delta : StoreDelta) : BaseStore :=
  match delta.Operation with
  | .CREATE => { s with kv := s.kv.set delta.Key delta.NewValue }
  | .UPDATE => { s with kv := s.kv.set delta.Key delta.NewValue }
  | .DELETE => { s with kv := s.kv.delete delta.Key }

/-- The loop `for _, delta := range deltas { s.ApplyDelta(delta) }` of
TestApplyDelta: the deltas applied in order. -/
def BaseStore.applyDeltas (s : BaseStore) (deltas : List StoreDelta) : BaseStore :=
  deltas.foldl BaseStore.ApplyDelta s

/-- The undoing of one delta: `create→delete`, `update→restore old`,
`delete→restore old`. -/
def BaseStore.revertDelta (s : BaseStore) (delta : StoreDelta) : BaseStore :=
  match delta.Operation with
  | .CREATE => { s with kv := s.kv.delete delta.Key }
  | .UPDATE => { s with kv := s.kv.set delta.Key delta.OldValue }
  | .DELETE => { s with kv := s.kv.set delta.Key delta.OldValue }

/-- Modelled from the spec: the body of `ApplyDeltasReverse` is not among the
sources. It "applies a sequence in reverse order to revert a block":
the last delta is undone first. -/
def BaseStore.ApplyDeltasReverse (s : BaseStore) (deltas : List StoreDelta) : BaseStore :=
  deltas.foldr (fun delta acc => acc.revertDelta delta) s

/-- A delta records faithfully a mutation of the map `kv`: a create is of a key
that is absent, an update or a delete carries as old value the value the key is
bound to. -/
def StoreDelta.Faithful (kv : KV) (delta : StoreDelta) : Prop :=
  match delta.Operation with
  | .CREATE => kv delta.Key = none
  | .UPDATE => kv delta.Key = some delta.OldValue
  | .DELETE => kv delta.Key = some delta.OldValue

/-- A sequence of deltas records faithfully a run of mutations that starts at
the store `s`: each delta is faithful to the map left by the deltas before it. -/
def BaseStore.FaithfulDeltas : BaseStore → List StoreDelta → Prop
  | _, [] => True
  | s, d :: ds => d.Faithful s.kv ∧ BaseStore.FaithfulDeltas (s.ApplyDelta d) ds

/-- The update of the map that the claim describes for one delta: the key of the
delta is bound to the new value by a create or an update and unbound by a
delete, every other key keeps its value. -/
def deltaUpdate (kv : KV) (delta : StoreDelta) : KV :=
  fun k =>
    if k = delta.Key then
      (if delta.Operation = .DELETE then none else some delta.NewValue)
    else kv k

/-- Modelled from the spec: `Reset` is not among the sources; it "clears the
delta buffer". -/
def BaseStore.Reset (s : BaseStore) : BaseStore :=
  { s with deltas := [] }

/-- Modelled from the spec: `GetLast` is not among the sources; it reads the
"post-block value", the value the key has in `kv`. -/
def BaseStore.GetLast (s : BaseStore) (key : String) : Option Bytes :=
  s.kv key

/-- Modelled from the spec: `GetFirst` is not among the sources; it reads the
"value as observed at ordinal 0 of the current block, i.e. the pre-block
value": the value of the key once the deltas of the current block are undone. -/
def BaseStore.GetFirst (s : BaseStore) (key : String) : Option Bytes :=
  (s.ApplyDeltasReverse s.deltas).kv key

/-- Modelled from the spec: `GetAt` is not among the sources; it reads the value
"respecting deltas issued ≤ ord": the value of the key in the pre-block map to
which the deltas of the current block with an ordinal up to `ord` are
applied. -/
def BaseStore.GetAt (s : BaseStore) (ord : Nat) (key : String) : Option Bytes :=
  ((s.ApplyDeltasReverse s.deltas).applyDeltas
    (s.deltas.filter (fun d => decide (d.Ordinal ≤ ord)))).kv key

/-- Modelled from the spec: the method `set` that `Append` and `Set` call is not
among the sources. It records the mutation as a delta of the current block,
`{op, key, old_value, new_value, ordinal}`, an update with the old value when
the key is bound and a create otherwise, and applies it. -/
def BaseStore.set (s : BaseStore) (ord : Nat) (key : String) (value : Bytes) : BaseStore :=
  let delta : StoreDelta :=
    match s.GetLast key with
    | some val =>
      { Operation := .UPDATE, Ordinal := ord, Key := key, OldValue := val, NewValue := value }
    | none =>
      { Operation := .CREATE, Ordinal := ord, Key := key, OldValue := [], NewValue := value }
  { (s.ApplyDelta delta) with deltas := s.deltas ++ [delta] }

/-- Modelled from the spec: `Set(ord, k, v)` is not among the sources; it is
`set` on the bytes of its value. -/
def BaseStore.Set (s : BaseStore) (ord : Nat) (key : String) (value : Bytes) : BaseStore :=
  s.set ord key value

/-- The method Append (store/value_append.go): the value read at `ord`, with
`value` after it, is set at `ord`. -/
def BaseStore.Append (s : BaseStore) (ord : Nat) (key : String) (value : Bytes) : BaseStore :=
  match s.GetAt ord key with
  | none => s.set ord key value
  | some oldVal => s.set ord key (oldVal ++ value)

/-- The writes `Set(o1, k, v1), ..., Set(on, k, vn)` issued in order. -/
def BaseStore.setAll (s : BaseStore) (key : String) (writes : List (Nat × Bytes)) : BaseStore :=
  writes.foldl (fun acc w => acc.Set w.1 key w.2) s

/-! ## Decimal block numbers in file names

File names carry block numbers printed with `%010d`. `fmt` and `strconv` are
outside the repository; they are embedded on lists of characters. -/

/-- The decimal digits of a number, as `%d` prints them. -/
def decimal (n : Nat) : List Char := Nat.toDigits 10 n

/-- The value of a run of decimal digits, most significant first. -/
def decimalValue (cs : List Char) : Nat :=
  cs.foldl (fun acc c => 10 * acc + (c.toNat - 48)) 0

/-- A character is one of the decimal digits `0` to `9`. -/
def isDecimalDigit (c : Char) : Bool :=
  decide (48 ≤ c.toNat ∧ c.toNat ≤ 57)

/-- The function pad (cache.go:320), `fmt.Sprintf("%010d", blockNumber)`: the
decimal digits of the number with zeros in front up to a width of 10. -/
def pad (blockNumber : Nat) : String :=
  String.mk (List.replicate (10 - (decimal blockNumber).length) '0' ++ decimal blockNumber)

/-- The function ComputeDBinFilename (cache.go:316),
`fmt.Sprintf("%010d-%010d.output", startBlock, stopBlock)`. -/
def ComputeDBinFilename (startBlock stopBlock : Nat) : String :=
  pad startBlock ++ "-" ++ pad stopBlock ++ ".output"

/-- The function ComputeStartBlock (cache.go:324),
`startBlock - startBlock%saveBlockInterval`; `none` is the panic of `% 0`. -/
def ComputeStartBlock (startBlock saveBlockInterval : Nat) : Option Nat :=
  if saveBlockInterval = 0 then none
  else some (startBlock - startBlock % saveBlockInterval)

/-- Modelled from the spec: `fullStateFilePrefix` is not among the sources (its
test is); the prefix of a full state is its end block, zero-padded to 10
digits. -/
def fullStateFilePrefix (exclusiveEndBlock : Nat) : String :=
  pad exclusiveEndBlock

/-- Modelled from the spec: `fullStateFileName` is not among the sources (its
test is); "Full state: `<end>-<start>.kv`", zero-padded to 10 digits. -/
def fullStateFileName (r : Range) : String :=
  pad r.ExclusiveEndBlock ++ "-" ++ pad r.StartBlock ++ ".kv"

/-- Modelled from the spec: `partialFileName` is not among the sources (its test
is); "Partial state: `<end>-<start>.partial`", zero-padded to 10 digits. -/
def partialFileName (r : Range) : String :=
  pad r.ExclusiveEndBlock ++ "-" ++ pad r.StartBlock ++ ".partial"

/-- Modelled from the spec: `state.StateFilePrefix` is not among the sources
(its test is); the prefix of the store package after `<module>-`. -/
def StateFilePrefix (storeName : String) (blockNum : Nat) : String :=
  storeName ++ "-" ++ pad blockNum

/-- Modelled from the spec: `state.StateFileName` is not among the sources (its
test is); the full-state name of the store package after `<module>-`. -/
def StateFileName (storeName : String) (startBlock endBlock : Nat) : String :=
  storeName ++ "-" ++ pad endBlock ++ "-" ++ pad startBlock ++ ".kv"

/-- Modelled from the spec: `state.PartialFileName` is not among the sources
(its test is); the partial name of the store package after `<module>-`. -/
def PartialFileName (storeName : String) (startBlock endBlock : Nat) : String :=
  storeName ++ "-" ++ pad endBlock ++ "-" ++ pad startBlock ++ ".partial"

/-- What a Go call ends with: a value, a returned error, or a runtime panic. -/
inductive GoResult (α : Type) where
  | ok (a : α)
  | error
  | panic
deriving DecidableEq, Repr

/-- The call `strconv.ParseInt(s, 10, 64)`: an optional sign, then one digit or
more, and a value that fits `int64`; `none` is an error. -/
def ParseInt (cs : List Char) : Option Int :=
  match cs with
  | '-' :: ds =>
    if ds ≠ [] ∧ ds.all isDecimalDigit = true ∧ decimalValue ds ≤ 2 ^ 63 then
      some (-(decimalValue ds : Int))
    else none
  | '+' :: ds =>
    if ds ≠ [] ∧ ds.all isDecimalDigit = true ∧ decimalValue ds < 2 ^ 63 then
      some (decimalValue ds : Int)
    else none
  | ds =>
    if ds ≠ [] ∧ ds.all isDecimalDigit = true ∧ decimalValue ds < 2 ^ 63 then
      some (decimalValue ds : Int)
    else none

/-- The conversion `uint64(v)` of a signed 64-bit value. -/
def u64OfInt (v : Int) : Nat := (v % (2 ^ 64 : Int)).toNat

/-- Modelled from the spec: `utils.MustAtoi` is not among the sources; it is
`strconv.Atoi` with a panic (`none`) in place of the error. -/
def MustAtoi (s : String) : Option Int := ParseInt s.data

/-- A run of characters is a block number as file names carry it: decimal
digits only, zero-padded to 10 digits (exactly 10 digits, or more with no zero
in front). -/
def isPadded (cs : List Char) : Bool :=
  cs.all isDecimalDigit && (cs.length == 10 || (decide (10 < cs.length) && cs.head? != some '0'))

/-- Modelled from the spec: the regular expression `cacheFilenameRegex` is not
among the sources. "Map output cache: `<start>-<end>.output`", zero-padded to
10 digits, and "parsers must reject any name not matching this grammar": the
match gives the two groups `<start>` and `<end>` of a name of that form and
fails on every other name. -/
def cacheFilenameSubmatch (filename : String) : Option (String × String) :=
  match filename.data.dropWhile (fun c => c != '-') with
  | [] => none
  | _ :: afterDash =>
    if afterDash.drop (afterDash.length - 7) = ".output".data
        ∧ isPadded (filename.data.takeWhile (fun c => c != '-')) = true
        ∧ isPadded (afterDash.take (afterDash.length - 7)) = true then
      some (String.mk (filename.data.takeWhile (fun c => c != '-')),
        String.mk (afterDash.take (afterDash.length - 7)))
    else none

/-- The function fileNameToRange (cache.go:266-279): an error when the regular
expression does not match, a panic when `MustAtoi` fails, else the range of
the two groups. -/
def fileNameToRange (filename : String) : GoResult Range :=
  match cacheFilenameSubmatch filename with
  | none => .error
  | some (startGroup, endGroup) =>
    match MustAtoi startGroup, MustAtoi endGroup with
    | some startBlock, some endBlock =>
      .ok { StartBlock := u64OfInt startBlock, ExclusiveEndBlock := u64OfInt endBlock }
    | _, _ => .panic

/-! ## The output cache (pipeline/execout/cachev1/cache.go) -/

/-- The block clock, `pbsubstreams.Clock`; the timestamp is kept as a number. -/
structure Clock where
  Number : Nat
  Id : String
  Timestamp : Nat
deriving DecidableEq, Repr

/-- The struct CacheItem; the timestamp is kept as a number. -/
structure CacheItem where
  BlockNum : Nat
  BlockID : String
  Payload : Bytes
  Timestamp : Nat
  Cursor : String
deriving DecidableEq, Repr

/-- The type outputKV, Go `map[string]*CacheItem`: a block id is absent or
bound to an item. -/
abbrev outputKV := String → Option CacheItem

/-- The map `make(outputKV)`. -/
def outputKV.empty : outputKV := fun _ => none

/-- The object store behind a cache, `dstore.Store`, which is outside the
repository. A call may fail and be tried again, so each call is told the number
of the attempt: `listFiles under attempt` is `ListFiles(ctx, under,
math.MaxInt64)` and `openObject filename attempt` is `OpenObject` followed by
the JSON decoding of the object into a map; `none` is an error. -/
structure ObjectStore where
  listFiles : String → Nat → Option (List String)
  openObject : String → Nat → Option outputKV

/-- The calls a cache issues on its object store, in order. -/
inductive StoreCall where
  | listFiles (under : String)
  | openObject (filename : String)
deriving DecidableEq, Repr

/-- The fields of OutputCache that its methods read or write. A new cache has a
nil `currentBlockRange` and a nil map `kv` (`none`). -/
structure OutputCache where
  moduleName : String
  currentBlockRange : Option Range
  kv : Option outputKV
  saveBlockInterval : Nat

/-- The constructor NewOutputCache. -/
def NewOutputCache (moduleName : String) (saveBlockInterval : Nat) : OutputCache :=
  { moduleName := moduleName, currentBlockRange := none, kv := none,
    saveBlockInterval := saveBlockInterval }

/-- The entry of a block id in the map of a cache, none when the map is nil or
has no entry for the id. -/
def OutputCache.entry (c : OutputCache) (blockID : String) : Option CacheItem :=
  match c.kv with
  | none => none
  | some kv => kv blockID

/-- The method Set (cache.go:73-91): the item built from the clock, the cursor
and a copy of the data is stored at `kv[clock.Id]`. The assignment panics on a
nil map. -/
def OutputCache.Set (c : OutputCache) (clock : Clock) (cursor : String) (data : Bytes) :
    GoResult OutputCache :=
  let ci : CacheItem :=
    { BlockNum := clock.Number, BlockID := clock.Id, Timestamp := clock.Timestamp,
      Cursor := cursor, Payload := data }
  match c.kv with
  | none => .panic
  | some kv => .ok { c with kv := some (fun id => if id = clock.Id then some ci else kv id) }

/-- The method Get (cache.go:93-104): `(payload, true)` is `some payload`,
`(nil, false)` is `none`. -/
def OutputCache.Get (c : OutputCache) (clock : Clock) : Option Bytes :=
  match c.entry clock.Id with
  | none => none
  | some cacheItem => some cacheItem.Payload

/-- The method Delete (cache.go:233-238), `delete(c.kv, blockID)`; on a nil map
it does nothing. -/
def OutputCache.Delete (c : OutputCache) (blockID : String) : OutputCache :=
  match c.kv with
  | none => c
  | some kv => { c with kv := some (fun id => if id = blockID then none else kv id) }

/-- The call `derr.RetryContext(ctx, 3, f)` of a library outside the repository,
with the retry policy the specification gives, "3 attempts": `f` is tried
until it succeeds, three times at most. The result comes with the number of
attempts made. -/
def RetryContext {α : Type} (f : Nat → Option α) : Option α × Nat :=
  match f 0 with
  | some a => (some a, 1)
  | none =>
    match f 1 with
    | some a => (some a, 2)
    | none => (f 2, 3)

/-- The call `strings.Split(s, sep)` for a separator of one character. -/
def splitChars (sep : Char) : List Char → List (List Char)
  | [] => [[]]
  | c :: cs =>
    if c = sep then [] :: splitChars sep cs
    else
      match splitChars sep cs with
      | [] => [[c]]
      | h :: t => (c :: h) :: t

/-- The call `strings.TrimLeft(s, "0")`. -/
def trimLeftZeros (cs : List Char) : List Char :=
  cs.dropWhile (fun c => c == '0')

/-- The function getExclusiveEndBlock (cache.go:328-337). The index `[1]`
panics when the name has no `-`. -/
def getExclusiveEndBlock (filename : String) : GoResult Nat :=
  match splitChars '-' filename.data with
  | _ :: second :: _ =>
    let endBlock := (splitChars '.' second).headD []
    match ParseInt (trimLeftZeros endBlock) with
    | none => .error
    | some parsedInt => .ok (u64OfInt parsedInt)
  | _ => .panic

/-- The loop of findBlockRange over the listed files (cache.go:301-309). -/
def biggestEndBlockLoop : List String → Nat → GoResult Nat
  | [], biggestEndBlock => .ok biggestEndBlock
  | file :: rest, biggestEndBlock =>
    match getExclusiveEndBlock file with
    | .ok endBlock =>
      biggestEndBlockLoop rest (if endBlock > biggestEndBlock then endBlock else biggestEndBlock)
    | .error => .error
    | .panic => .panic

/-- The function findBlockRange (cache.go:281-314): `ok (some r)` is
`(r, true, nil)`, `ok none` is `(nil, false, nil)`. The result comes with the
calls issued on the store. `block.NewRange`, which is not among the sources, is
taken as the plain construction of the range. -/
def findBlockRange (store : ObjectStore) (prefixStartBlock : Nat) :
    GoResult (Option Range) × List StoreCall :=
  let paddedBlock := pad prefixStartBlock
  let listed := RetryContext (store.listFiles paddedBlock)
  let calls := List.replicate listed.2 (StoreCall.listFiles paddedBlock)
  match listed.1 with
  | none => (.error, calls)
  | some files =>
    if files.length = 0 then (.ok none, calls)
    else
      match biggestEndBlockLoop files 0 with
      | .ok exclusiveEndBlock =>
        (.ok (some { StartBlock := prefixStartBlock, ExclusiveEndBlock := exclusiveEndBlock }),
          calls)
      | .error => (.error, calls)
      | .panic => (.panic, calls)

/-- The method Load (cache.go:144-170). The decoding of the object fills the
fresh map; an attempt that fails is taken to leave the map empty. -/
def OutputCache.Load (store : ObjectStore) (c : OutputCache) (blockRange : Range) :
    GoResult Unit × OutputCache × List StoreCall :=
  let filename := ComputeDBinFilename blockRange.StartBlock blockRange.ExclusiveEndBlock
  let opened := RetryContext (store.openObject filename)
  let calls := List.replicate opened.2 (StoreCall.openObject filename)
  match opened.1 with
  | none => (.error, { c with kv := some outputKV.empty }, calls)
  | some decoded => (.ok (), { c with kv := some decoded, currentBlockRange := some blockRange }, calls)

/-- The method LoadAtBlock (cache.go:119-143): `ok found` is `(found, nil)`,
`error` is `(false, err)`. The sum `atBlock + c.saveBlockInterval` is a
`uint64` sum. -/
def OutputCache.LoadAtBlock (store : ObjectStore) (c : OutputCache) (atBlock : Nat) :
    GoResult Bool × OutputCache × List StoreCall :=
  let c1 := { c with kv := some outputKV.empty }
  match findBlockRange store atBlock with
  | (.error, calls) => (.error, c1, calls)
  | (.panic, calls) => (.panic, c1, calls)
  | (.ok none, calls) =>
    (.ok false,
      { c1 with
        currentBlockRange := some (Range.mk atBlock ((atBlock + c.saveBlockInterval) % 2 ^ 64)) },
      calls)
  | (.ok (some blockRange), calls) =>
    match OutputCache.Load store c1 blockRange with
    | (.ok _, c2, calls2) => (.ok true, c2, calls ++ calls2)
    | (.error, c2, calls2) => (.error, c2, calls ++ calls2)
    | (.panic, c2, calls2) => (.panic, c2, calls ++ calls2)

/-- An object store that holds the one file `0000000150-0000000250.output`, with
no item in it. -/
def oneFileStore : ObjectStore :=
  { listFiles := fun under _ =>
      if under = "0000000150" then some ["0000000150-0000000250.output"] else some []
    openObject := fun _ _ => some outputKV.empty }

/-- A cache of the module `module1` with an initialised, empty map. -/
def emptyCache : OutputCache :=
  { moduleName := "module1", currentBlockRange := none, kv := some outputKV.empty,
    saveBlockInterval := 10 }

/-- An object store that holds no file. -/
def noFileStore : ObjectStore :=
  { listFiles := fun _ _ => some []
    openObject := fun _ _ => none }

/-- What the goroutine started by save does, in order: a call of
`WriteObject` for the file, and the warning `failed writing output cache`. -/
inductive SaveEvent where
  | writeObject (filename : String)
  | warnFailedWriting
deriving DecidableEq, Repr

/-- The body of the goroutine of save (cache.go:182-190): the write is tried up
to three times and a failure ends in a warning of the logger. `writeObject
filename cnt attempt` is `c.store.WriteObject(ctx, filename, reader)` at the
given attempt; `none` is an error. -/
def OutputCache.saveTask (writeObject : String → Bytes → Nat → Option Unit)
    (filename : String) (cnt : Bytes) : List SaveEvent :=
  let written := RetryContext (writeObject filename cnt)
  List.replicate written.2 (SaveEvent.writeObject filename)
    ++ (match written.1 with
        | some _ => []
        | none => [.warnFailedWriting])

/-- The method save (cache.go:172-193): the error it returns (`none` is nil;
the only error is that of the JSON encoding of the map) and what the goroutine
it starts does. `jsonEncode` is `json.NewEncoder(buffer).Encode(c.kv)`, `none`
when it fails. -/
def OutputCache.save (jsonEncode : Option outputKV → Option Bytes)
    (writeObject : String → Bytes → Nat → Option Unit) (c : OutputCache) (filename : String) :
    Option Unit × List SaveEvent :=
  match jsonEncode c.kv with
  | none => (some (), [])
  | some cnt => (none, OutputCache.saveTask writeObject filename cnt)

/-! ## Snapshots (orchestrator/snapshots.go) -/

/-- The struct Snapshots. -/
structure Snapshots where
  Completes : List Range
  Partials : List Range
deriving DecidableEq, Repr

/-- The method Sort (snapshots.go:16-23). -/
def Snapshots.Sort (s : Snapshots) : Snapshots :=
  { Completes :=
      sortSlice (fun a b => decide (a.ExclusiveEndBlock < b.ExclusiveEndBlock)) s.Completes
    Partials := sortSlice (fun a b => decide (a.StartBlock < b.StartBlock)) s.Partials }

/-- The method LastCompletedBlock (snapshots.go:29-34). -/
def Snapshots.LastCompletedBlock (s : Snapshots) : Nat :=
  match s.Completes.getLast? with
  | none => 0
  | some r => r.ExclusiveEndBlock

/-- The loop of LastCompleteSnapshotBefore, `for i := len(s.Completes); i > 0;
i--`, on the completes it still has to visit, the last one first. -/
def lastCompleteLoop (blockNum : Nat) : List Range → Option Range
  | [] => none
  | comp :: earlier =>
    if comp.ExclusiveEndBlock > blockNum then lastCompleteLoop blockNum earlier
    else some comp

/-- The method LastCompleteSnapshotBefore (snapshots.go:36-45); `none` is nil. -/
def Snapshots.LastCompleteSnapshotBefore (s : Snapshots) (blockNum : Nat) : Option Range :=
  lastCompleteLoop blockNum s.Completes.reverse

/-- The method ContainsPartial (snapshots.go:47-54). -/
def Snapshots.ContainsPartial (s : Snapshots) (r : Range) : Bool :=
  s.Partials.any (fun file =>
    file.StartBlock == r.StartBlock && file.ExclusiveEndBlock == r.ExclusiveEndBlock)

/-- A snapshot file as `store.ListSnapshotFiles` lists it; of the type, which is
not among the sources, the three fields listSnapshots reads. -/
structure FileInfo where
  Partial : Bool
  StartBlock : Nat
  EndBlock : Nat
deriving DecidableEq, Repr

/-- The range of a listed file, `block.NewRange(file.StartBlock, file.EndBlock)`. -/
def FileInfo.toRange (file : FileInfo) : Range :=
  { StartBlock := file.StartBlock, ExclusiveEndBlock := file.EndBlock }

/-- The loop of listSnapshots over the listed files (snapshots.go:69-76). -/
def listSnapshotsLoop (out : Snapshots) : List FileInfo → Snapshots
  | [] => out
  | file :: rest =>
    if file.Partial then
      listSnapshotsLoop { out with Partials := out.Partials ++ [file.toRange] } rest
    else
      listSnapshotsLoop { out with Completes := out.Completes ++ [file.toRange] } rest

/-- The function listSnapshots (snapshots.go:61-79) on what
`store.ListSnapshotFiles` returns, `none` being its error. -/
def listSnapshots (listed : Option (List FileInfo)) : GoResult Snapshots :=
  match listed with
  | none => .error
  | some files => .ok (listSnapshotsLoop { Completes := [], Partials := [] } files).Sort

/-! ## The fork handler (pipeline) -/

/-- A module output, `pbsubstreams.ModuleOutput`, with the field the test sets. -/
structure ModuleOutput where
  Name : String
deriving DecidableEq, Repr

/-- The state of the fork handler, `reversible_outputs: block_num → outputs`, Go
`map[uint64][]*pbsubstreams.ModuleOutput`. -/
structure ForkHandler where
  reversibleOutputs : Nat → Option (List ModuleOutput)

/-- Modelled from the spec: the body of `removeReversibleOutput` is not among
the sources (its test and its calls are). On `irreversible(block_num)` or
`stalled(block_num)` it "deletes the entry unconditionally". -/
def ForkHandler.removeReversibleOutput (f : ForkHandler) (blockNum : Nat) : ForkHandler :=
  { reversibleOutputs := fun n => if n = blockNum then none else f.reversibleOutputs n }

/-- The outputs every block of Test_HandleIrreversibility holds. -/
def testModuleOutputs : List ModuleOutput :=
  [⟨"module_1"⟩, ⟨"module_2"⟩, ⟨"module_3"⟩]

/-- The fork handler of Test_HandleIrreversibility, with reversible outputs at
the blocks 10, 20, 30, 40 and 50. -/
def testForkHandler : ForkHandler :=
  { reversibleOutputs := fun n =>
      if n = 10 ∨ n = 20 ∨ n = 30 ∨ n = 40 ∨ n = 50 then some testModuleOutputs else none }

/-! ## The per-block pipeline (pipeline/process_block.go) -/

/-- The step of a block, "a bitmask over {new, undo, irreversible, stalled}";
`step.Matches(bstream.StepUndo)` is the field `Undo`, and so on. -/
structure StepType where
  New : Bool
  Undo : Bool
  Irreversible : Bool
  Stalled : Bool
deriving DecidableEq, Repr

/-- A block as the pipeline reads it: its number, its id and its time. -/
structure Block where
  Num : Nat
  Id : String
  Time : Nat
deriving DecidableEq, Repr

/-- The errors handleStepMatchesNew returns, by the call that failed; `eof` is
`io.EOF`, returned when the stop block is reached. -/
inductive NewStepError where
  | setupExecOutput
  | preBlockHook
  | flushStores
  | eof
  | executeModules (executor : String)
  | returnProgress
  | returnDataOutputs
deriving DecidableEq, Repr

/-- The errors processBlock returns: the wrapped error of a step, the error made
of a recovered panic, or the error of the caching engine. -/
inductive ProcessError where
  | stepUndo
  | stepNew (cause : NewStepError)
  | panicAt (blockNum : Nat)
  | cachingEngineNewBlock
deriving DecidableEq, Repr

/-- What a call of the pipeline ends with: nil, an error, or a panic. -/
inductive Outcome (ε : Type) where
  | ok
  | error (e : ε)
  | panic
deriving DecidableEq, Repr

/-- The calls the pipeline makes while it processes a block, in order. -/
inductive Action where
  | handleUndo
  | removeReversibleOutput (blockNum : Nat)
  | newExecOutput
  | runPreBlockHooks
  | flushStores (blockNum : Nat)
  | runExecutor (executor : String)
  | returnModuleProgressOutputs
  | returnModuleDataOutputs
  | resetStores
  | cachingEngineNewBlock
  | runPostJobHooks (clock : Clock)
deriving DecidableEq, Repr

/-- The behaviour, on one block, of what the pipeline calls and the sources do
not hold: each call ends with nil, an error or a panic; `forkHandlerAfterUndo`
is the fork handler that `handleUndo` leaves; `isStopBlockReached`,
`shouldReturnProgress` and `shouldReturnDataOutputs` are the results of the
functions of these names. -/
structure BlockEnv where
  handleUndo : GoResult Unit
  forkHandlerAfterUndo : ForkHandler → ForkHandler
  newExecOutput : GoResult Unit
  runPreBlockHooks : GoResult Unit
  flushStores : GoResult Unit
  isStopBlockReached : Bool
  runExecutor : String → GoResult Unit
  shouldReturnProgress : Bool
  returnModuleProgressOutputs : GoResult Unit
  shouldReturnDataOutputs : Bool
  returnModuleDataOutputs : GoResult Unit
  cachingEngineNewBlock : GoResult Unit

/-- The fields of Pipeline that the processing of a block reads or writes. -/
structure Pipeline where
  moduleExecutors : List String
  forkHandler : ForkHandler
  moduleOutputs : List ModuleOutput

/-- The loop of executeModules (process_block.go:143-147): it returns at the
first executor that fails. -/
def executeModulesLoop (env : BlockEnv) : List String → Outcome NewStepError × List Action
  | [] => (.ok, [])
  | executor :: rest =>
    match env.runExecutor executor with
    | .error => (.error (.executeModules executor), [.runExecutor executor])
    | .panic => (.panic, [.runExecutor executor])
    | .ok _ =>
      ((executeModulesLoop env rest).1, .runExecutor executor :: (executeModulesLoop env rest).2)

/-- The method executeModules (process_block.go:139-150). -/
def Pipeline.executeModules (p : Pipeline) (env : BlockEnv) :
    Outcome NewStepError × List Action :=
  executeModulesLoop env p.moduleExecutors

/-- The end of handleStepMatchesNew, from the test of the stop block on
(process_block.go:98-136); `done` holds the calls made before. -/
def Pipeline.finishStepNew (p : Pipeline) (env : BlockEnv) (done : List Action) :
    Outcome NewStepError × Pipeline × List Action :=
  if env.isStopBlockReached then (.error .eof, p, done)
  else
    match p.executeModules env with
    | (.error e, ran) => (.error e, p, done ++ ran)
    | (.panic, ran) => (.panic, p, done ++ ran)
    | (.ok, ran) =>
      let progress : Outcome NewStepError × List Action :=
        if env.shouldReturnProgress then
          match env.returnModuleProgressOutputs with
          | .ok _ => (.ok, [.returnModuleProgressOutputs])
          | .error => (.error .returnProgress, [.returnModuleProgressOutputs])
          | .panic => (.panic, [.returnModuleProgressOutputs])
        else (.ok, [])
      match progress with
      | (.error e, sent) => (.error e, p, done ++ ran ++ sent)
      | (.panic, sent) => (.panic, p, done ++ ran ++ sent)
      | (.ok, sent) =>
        let outputs : Outcome NewStepError × List Action :=
          if env.shouldReturnDataOutputs then
            match env.returnModuleDataOutputs with
            | .ok _ => (.ok, [.returnModuleDataOutputs])
            | .error => (.error .returnDataOutputs, [.returnModuleDataOutputs])
            | .panic => (.panic, [.returnModuleDataOutputs])
          else (.ok, [])
        match outputs with
        | (.error e, sent2) => (.error e, p, done ++ ran ++ sent ++ sent2)
        | (.panic, sent2) => (.panic, p, done ++ ran ++ sent ++ sent2)
        | (.ok, sent2) =>
          (.ok, { p with moduleOutputs := [] }, done ++ ran ++ sent ++ sent2 ++ [.resetStores])

/-- The method handleStepMatchesNew (process_block.go:83-137). -/
def Pipeline.handleStepMatchesNew (p : Pipeline) (env : BlockEnv) (block : Block) :
    Outcome NewStepError × Pipeline × List Action :=
  match env.newExecOutput with
  | .error => (.error .setupExecOutput, p, [.newExecOutput])
  | .panic => (.panic, p, [.newExecOutput])
  | .ok _ =>
    match env.runPreBlockHooks with
    | .error => (.error .preBlockHook, p, [.newExecOutput, .runPreBlockHooks])
    | .panic => (.panic, p, [.newExecOutput, .runPreBlockHooks])
    | .ok _ =>
      match env.flushStores with
      | .error =>
        (.error .flushStores, p, [.newExecOutput, .runPreBlockHooks, .flushStores block.Num])
      | .panic => (.panic, p, [.newExecOutput, .runPreBlockHooks, .flushStores block.Num])
      | .ok _ =>
        p.finishStepNew env [.newExecOutput, .runPreBlockHooks, .flushStores block.Num]

/-- The `switch` of processBlock on the step (process_block.go:49-62). -/
def Pipeline.dispatchStep (p : Pipeline) (env : BlockEnv) (block : Block) (step : StepType) :
    Outcome ProcessError × Pipeline × List Action :=
  if step.Undo then
    match env.handleUndo with
    | .ok _ => (.ok, { p with forkHandler := env.forkHandlerAfterUndo p.forkHandler },
        [.handleUndo])
    | .error => (.error .stepUndo, p, [.handleUndo])
    | .panic => (.panic, p, [.handleUndo])
  else if step.Stalled then
    (.ok, { p with forkHandler := p.forkHandler.removeReversibleOutput block.Num },
      [.removeReversibleOutput block.Num])
  else if step.New then
    match p.handleStepMatchesNew env block with
    | (.ok, p1, acts) => (.ok, p1, acts)
    | (.error e, p1, acts) => (.error (.stepNew e), p1, acts)
    | (.panic, p1, acts) => (.panic, p1, acts)
  else (.ok, p, [])

/-- The body of processBlock after the `switch` (process_block.go:64-72). -/
def Pipeline.afterStep (p : Pipeline) (env : BlockEnv) (block : Block) (step : StepType)
    (done : List Action) : Outcome ProcessError × Pipeline × List Action :=
  let p1 : Pipeline :=
    if step.Irreversible then
      { p with forkHandler := p.forkHandler.removeReversibleOutput block.Num }
    else p
  let done1 : List Action :=
    if step.Irreversible then done ++ [.removeReversibleOutput block.Num] else done
  match env.cachingEngineNewBlock with
  | .ok _ => (.ok, p1, done1 ++ [.cachingEngineNewBlock])
  | .error => (.error .cachingEngineNewBlock, p1, done1 ++ [.cachingEngineNewBlock])
  | .panic => (.panic, p1, done1 ++ [.cachingEngineNewBlock])

/-- The method processBlock (process_block.go:39-73): the error it returns
(`none` is nil), the pipeline afterwards and the calls made. The deferred
`recover` turns a panic into an error. -/
def Pipeline.processBlock (p : Pipeline) (env : BlockEnv) (block : Block) (step : StepType) :
    Option ProcessError × Pipeline × List Action :=
  let body : Outcome ProcessError × Pipeline × List Action :=
    match p.dispatchStep env block step with
    | (.ok, p1, acts) => p1.afterStep env block step acts
    | (.error e, p1, acts) => (.error e, p1, acts)
    | (.panic, p1, acts) => (.panic, p1, acts)
  match body with
  | (.ok, p2, acts) => (none, p2, acts)
  | (.error e, p2, acts) => (some e, p2, acts)
  | (.panic, p2, acts) => (some (.panicAt block.Num), p2, acts)

/-- The clock ProcessBlock builds from the block (process_block.go:22-26). -/
def Block.clock (block : Block) : Clock :=
  { Number := block.Num, Id := block.Id, Timestamp := block.Time }

/-- The method ProcessBlock (process_block.go:17-37). -/
def Pipeline.ProcessBlock (p : Pipeline) (env : BlockEnv) (block : Block) (step : StepType) :
    Option ProcessError × Pipeline × List Action :=
  match p.processBlock env block step with
  | (none, p1, acts) => (none, p1, acts)
  | (some err, p1, acts) => (some err, p1, acts ++ [.runPostJobHooks block.clock])

/-- Whether a call is a run of the post-job hooks. -/
def Action.isHooks : Action → Bool
  | .runPostJobHooks _ => true
  | _ => false

/-- A block on which every call of the pipeline succeeds and no stop block is
reached. -/
def calmBlockEnv : BlockEnv :=
  { handleUndo := .ok ()
    forkHandlerAfterUndo := fun f => f
    newExecOutput := .ok ()
    runPreBlockHooks := .ok ()
    flushStores := .ok ()
    isStopBlockReached := false
    runExecutor := fun _ => .ok ()
    shouldReturnProgress := false
    returnModuleProgressOutputs := .ok ()
    shouldReturnDataOutputs := true
    returnModuleDataOutputs := .ok ()
    cachingEngineNewBlock := .ok () }

/-- A pipeline with two module executors and the fork handler of the test. -/
def demoPipeline : Pipeline :=
  { moduleExecutors := ["map_a", "store_b"], forkHandler := testForkHandler, moduleOutputs := [] }

/-- A block on which the executor `store_b` returns an error and every other
call succeeds. -/
def failingModuleEnv : BlockEnv :=
  { calmBlockEnv with
    runExecutor := fun executor => if executor = "store_b" then .error else .ok () }

/-! ## Initial snapshots (pipeline/snapshot.go) -/

/-- The message `pbsubstreams.InitialSnapshotData`. -/
structure InitialSnapshotData where
  ModuleName : String
  Deltas : List StoreDelta
  SentKeys : Nat
  TotalKeys : Nat
deriving DecidableEq, Repr

/-- The responses sendSnapshots passes to `respFunc`. -/
inductive Response where
  | snapshotData (data : InitialSnapshotData)
  | snapshotComplete
deriving DecidableEq, Repr

/-- A store as sendSnapshots reads it: the keys and values `Iter` visits, in the
order it visits them, and the result of `Length()`. -/
structure SnapshotStore where
  iterated : List (String × Bytes)
  length : Nat

/-- The delta the callback of `Iter` builds for a key (snapshot.go:40-44). -/
def createDelta (k : String) (v : Bytes) : StoreDelta :=
  { Operation := .CREATE, Ordinal := 0, Key := k, OldValue := [], NewValue := v }

/-- The closure `send` (snapshot.go:22-32), as the message it passes on. -/
def send (modName : String) (count total : Nat) (deltas : List StoreDelta) :
    InitialSnapshotData :=
  { ModuleName := modName, Deltas := deltas, SentKeys := count, TotalKeys := total }

/-- The call `store.Iter` with the callback of sendSnapshots (snapshot.go:38-51)
on the entries still to visit, from the current `count` and `accum` and the
messages sent so far for this store. -/
def iterSnapshot (modName : String) (total : Nat) :
    List (String × Bytes) → Nat → List StoreDelta → List InitialSnapshotData →
      Nat × List StoreDelta × List InitialSnapshotData
  | [], count, accum, sent => (count, accum, sent)
  | (k, v) :: rest, count, accum, sent =>
    let count1 := (count + 1) % 2 ^ 64
    let accum1 := accum ++ [createDelta k v]
    if count1 % 100 = 0 then
      iterSnapshot modName total rest count1 [] (sent ++ [send modName count1 total accum1])
    else iterSnapshot modName total rest count1 accum1 sent

/-- The body of the loop of sendSnapshots for one store that was found
(snapshot.go:22-55): the messages sent for it, in order. -/
def storeSnapshot (modName : String) (store : SnapshotStore) : List InitialSnapshotData :=
  match iterSnapshot modName store.length store.iterated 0 [] [] with
  | (count, accum, sent) =>
    if accum.length ≠ 0 then sent ++ [send modName count store.length accum] else sent

/-- The loop of sendSnapshots over the requested modules and the final message
(snapshot.go:16-60): the error returned (`none` is nil, `some modName` is
`store "modName" not found`) and the responses sent. -/
def sendSnapshotsLoop (storeMap : String → Option SnapshotStore) :
    List String → List Response → Option String × List Response
  | [], sent => (none, sent ++ [.snapshotComplete])
  | modName :: rest, sent =>
    match storeMap modName with
    | none => (some modName, sent)
    | some store =>
      sendSnapshotsLoop storeMap rest
        (sent ++ (storeSnapshot modName store).map Response.snapshotData)

/-- The method sendSnapshots (snapshot.go:9-61) for the requested
`InitialStoreSnapshotForModules` and the store map of the pipeline. -/
def sendSnapshots (snapshotModules : List String) (storeMap : String → Option SnapshotStore) :
    Option String × List Response :=
  if snapshotModules.length = 0 then (none, [])
  else sendSnapshotsLoop storeMap snapshotModules []

/-- The running totals of a list of numbers from a base: the base plus the
first, that plus the second, and so on. -/
def runningTotals : Nat → List Nat → List Nat
  | _, [] => []
  | base, x :: xs => (base + x) :: runningTotals (base + x) xs

/-- What holds of `count`, `accum` and the messages sent for a store once `Iter`
has visited the entries `visited`: the count is their number, `accum` holds the
deltas not yet sent, fewer than 100, and the messages sent hold 100 deltas
each, with the running totals as their SentKeys. -/
def SnapshotInv (modName : String) (total : Nat) (visited : List (String × Bytes))
    (count : Nat) (accum : List StoreDelta) (sent : List InitialSnapshotData) : Prop :=
  count = visited.length
  ∧ accum.length = count % 100
  ∧ (sent.map (fun m => m.Deltas)).flatten ++ accum
      = visited.map (fun kv => createDelta kv.1 kv.2)
  ∧ (∀ m ∈ sent, m.Deltas.length = 100 ∧ m.ModuleName = modName ∧ m.TotalKeys = total)
  ∧ sent.length = count / 100
  ∧ sent.map (fun m => m.SentKeys) = runningTotals 0 (sent.map (fun m => m.Deltas.length))

/-- The data responses a store is expected to give, used to state what
sendSnapshots sends: the messages of storeSnapshot when the store is found. -/
def expectedSnapshotData (storeMap : String → Option SnapshotStore) (modName : String) :
    List Response :=
  match storeMap modName with
  | none => []
  | some store => (storeSnapshot modName store).map Response.snapshotData

/-- A store that visits 250 entries, each the key `k` with the value `[1]`. -/
def demoStore : SnapshotStore :=
  { iterated := List.replicate 250 ("k", [1]), length := 250 }

/-- A store map with the one store `s`, the store `demoStore`. -/
def demoStoreMap : String → Option SnapshotStore :=
  fun modName => if modName = "s" then some demoStore else none

/-! ### Properties of the contiguous run -/

theorem contiguousRun_isPrefix (l : List Range) : contiguousRun l <+: l := by
  induction l with
  | nil => simp [contiguousRun]
  | cons a t ih =>
    cases t with
    | nil => simp [contiguousRun]
    | cons b rest =>
      by_cases h : a.ExclusiveEndBlock = b.StartBlock
      · simp only [contiguousRun, h, if_true]
        exact (List.prefix_cons_inj a).2 ih
      · simp only [contiguousRun, h, if_false]
        exact ⟨b :: rest, rfl⟩

theorem contiguousRun_chain (l : List Range) :
    (contiguousRun l).Chain' Range.Contiguous := by
  induction l with
  | nil => simp [contiguousRun]
  | cons a t ih =>
    cases t with
    | nil => simp [contiguousRun]
    | cons b rest =>
      by_cases h : a.ExclusiveEndBlock = b.StartBlock
      · simp only [contiguousRun, h, if_true]
        cases rest with
        | nil =>
          simp [contiguousRun, Range.Contiguous, h]
        | cons c rest2 =>
          by_cases h2 : b.ExclusiveEndBlock = c.StartBlock
          · simp only [contiguousRun, h2, if_true] at ih ⊢
            exact List.Chain'.cons h ih
          · simp only [contiguousRun, h2, if_false] at ih ⊢
            simp [Range.Contiguous, h]
      · simp [contiguousRun, h]

theorem contiguousRun_maximal (l p : List Range) (hp : p <+: l)
    (hc : p.Chain' Range.Contiguous) : p <+: contiguousRun l := by
  induction l generalizing p with
  | nil =>
    have : p = [] := List.prefix_nil.1 hp
    subst this; simp
  | cons a t ih =>
    cases p with
    | nil => simp
    | cons x p1 =>
      have hx : x = a ∧ p1 <+: t := by
        rcases hp with ⟨s, hs⟩
        simp only [List.cons_append, List.cons.injEq] at hs
        exact ⟨hs.1, ⟨s, hs.2⟩⟩
      obtain ⟨rfl, hp1⟩ := hx
      cases t with
      | nil =>
        have : p1 = [] := List.prefix_nil.1 hp1
        subst this; simp [contiguousRun]
      | cons b rest =>
        cases p1 with
        | nil =>
          by_cases h : x.ExclusiveEndBlock = b.StartBlock
          · simp only [contiguousRun, h, if_true]
            exact ⟨_, rfl⟩
          · simp [contiguousRun, h]
        | cons y p2 =>
          have hy : y = b := by
            rcases hp1 with ⟨s, hs⟩
            simp only [List.cons_append, List.cons.injEq] at hs
            exact hs.1
          subst hy
          have hxy : x.ExclusiveEndBlock = y.StartBlock := by
            have := (List.chain'_cons.1 hc).1
            exact this
          simp only [contiguousRun, hxy, if_true]
          exact (List.prefix_cons_inj x).2 (ih (y :: p2) hp1 (List.chain'_cons.1 hc).2)

theorem contiguousRun_eq_nil (l : List Range) : contiguousRun l = [] ↔ l = [] := by
  cases l with
  | nil => simp [contiguousRun]
  | cons a t =>
    cases t with
    | nil => simp [contiguousRun]
    | cons b rest =>
      by_cases h : a.ExclusiveEndBlock = b.StartBlock <;> simp [contiguousRun, h]

/-! ### The loop computes the contiguous run of the kept ranges -/

theorem listContinuousLoop_of_kept (fromBlock : Nat) (l out : List Range)
    (hk : ∀ r ∈ l, fromBlock ≤ r.StartBlock) :
    listContinuousLoop fromBlock l out = out ++ contiguousRun l := by
  induction l generalizing out with
  | nil => simp [listContinuousLoop, contiguousRun]
  | cons a t ih =>
    have ha : ¬ a.StartBlock < fromBlock := Nat.not_lt.2 (hk a (List.mem_cons_self _ _))
    cases t with
    | nil => simp [listContinuousLoop, contiguousRun, ha]
    | cons b rest =>
      have hk2 : ∀ r ∈ b :: rest, fromBlock ≤ r.StartBlock :=
        fun r hr => hk r (List.mem_cons_of_mem _ hr)
      by_cases h : a.ExclusiveEndBlock = b.StartBlock
      · have hb : (b.StartBlock != a.ExclusiveEndBlock) = false := by simp [h]
        simp only [listContinuousLoop, ha, if_false, hb, contiguousRun, h, if_true]
        have := ih (out ++ [a]) hk2
        simp only [listContinuousLoop] at this
        rw [this]; simp
      · have hb : (b.StartBlock != a.ExclusiveEndBlock) = true := by
          simp only [bne_iff_ne, ne_eq]; exact fun e => h e.symm
        simp [listContinuousLoop, ha, hb, contiguousRun, h]

theorem listContinuousLoop_eq (fromBlock : Nat) (R out : List Range)
    (hs : R.Pairwise (fun a b => a.StartBlock ≤ b.StartBlock)) :
    listContinuousLoop fromBlock R out
      = out ++ contiguousRun (discardBefore fromBlock R) := by
  induction R generalizing out with
  | nil => simp [listContinuousLoop, discardBefore, contiguousRun]
  | cons a t ih =>
    have hst := (List.pairwise_cons.1 hs)
    by_cases ha : a.StartBlock < fromBlock
    · have hd : discardBefore fromBlock (a :: t) = discardBefore fromBlock t := by
        simp [discardBefore, List.filter_cons, Nat.not_le.2 ha]
      rw [hd, ← ih out hst.2]
      simp [listContinuousLoop, ha]
    · have hk : ∀ r ∈ a :: t, fromBlock ≤ r.StartBlock := by
        intro r hr
        rcases List.mem_cons.1 hr with rfl | hr
        · exact Nat.not_lt.1 ha
        · exact le_trans (Nat.not_lt.1 ha) (hst.1 r hr)
      have hd : discardBefore fromBlock (a :: t) = a :: t := by
        unfold discardBefore
        exact List.filter_eq_self.2 (fun r hr => by simpa using hk r hr)
      rw [hd]
      exact listContinuousLoop_of_kept fromBlock (a :: t) out hk

/-- Claim C1: on a list sorted by ascending StartBlock, listContinuousCacheRanges
returns the longest prefix of the kept ranges (those with StartBlock ≥ from) in
which neighbours are contiguous: it is a prefix of the kept ranges, its
neighbours are contiguous, every prefix of the kept ranges with contiguous
neighbours is a prefix of it, and it is empty exactly when no range is kept. -/
theorem listContinuousCacheRanges_longest_contiguous (R : List Range) (fromBlock : Nat)
    (hs : R.Pairwise (fun a b => a.StartBlock ≤ b.StartBlock)) :
    listContinuousCacheRanges R fromBlock <+: discardBefore fromBlock R
    ∧ (listContinuousCacheRanges R fromBlock).Chain' Range.Contiguous
    ∧ (∀ p : List Range, p <+: discardBefore fromBlock R → p.Chain' Range.Contiguous →
        p <+: listContinuousCacheRanges R fromBlock)
    ∧ (listContinuousCacheRanges R fromBlock = [] ↔ discardBefore fromBlock R = []) := by
  have h : listContinuousCacheRanges R fromBlock
      = contiguousRun (discardBefore fromBlock R) := by
    unfold listContinuousCacheRanges
    rw [listContinuousLoop_eq fromBlock R [] hs]; simp
  rw [h]
  exact ⟨contiguousRun_isPrefix _, contiguousRun_chain _,
    fun p hp hc => contiguousRun_maximal _ p hp hc, contiguousRun_eq_nil _⟩

/-- Witness for C1: the split test of cache_test.go, ranges
[100,200), [200,300), [400,500) read from block 0. -/
theorem listContinuousCacheRanges_longest_contiguous_witness :
    listContinuousCacheRanges [⟨100, 200⟩, ⟨200, 300⟩, ⟨400, 500⟩] 0
        <+: discardBefore 0 [⟨100, 200⟩, ⟨200, 300⟩, ⟨400, 500⟩]
    ∧ (listContinuousCacheRanges [⟨100, 200⟩, ⟨200, 300⟩, ⟨400, 500⟩] 0).Chain'
        Range.Contiguous
    ∧ (∀ p : List Range, p <+: discardBefore 0 [⟨100, 200⟩, ⟨200, 300⟩, ⟨400, 500⟩] →
        p.Chain' Range.Contiguous →
        p <+: listContinuousCacheRanges [⟨100, 200⟩, ⟨200, 300⟩, ⟨400, 500⟩] 0)
    ∧ (listContinuousCacheRanges [⟨100, 200⟩, ⟨200, 300⟩, ⟨400, 500⟩] 0 = []
        ↔ discardBefore 0 [⟨100, 200⟩, ⟨200, 300⟩, ⟨400, 500⟩] = []) :=
  listContinuousCacheRanges_longest_contiguous [⟨100, 200⟩, ⟨200, 300⟩, ⟨400, 500⟩] 0
    (by decide)

/-! ## The store squasher -/

theorem egStop_nil {σ : Type} (env : Env σ) (round i : Nat) :
    egStop env round i [] = false := by
  simp [egStop, egWaitFails]

/-- Claim C4: when the head of the buffer starts after nextExpectedStartBlock,
processRanges returns `(out, nil)` with `out.lastExclusiveEndBlock = 0`, leaves
the squasher (buffer, nextExpectedStartBlock, full store, target flag) as it
was, and issues no store call. -/
theorem processRanges_head_after_expected {σ : Type} (env : Env σ) (round : Nat)
    (s : StoreSquasher σ) (r : Range) (rest : List Range)
    (hbuf : s.ranges = r :: rest) (hgt : s.nextExpectedStartBlock < r.StartBlock) :
    processRanges env round s = (.progress ⟨0, 0⟩, s, []) := by
  have h1 : ¬ r.StartBlock < s.nextExpectedStartBlock := Nat.not_lt.2 (Nat.le_of_lt hgt)
  have h2 : (s.nextExpectedStartBlock != r.StartBlock) = true := by
    simp only [bne_iff_ne, ne_eq]; exact Nat.ne_of_lt hgt
  have hs : { s with ranges := r :: rest } = s := by rw [← hbuf]
  simp only [processRanges, hbuf, processRangesLoop, egStop_nil, hs]
  simp [processRange, h1, h2]

/-- Witness for C4: the buffer `[[100,200)]` while block 0 is expected. -/
theorem processRanges_head_after_expected_witness :
    processRanges quietEnv 0 { demoSquasher with ranges := [⟨100, 200⟩] }
      = (.progress ⟨0, 0⟩, { demoSquasher with ranges := [⟨100, 200⟩] }, []) :=
  processRanges_head_after_expected quietEnv 0 { demoSquasher with ranges := [⟨100, 200⟩] }
    ⟨100, 200⟩ [] rfl (by decide)

/-- Claim C5: when the head of the buffer starts before nextExpectedStartBlock,
processRange returns an error that is not SkipRange, processRanges returns that
error wrapped and no progress value, the squasher (full store,
nextExpectedStartBlock, buffer) is left as it was and no store call is
issued. -/
theorem processRanges_head_before_expected {σ : Type} (env : Env σ) (round : Nat)
    (s : StoreSquasher σ) (r : Range) (rest : List Range)
    (hbuf : s.ranges = r :: rest) (hlt : r.StartBlock < s.nextExpectedStartBlock) :
    processRange env s r
        = (.failed (.nonContiguous s.nextExpectedStartBlock r.StartBlock), s, [])
    ∧ processRanges env round s
        = (.failed (.wrapped r (.nonContiguous s.nextExpectedStartBlock r.StartBlock)), s, []) := by
  have hs : { s with ranges := r :: rest } = s := by rw [← hbuf]
  have hp : processRange env s r
      = (.failed (.nonContiguous s.nextExpectedStartBlock r.StartBlock), s, []) := by
    simp [processRange, hlt]
  refine ⟨hp, ?_⟩
  simp only [processRanges, hbuf, processRangesLoop, egStop_nil, hs, hp]
  simp

/-- Witness for C5: the buffer `[[100,200)]` while block 150 is expected. -/
theorem processRanges_head_before_expected_witness :
    processRange quietEnv
        { demoSquasher with ranges := [⟨100, 200⟩], nextExpectedStartBlock := 150 } ⟨100, 200⟩
        = (.failed (.nonContiguous 150 100),
            { demoSquasher with ranges := [⟨100, 200⟩], nextExpectedStartBlock := 150 }, [])
    ∧ processRanges quietEnv 0
        { demoSquasher with ranges := [⟨100, 200⟩], nextExpectedStartBlock := 150 }
        = (.failed (.wrapped ⟨100, 200⟩ (.nonContiguous 150 100)),
            { demoSquasher with ranges := [⟨100, 200⟩], nextExpectedStartBlock := 150 }, []) :=
  processRanges_head_before_expected quietEnv 0
    { demoSquasher with ranges := [⟨100, 200⟩], nextExpectedStartBlock := 150 }
    ⟨100, 200⟩ [] rfl (by decide)

theorem u64sub_of_le (a b : Nat) (hb : b ≤ a) (ha : a < 2 ^ 64) : u64sub a b = a - b := by
  unfold u64sub
  have hb2 : b % 2 ^ 64 = b := Nat.mod_eq_of_lt (lt_of_le_of_lt hb ha)
  rw [hb2]
  have : a + 2 ^ 64 - b = (a - b) + 2 ^ 64 := by omega
  rw [this, Nat.add_mod_right]
  exact Nat.mod_eq_of_lt (by omega)

theorem u64sub_eq_zero_iff (a b : Nat) (ha : a < 2 ^ 64) (hb : b < 2 ^ 64) :
    u64sub a b = 0 ↔ a = b := by
  unfold u64sub
  rw [Nat.mod_eq_of_lt hb]
  constructor
  · intro h
    by_cases hab : b ≤ a
    · have e : a + 2 ^ 64 - b = (a - b) + 2 ^ 64 := by omega
      rw [e, Nat.add_mod_right, Nat.mod_eq_of_lt (by omega)] at h
      omega
    · have hlt : a + 2 ^ 64 - b < 2 ^ 64 := by omega
      rw [Nat.mod_eq_of_lt hlt] at h
      omega
  · rintro rfl
    have e : a + 2 ^ 64 - a = 2 ^ 64 := by omega
    rw [e]; simp

/-- Claim C6: for a save interval above 0 and a range `[s, e)` that processRange
merges successfully, a Save of the full store at block `e` is handed to the
error group exactly when `e % storeSaveInterval = 0` and (`s` is the store's
initial block or `e - s = storeSaveInterval`); no Save at any other block is
issued, so in every other case the merge happens without a checkpoint. -/
theorem processRange_save_iff {σ : Type} (env : Env σ) (s s1 : StoreSquasher σ) (r : Range)
    (issued : List Effect)
    (hpos : 0 < s.storeSaveInterval) (hint : s.storeSaveInterval < 2 ^ 64)
    (hle : r.StartBlock ≤ r.ExclusiveEndBlock) (hend : r.ExclusiveEndBlock < 2 ^ 64)
    (hdone : processRange env s r = (.done, s1, issued)) :
    Effect.merge r true ∈ issued
    ∧ (Effect.save r.ExclusiveEndBlock ∈ issued ↔
        r.ExclusiveEndBlock % s.storeSaveInterval = 0
        ∧ (r.StartBlock = s1.store.initialBlock
            ∨ r.ExclusiveEndBlock - r.StartBlock = s.storeSaveInterval))
    ∧ (∀ e, Effect.save e ∈ issued → e = r.ExclusiveEndBlock) := by
  have hlen : r.Len = r.ExclusiveEndBlock - r.StartBlock := by
    unfold Range.Len; exact u64sub_of_le _ _ hle hend
  have hlen2 : r.Len < 2 ^ 64 := by rw [hlen]; omega
  have hz := u64sub_eq_zero_iff r.Len s.storeSaveInterval hlen2 hint
  rw [hlen] at hz
  have hne : (s.storeSaveInterval == 0) = false := by
    simp only [beq_eq_false_iff_ne, ne_eq]; omega
  unfold processRange at hdone
  split at hdone
  · simp at hdone
  · split at hdone
    · simp at hdone
    · split at hdone
      · simp at hdone
      · rename_i nextStore hload
        simp only at hdone
        split at hdone
        · simp at hdone
        · simp only [hne, Bool.false_eq_true, if_false] at hdone
          split at hdone
          · rename_i hcond
            simp only [Prod.mk.injEq, true_and] at hdone
            obtain ⟨rfl, rfl⟩ := hdone
            simp only [Bool.or_eq_true, Bool.and_eq_true, beq_iff_eq, hlen, hz] at hcond
            refine ⟨by simp, ?_, ?_⟩
            · simp only [List.mem_append, List.mem_cons, List.mem_singleton, true_or, or_true,
                true_iff]
              rcases hcond with h | h
              · exact ⟨h.1, Or.inl h.2⟩
              · exact ⟨h.1, Or.inr h.2⟩
            · intro e he
              simpa using he
          · rename_i hcond
            simp only [Prod.mk.injEq, true_and] at hdone
            obtain ⟨rfl, rfl⟩ := hdone
            simp only [Bool.or_eq_true, Bool.and_eq_true, beq_iff_eq, hlen, hz] at hcond
            refine ⟨by simp, ?_, ?_⟩
            · constructor
              · intro h; simp at h
              · rintro ⟨h1, h2 | h2⟩
                · exact absurd (Or.inl ⟨h1, h2⟩) hcond
                · exact absurd (Or.inr ⟨h1, h2⟩) hcond
            · intro e he
              simp at he

/-- Witness for C6: merging `[0,100)` into a store with initial block 0 and save
interval 100 schedules a Save at block 100. -/
theorem processRange_save_iff_witness :
    Effect.merge ⟨0, 100⟩ true
        ∈ [Effect.load ⟨0, 100⟩, .merge ⟨0, 100⟩ true, .deleteStore 100, .save 100]
    ∧ (Effect.save 100
        ∈ [Effect.load ⟨0, 100⟩, .merge ⟨0, 100⟩ true, .deleteStore 100, .save 100] ↔
        100 % 100 = 0 ∧ ((0 : Nat) = 0 ∨ 100 - 0 = 100))
    ∧ (∀ e, Effect.save e
        ∈ [Effect.load ⟨0, 100⟩, .merge ⟨0, 100⟩ true, .deleteStore 100, .save 100] →
        e = 100) :=
  processRange_save_iff quietEnv demoSquasher
    { demoSquasher with nextExpectedStartBlock := 100 } ⟨0, 100⟩
    [Effect.load ⟨0, 100⟩, .merge ⟨0, 100⟩ true, .deleteStore 100, .save 100]
    (by decide) (by decide) (by decide) (by decide) rfl

/-! ### Contiguity of what the squasher merges -/

theorem mergedRanges_append (a b : List Effect) :
    mergedRanges (a ++ b) = mergedRanges a ++ mergedRanges b := by
  induction a with
  | nil => simp [mergedRanges]
  | cons e t ih =>
    cases e with
    | merge r ok => cases ok <;> simp [mergedRanges, ih]
    | load r => simp [mergedRanges, ih]
    | deleteStore n => simp [mergedRanges, ih]
    | save n => simp [mergedRanges, ih]

theorem ChainFromTo_append (a b c : Nat) (l1 l2 : List Range)
    (h1 : ChainFromTo a l1 b) (h2 : ChainFromTo b l2 c) : ChainFromTo a (l1 ++ l2) c := by
  induction l1 generalizing a with
  | nil => simp only [ChainFromTo] at h1; subst h1; simpa using h2
  | cons r t ih =>
    simp only [ChainFromTo, List.cons_append] at h1 ⊢
    exact ⟨h1.1, ih _ h1.2⟩

theorem ChainFromTo_of_eq {a a2 b : Nat} {l : List Range} (h : a = a2)
    (hc : ChainFromTo a l b) : ChainFromTo a2 l b := h ▸ hc

/-- What processRange can do to the chain of merged ranges: either it merges
nothing and leaves nextExpectedStartBlock alone, or it merges exactly the range
it was given, which starts at nextExpectedStartBlock, and moves
nextExpectedStartBlock to the end of that range. -/
theorem processRange_merged {σ : Type} (env : Env σ) (s : StoreSquasher σ) (r : Range) :
    (mergedRanges (processRange env s r).2.2 = []
        ∧ (processRange env s r).2.1.nextExpectedStartBlock = s.nextExpectedStartBlock
        ∧ (processRange env s r).1 ≠ .done)
    ∨ (mergedRanges (processRange env s r).2.2 = [r]
        ∧ r.StartBlock = s.nextExpectedStartBlock
        ∧ (processRange env s r).2.1.nextExpectedStartBlock = r.ExclusiveEndBlock) := by
  unfold processRange
  split
  · left; simp [mergedRanges]
  · split
    · left; simp [mergedRanges]
    · rename_i h1 h2
      have hst : r.StartBlock = s.nextExpectedStartBlock := by
        simp only [bne_iff_ne, ne_eq, not_not] at h2; exact h2.symm
      split
      · left; simp [mergedRanges]
      · simp only
        split
        · left; simp [mergedRanges]
        · right
          split
          · simp [mergedRanges, hst]
          · split <;> simp [mergedRanges, hst, mergedRanges_append]

theorem processRange_merge_calls {σ : Type} (env : Env σ) (s : StoreSquasher σ) (r x : Range)
    (ok : Bool) (h : Effect.merge x ok ∈ (processRange env s r).2.2) :
    x = r ∧ r.StartBlock = s.nextExpectedStartBlock := by
  unfold processRange at h
  split at h
  · simp at h
  · split at h
    · simp at h
    · rename_i h1 h2
      have hst : r.StartBlock = s.nextExpectedStartBlock := by
        simp only [bne_iff_ne, ne_eq, not_not] at h2; exact h2.symm
      split at h
      · simp at h
      · simp only at h
        split at h
        · simp at h; exact ⟨h.1, hst⟩
        · split at h
          · simp at h; exact ⟨h.1, hst⟩
          · split at h <;> simp at h <;> exact ⟨h.1, hst⟩

theorem processRange_ranges {σ : Type} (env : Env σ) (s : StoreSquasher σ) (r : Range) :
    (processRange env s r).2.1.ranges = s.ranges := by
  unfold processRange
  split
  · rfl
  · split
    · rfl
    · split
      · rfl
      · simp only
        split
        · rfl
        · split
          · rfl
          · split <;> rfl

theorem processRangesLoop_chain {σ : Type} (env : Env σ) (round : Nat) (rs : List Range)
    (i : Nat) (s : StoreSquasher σ) (out : rangeProgress) (issued : List Effect) :
    ∃ extra, (processRangesLoop env round rs i s out issued).2.2 = issued ++ extra
      ∧ ChainFromTo s.nextExpectedStartBlock (mergedRanges extra)
          (processRangesLoop env round rs i s out issued).2.1.nextExpectedStartBlock := by
  induction rs generalizing i s out issued with
  | nil => exact ⟨[], by simp [processRangesLoop], by simp [processRangesLoop, mergedRanges, ChainFromTo]⟩
  | cons r rest ih =>
    unfold processRangesLoop
    split
    · exact ⟨[], by simp, by simp [mergedRanges, ChainFromTo]⟩
    · have hm := processRange_merged env { s with ranges := r :: rest } r
      split
      all_goals rename_i s1 e1 hp
      all_goals simp only [hp] at hm
      · refine ⟨e1, rfl, ?_⟩
        rcases hm with ⟨h1, h2, _⟩ | ⟨h1, h2, h3⟩
        · rw [h1, h2]; simp [ChainFromTo]
        · rw [h1, h3]; simp [ChainFromTo, h2]
      · refine ⟨e1, rfl, ?_⟩
        rcases hm with ⟨h1, h2, _⟩ | ⟨h1, h2, h3⟩
        · rw [h1, h2]; simp [ChainFromTo]
        · rw [h1, h3]; simp [ChainFromTo, h2]
      · refine ⟨e1, rfl, ?_⟩
        rcases hm with ⟨h1, h2, _⟩ | ⟨h1, h2, h3⟩
        · rw [h1, h2]; simp [ChainFromTo]
        · rw [h1, h3]; simp [ChainFromTo, h2]
      · simp only
        rcases hm with ⟨h1, h2, h3⟩ | ⟨h1, h2, h3⟩
        · exact absurd rfl h3
        · obtain ⟨extra, he, hc⟩ := ih (i + 1)
            { s1 with
              ranges := rest
              targetExclusiveEndBlockReach :=
                if r.ExclusiveEndBlock == s1.targetExclusiveEndBlock then true
                else s1.targetExclusiveEndBlockReach }
            { squashCount := out.squashCount, lastExclusiveEndBlock := r.ExclusiveEndBlock }
            (issued ++ e1)
          refine ⟨e1 ++ extra, by rw [he]; simp, ?_⟩
          rw [mergedRanges_append, h1]
          simp only [List.singleton_append, ChainFromTo]
          refine ⟨h2, ?_⟩
          exact ChainFromTo_of_eq h3 hc

theorem launchStep_chain {σ : Type} (env : Env σ) (st : LaunchState σ) (ev : Event) (a : Nat)
    (h : ChainFromTo a (mergedRanges st.effects) st.squasher.nextExpectedStartBlock) :
    ChainFromTo a (mergedRanges (launchStep env st ev).effects)
      (launchStep env st ev).squasher.nextExpectedStartBlock := by
  cases ev with
  | ctxDone => simpa [launchStep] using h
  | closed => simpa [launchStep] using h
  | chunk pc =>
    obtain ⟨extra, he, hc⟩ := processRangesLoop_chain env st.round
      (sortSlice launchLess (st.squasher.ranges ++ pc)) 0
      { st.squasher with ranges := sortSlice launchLess (st.squasher.ranges ++ pc) } ⟨0, 0⟩ []
    simp only [List.nil_append] at he
    have key : ∀ o s1 issued,
        processRanges env st.round
          { st.squasher with ranges := sortSlice launchLess (st.squasher.ranges ++ pc) }
          = (o, s1, issued) →
        ChainFromTo a (mergedRanges (st.effects ++ issued)) s1.nextExpectedStartBlock := by
      intro o s1 issued hp
      unfold processRanges at hp
      simp only [hp] at he hc
      rw [mergedRanges_append, he]
      exact ChainFromTo_append _ _ _ _ _ h hc
    simp only [launchStep]
    split
    · rename_i s1 issued hp
      exact key _ _ _ hp
    · rename_i e s1 issued hp
      split <;> exact key _ _ _ hp
    · rename_i out s1 issued hp
      split <;> exact key _ _ _ hp

theorem launchRun_chain {σ : Type} (env : Env σ) (events : List Event) (st : LaunchState σ)
    (a : Nat)
    (h : ChainFromTo a (mergedRanges st.effects) st.squasher.nextExpectedStartBlock) :
    ChainFromTo a (mergedRanges (launchRun env st events).effects)
      (launchRun env st events).squasher.nextExpectedStartBlock := by
  induction events generalizing st with
  | nil => simpa [launchRun] using h
  | cons ev evs ih =>
    unfold launchRun
    split
    · exact ih _ (launchStep_chain env st ev a h)
    · exact h

/-- Claim C3: processRange calls Merge only on a range that starts at
nextExpectedStartBlock, and a successful merge moves nextExpectedStartBlock to
the end of that range; so in every state launch reaches from NewStoreSquasher,
whatever the inbox events and the behaviour of the stores, the ranges merged so
far, in merge order, form a gapless chain from the initial
nextExpectedStartBlock to the current one. -/
theorem squasher_merged_chain {σ : Type} (env : Env σ) (initialStore : FullKV σ)
    (targetExclusiveBlock nextExpectedStartBlock storeSaveInterval : Nat)
    (events : List Event) :
    (∀ (s : StoreSquasher σ) (r x : Range) (ok : Bool),
        Effect.merge x ok ∈ (processRange env s r).2.2 →
          x = r ∧ r.StartBlock = s.nextExpectedStartBlock
            ∧ (ok = true →
                (processRange env s r).2.1.nextExpectedStartBlock = r.ExclusiveEndBlock))
    ∧ ChainFromTo nextExpectedStartBlock
        (mergedRanges (launch env (NewStoreSquasher initialStore targetExclusiveBlock
          nextExpectedStartBlock storeSaveInterval) events).effects)
        (launch env (NewStoreSquasher initialStore targetExclusiveBlock
          nextExpectedStartBlock storeSaveInterval) events).squasher.nextExpectedStartBlock := by
  constructor
  · intro s r x ok hmem
    obtain ⟨hx, hst⟩ := processRange_merge_calls env s r x ok hmem
    refine ⟨hx, hst, ?_⟩
    intro hok
    subst hok; subst hx
    rcases processRange_merged env s x with ⟨h1, _, _⟩ | ⟨_, _, h3⟩
    · exfalso
      have : ∀ l : List Effect, Effect.merge x true ∈ l → mergedRanges l ≠ [] := by
        intro l hl
        induction l with
        | nil => simp at hl
        | cons e t ih =>
          rcases List.mem_cons.1 hl with rfl | ht
          · simp [mergedRanges]
          · cases e with
            | merge r2 ok2 => cases ok2 <;> simp [mergedRanges, ih ht]
            | load r2 => simp [mergedRanges, ih ht]
            | deleteStore n => simp [mergedRanges, ih ht]
            | save n => simp [mergedRanges, ih ht]
      exact this _ hmem h1
    · exact h3
  · unfold launch
    apply launchRun_chain
    simp [launchInit, mergedRanges, ChainFromTo, NewStoreSquasher]

/-! ### sort.Slice puts a list in order -/

theorem sinkLeft_perm {α : Type} (less : α → α → Bool) (x : α) (left : List α) :
    (sinkLeft less x left).Perm (x :: left) := by
  induction left with
  | nil => simp [sinkLeft]
  | cons p ps ih =>
    unfold sinkLeft
    split
    · exact (List.Perm.cons p ih).trans (List.Perm.swap x p ps)
    · exact List.Perm.refl _

theorem sinkLeft_descending {α : Type} (less : α → α → Bool) (le : α → α → Prop)
    (htrans : ∀ a b c, le a b → le b c → le a c) (x : α) (left : List α)
    (hless : ∀ p ∈ left, (less x p = true → le x p) ∧ (less x p = false → le p x))
    (hdesc : left.Pairwise (fun a b => le b a)) :
    (sinkLeft less x left).Pairwise (fun a b => le b a) := by
  induction left with
  | nil => simp [sinkLeft]
  | cons p ps ih =>
    have hp := List.pairwise_cons.1 hdesc
    unfold sinkLeft
    split
    · rename_i hlt
      refine List.pairwise_cons.2 ⟨?_, ih (fun q hq => hless q (List.mem_cons_of_mem _ hq)) hp.2⟩
      intro y hy
      rcases List.mem_cons.1 ((sinkLeft_perm less x ps).subset hy) with rfl | hy
      · exact (hless p (List.mem_cons_self _ _)).1 hlt
      · exact hp.1 y hy
    · rename_i hlt
      have hpx : le p x := (hless p (List.mem_cons_self _ _)).2 (by simpa using hlt)
      refine List.pairwise_cons.2 ⟨?_, hdesc⟩
      intro y hy
      rcases List.mem_cons.1 hy with rfl | hy
      · exact hpx
      · exact htrans _ _ _ (hp.1 y hy) hpx

theorem sortSlice_fold {α : Type} (less : α → α → Bool) (le : α → α → Prop)
    (htrans : ∀ a b c, le a b → le b c → le a c) (data acc : List α)
    (hless : ∀ a ∈ data ++ acc, ∀ b ∈ data ++ acc,
      (less a b = true → le a b) ∧ (less a b = false → le b a))
    (hdesc : acc.Pairwise (fun a b => le b a)) :
    (data.foldl (fun leftRev x => sinkLeft less x leftRev) acc).Pairwise (fun a b => le b a)
    ∧ (data.foldl (fun leftRev x => sinkLeft less x leftRev) acc).Perm (data ++ acc) := by
  induction data generalizing acc with
  | nil => exact ⟨hdesc, List.Perm.refl _⟩
  | cons x t ih =>
    simp only [List.foldl_cons]
    have hperm := sinkLeft_perm less x acc
    have hd : (sinkLeft less x acc).Pairwise (fun a b => le b a) :=
      sinkLeft_descending less le htrans x acc
        (fun p hp => hless x (by simp) p (by simp [hp])) hdesc
    have hsub : ∀ a ∈ t ++ sinkLeft less x acc, a ∈ (x :: t) ++ acc := by
      intro a ha
      rcases List.mem_append.1 ha with h | h
      · simp [h]
      · rcases List.mem_cons.1 (hperm.subset h) with rfl | h
        · simp
        · simp [h]
    obtain ⟨h1, h2⟩ := ih (sinkLeft less x acc)
      (fun a ha b hb => hless a (hsub a ha) b (hsub b hb)) hd
    refine ⟨h1, h2.trans ?_⟩
    have : (t ++ sinkLeft less x acc).Perm (t ++ x :: acc) := List.Perm.append_left t hperm
    exact this.trans (List.perm_middle)

/-- The call `sort.Slice(data, less)` returns a permutation of `data`; when on
the elements of `data` the comparison agrees with a transitive order `le`
(`less a b` only if `le a b`, and `le b a` otherwise), the result is in
ascending order of `le`. -/
theorem sortSlice_sorted {α : Type} (less : α → α → Bool) (le : α → α → Prop)
    (htrans : ∀ a b c, le a b → le b c → le a c) (data : List α)
    (hless : ∀ a ∈ data, ∀ b ∈ data,
      (less a b = true → le a b) ∧ (less a b = false → le b a)) :
    (sortSlice less data).Pairwise le ∧ (sortSlice less data).Perm data := by
  obtain ⟨h1, h2⟩ := sortSlice_fold less le htrans data []
    (by simpa using hless) List.Pairwise.nil
  unfold sortSlice
  refine ⟨List.pairwise_reverse.2 h1, ?_⟩
  exact (List.reverse_perm _).trans (by simpa using h2)

theorem sortSlice_perm {α : Type} (less : α → α → Bool) (data : List α) :
    (sortSlice less data).Perm data := by
  have : ∀ acc : List α,
      (data.foldl (fun leftRev x => sinkLeft less x leftRev) acc).Perm (data ++ acc) := by
    induction data with
    | nil => intro acc; exact List.Perm.refl _
    | cons x t ih =>
      intro acc
      simp only [List.foldl_cons]
      refine (ih (sinkLeft less x acc)).trans ?_
      exact (List.Perm.append_left t (sinkLeft_perm less x acc)).trans List.perm_middle
  unfold sortSlice
  exact (List.reverse_perm _).trans (by simpa using this [])

/-! ### Squashing a chain delivered in any order -/

theorem ChainFromTo_pairwise (a e : Nat) (l : List Range) (hc : ChainFromTo a l e)
    (hwf : ∀ r ∈ l, r.StartBlock < r.ExclusiveEndBlock) :
    l.Pairwise (fun x y => x.ExclusiveEndBlock ≤ y.StartBlock)
    ∧ (∀ r ∈ l, a ≤ r.StartBlock) := by
  induction l generalizing a with
  | nil => simp
  | cons r t ih =>
    simp only [ChainFromTo] at hc
    obtain ⟨h1, h2⟩ := ih r.ExclusiveEndBlock hc.2 (fun x hx => hwf x (List.mem_cons_of_mem _ hx))
    have hr := hwf r (List.mem_cons_self _ _)
    refine ⟨List.pairwise_cons.2 ⟨h2, h1⟩, ?_⟩
    intro x hx
    rcases List.mem_cons.1 hx with rfl | hx
    · exact le_of_eq hc.1.symm
    · have := h2 x hx
      omega

theorem chain_nodup (l : List Range)
    (hp : l.Pairwise (fun x y => x.ExclusiveEndBlock ≤ y.StartBlock))
    (hwf : ∀ r ∈ l, r.StartBlock < r.ExclusiveEndBlock) : l.Nodup := by
  refine List.Pairwise.imp_of_mem ?_ hp
  intro a b ha _ hab heq
  subst heq
  have := hwf a ha
  omega

theorem chain_startLt (l : List Range)
    (hp : l.Pairwise (fun x y => x.ExclusiveEndBlock ≤ y.StartBlock))
    (hwf : ∀ r ∈ l, r.StartBlock < r.ExclusiveEndBlock) :
    l.Pairwise (fun x y => x.StartBlock < y.StartBlock) := by
  refine List.Pairwise.imp_of_mem ?_ hp
  intro a b ha _ hab
  have := hwf a ha
  omega

/-- On the ranges of a chain the comparison of launch, `a.StartBlock <
b.ExclusiveEndBlock`, says the same as `a.StartBlock ≤ b.StartBlock`. -/
theorem launchLess_on_chain (l : List Range)
    (hp : l.Pairwise (fun x y => x.ExclusiveEndBlock ≤ y.StartBlock))
    (hwf : ∀ r ∈ l, r.StartBlock < r.ExclusiveEndBlock) (a b : Range)
    (ha : a ∈ l) (hb : b ∈ l) :
    (launchLess a b = true → a.StartBlock ≤ b.StartBlock)
    ∧ (launchLess a b = false → b.StartBlock ≤ a.StartBlock) := by
  have hsym : l.Pairwise (fun x y => x.ExclusiveEndBlock ≤ y.StartBlock
      ∨ y.ExclusiveEndBlock ≤ x.StartBlock) := hp.imp (fun h => Or.inl h)
  have hwa := hwf a ha
  have hwb := hwf b hb
  by_cases hab : a = b
  · subst hab
    simp [launchLess]
  · have := List.Pairwise.forall (fun x y h => h.symm) hsym ha hb hab
    simp only [launchLess, decide_eq_true_eq, decide_eq_false_iff_not, not_lt]
    constructor <;> intro h <;> omega

theorem egWaitFails_of_saves {σ : Type} (env : Env σ) (hsave : ∀ e, env.saveFails e = false)
    (l : List Effect) : egWaitFails env l = false := by
  unfold egWaitFails
  rw [List.any_eq_false]
  intro x _
  cases x <;> simp [Effect.fails, hsave]

theorem processRange_merges {σ : Type} (env : Env σ) (s : StoreSquasher σ) (r : Range)
    (hmerge : ∀ st p, (env.merge st p).2 = true)
    (hload : (env.loadStore r).isSome = true)
    (hint : 0 < s.storeSaveInterval) (hst : r.StartBlock = s.nextExpectedStartBlock) :
    (processRange env s r).1 = .done
    ∧ (processRange env s r).2.1.nextExpectedStartBlock = r.ExclusiveEndBlock
    ∧ (processRange env s r).2.1.storeSaveInterval = s.storeSaveInterval
    ∧ mergedRanges (processRange env s r).2.2 = [r] := by
  obtain ⟨p, hp⟩ := Option.isSome_iff_exists.1 hload
  have h1 : ¬ r.StartBlock < s.nextExpectedStartBlock := by omega
  have h2 : (s.nextExpectedStartBlock != r.StartBlock) = false := by simp [hst]
  have h3 : (s.storeSaveInterval == 0) = false := by
    simp only [beq_eq_false_iff_ne, ne_eq]; omega
  unfold processRange
  simp only [h1, if_false, h2, Bool.false_eq_true, hp, hmerge, Bool.not_true, h3]
  split <;> simp [mergedRanges, mergedRanges_append]

theorem processRange_skips {σ : Type} (env : Env σ) (s : StoreSquasher σ) (r : Range)
    (hgt : s.nextExpectedStartBlock < r.StartBlock) :
    processRange env s r = (.skipRange, s, []) := by
  have h1 : ¬ r.StartBlock < s.nextExpectedStartBlock := by omega
  have h2 : (s.nextExpectedStartBlock != r.StartBlock) = true := by
    simp only [bne_iff_ne, ne_eq]; omega
  simp [processRange, h1, h2]

theorem egStop_of_saves {σ : Type} (env : Env σ) (hsave : ∀ e, env.saveFails e = false)
    (round i : Nat) (l : List Effect) : egStop env round i l = false := by
  simp [egStop, egWaitFails_of_saves env hsave]

/-- The loop of processRanges on a buffer `B` that lists, in chain order, some of
the ranges of the still unmerged chain `T`, when loads, merges and saves
succeed: it merges the common head `P` of `B` and `T` and stops. -/
theorem processRangesLoop_on_chain {σ : Type} (env : Env σ) (round : Nat)
    (hmerge : ∀ st p, (env.merge st p).2 = true)
    (hsave : ∀ e, env.saveFails e = false) (endB : Nat)
    (B T : List Range) (i : Nat) (s : StoreSquasher σ) (out : rangeProgress)
    (issued : List Effect)
    (hsub : B.Sublist T) (hchain : ChainFromTo s.nextExpectedStartBlock T endB)
    (hwf : ∀ r ∈ T, r.StartBlock < r.ExclusiveEndBlock)
    (hload : ∀ r ∈ T, (env.loadStore r).isSome = true)
    (hint : 0 < s.storeSaveInterval) :
    ∃ P B2 T2, B = P ++ B2 ∧ T = P ++ T2 ∧ B2.Sublist T2.tail
      ∧ (∃ o, (processRangesLoop env round B i s out issued).1 = .progress o)
      ∧ (processRangesLoop env round B i s out issued).2.1.ranges = B2
      ∧ ChainFromTo (processRangesLoop env round B i s out issued).2.1.nextExpectedStartBlock
          T2 endB
      ∧ (processRangesLoop env round B i s out issued).2.1.storeSaveInterval
          = s.storeSaveInterval
      ∧ mergedRanges (processRangesLoop env round B i s out issued).2.2
          = mergedRanges issued ++ P := by
  induction B generalizing T i s out issued with
  | nil =>
    exact ⟨[], [], T, rfl, rfl, List.nil_sublist _, ⟨out, rfl⟩, rfl, hchain, rfl, by
      simp [processRangesLoop]⟩
  | cons b rest ih =>
    cases T with
    | nil => exact absurd hsub (by simp)
    | cons t1 T1 =>
      have hc := hchain
      simp only [ChainFromTo] at hc
      have hstop := egStop_of_saves env hsave round i issued
      by_cases hbt : b = t1
      · subst hbt
        have hrest : rest.Sublist T1 := List.cons_sublist_cons.1 hsub
        have hm := processRange_merges env { s with ranges := b :: rest } b hmerge
          (hload b (List.mem_cons_self _ _)) hint hc.1
        rcases hpr : processRange env { s with ranges := b :: rest } b with ⟨o, s1, e1⟩
        rw [hpr] at hm
        obtain ⟨ho, hnext, hival, hmg⟩ := hm
        simp only at ho hnext hival hmg
        subst ho
        obtain ⟨P, B2, T2, h1, h2, h3, h4, h5, h6, h7, h8⟩ := ih T1 (i + 1)
          { s1 with
            ranges := rest
            targetExclusiveEndBlockReach :=
              if b.ExclusiveEndBlock == s1.targetExclusiveEndBlock then true
              else s1.targetExclusiveEndBlockReach }
          { squashCount := out.squashCount, lastExclusiveEndBlock := b.ExclusiveEndBlock }
          (issued ++ e1) hrest (ChainFromTo_of_eq hnext.symm hc.2)
          (fun r hr => hwf r (List.mem_cons_of_mem _ hr))
          (fun r hr => hload r (List.mem_cons_of_mem _ hr))
          (by simpa [hival] using hint)
        refine ⟨b :: P, B2, T2, by simp [h1], by simp [h2], h3, ?_⟩
        have hloop : processRangesLoop env round (b :: rest) i s out issued
            = processRangesLoop env round rest (i + 1)
                { s1 with
                  ranges := rest
                  targetExclusiveEndBlockReach :=
                    if b.ExclusiveEndBlock == s1.targetExclusiveEndBlock then true
                    else s1.targetExclusiveEndBlockReach }
                { squashCount := out.squashCount,
                  lastExclusiveEndBlock := b.ExclusiveEndBlock }
                (issued ++ e1) := by
          rw [processRangesLoop]
          simp only [hstop, Bool.false_eq_true, if_false, hpr]
        rw [hloop]
        refine ⟨h4, h5, h6, ?_, ?_⟩
        · rw [h7]; exact hival
        · rw [h8, mergedRanges_append, hmg]; simp
      · have hsub2 : (b :: rest).Sublist T1 := by
          rcases List.sublist_cons_iff.1 hsub with h | ⟨r, hr, _⟩
          · exact h
          · exact absurd (List.cons.inj hr).1 hbt
        have hb : b ∈ T1 := hsub2.subset (List.mem_cons_self _ _)
        have hge := (ChainFromTo_pairwise _ _ T1 hc.2
          (fun r hr => hwf r (List.mem_cons_of_mem _ hr))).2 b hb
        have ht1 := hwf t1 (List.mem_cons_self _ _)
        have hgt : s.nextExpectedStartBlock < b.StartBlock := by omega
        have hsk := processRange_skips env { s with ranges := b :: rest } b hgt
        have hloop : processRangesLoop env round (b :: rest) i s out issued
            = (.progress out, { s with ranges := b :: rest }, issued ++ []) := by
          rw [processRangesLoop]
          simp only [hstop, Bool.false_eq_true, if_false, hsk]
        rw [hloop]
        exact ⟨[], b :: rest, t1 :: T1, rfl, rfl, hsub2, ⟨out, rfl⟩, rfl, hchain, rfl, by simp⟩

/-- One round of launch on a chain whose loads, merges and saves succeed: a
newly delivered range of the chain is either merged, with every buffered range
that follows it gaplessly, or kept in the buffer in chain order. -/
theorem launchStep_on_chain {σ : Type} (env : Env σ)
    (hmerge : ∀ st p, (env.merge st p).2 = true)
    (hsave : ∀ e, env.saveFails e = false) (chain : List Range) (endB : Nat)
    (hpw : chain.Pairwise (fun x y => x.ExclusiveEndBlock ≤ y.StartBlock))
    (hwf : ∀ r ∈ chain, r.StartBlock < r.ExclusiveEndBlock)
    (hload : ∀ r ∈ chain, (env.loadStore r).isSome = true)
    (st : LaunchState σ) (D : List Range) (x : Range)
    (hrun : st.status = .running) (hcomp : st.completion = [])
    (hint : 0 < st.squasher.storeSaveInterval)
    (T : List Range) (hsplit : chain = mergedRanges st.effects ++ T)
    (hch : ChainFromTo st.squasher.nextExpectedStartBlock T endB)
    (hsubl : st.squasher.ranges.Sublist T.tail)
    (hD : ∀ y, y ∈ D ↔ (y ∈ mergedRanges st.effects ∨ y ∈ st.squasher.ranges))
    (hx : x ∈ chain) (hxD : x ∉ D) :
    (launchStep env st (.chunk [x])).status = .running
    ∧ (launchStep env st (.chunk [x])).completion = []
    ∧ 0 < (launchStep env st (.chunk [x])).squasher.storeSaveInterval
    ∧ ∃ T2, chain = mergedRanges (launchStep env st (.chunk [x])).effects ++ T2
      ∧ ChainFromTo (launchStep env st (.chunk [x])).squasher.nextExpectedStartBlock T2 endB
      ∧ (launchStep env st (.chunk [x])).squasher.ranges.Sublist T2.tail
      ∧ ∀ y, y ∈ x :: D ↔ (y ∈ mergedRanges (launchStep env st (.chunk [x])).effects
          ∨ y ∈ (launchStep env st (.chunk [x])).squasher.ranges) := by
  have hTsub : ∀ r ∈ T, r ∈ chain := fun r hr => by rw [hsplit]; exact List.mem_append_right _ hr
  have hTtail : ∀ r ∈ T.tail, r ∈ T := fun r hr => List.mem_of_mem_tail hr
  have hnodup : chain.Nodup := chain_nodup chain hpw hwf
  have hTnodup : T.Nodup := by
    rw [hsplit] at hnodup; exact (List.nodup_append.1 hnodup).2.1
  have hBT : ∀ r ∈ st.squasher.ranges, r ∈ T := fun r hr => hTtail r (hsubl.subset hr)
  have hxM : x ∉ mergedRanges st.effects := fun h => hxD ((hD x).2 (Or.inl h))
  have hxB : x ∉ st.squasher.ranges := fun h => hxD ((hD x).2 (Or.inr h))
  have hxT : x ∈ T := by
    rw [hsplit] at hx
    rcases List.mem_append.1 hx with h | h
    · exact absurd h hxM
    · exact h
  have hin : ∀ r ∈ st.squasher.ranges ++ [x], r ∈ T := by
    intro r hr
    rcases List.mem_append.1 hr with h | h
    · exact hBT r h
    · rw [List.mem_singleton.1 h]; exact hxT
  obtain ⟨hsorted, hperm⟩ := sortSlice_sorted launchLess
    (fun a b => a.StartBlock ≤ b.StartBlock) (fun a b c h1 h2 => le_trans h1 h2)
    (st.squasher.ranges ++ [x])
    (fun a ha b hb => launchLess_on_chain chain hpw hwf a b
      (hTsub a (hin a ha)) (hTsub b (hin b hb)))
  have hnd0 : (st.squasher.ranges ++ [x]).Nodup := by
    have hB : st.squasher.ranges.Nodup := (hsubl.trans (List.tail_sublist T)).nodup hTnodup
    refine List.nodup_append.2 ⟨hB, List.nodup_singleton x, ?_⟩
    intro a ha hb
    rw [List.mem_singleton.1 hb] at ha
    exact hxB ha
  have hnd : (sortSlice launchLess (st.squasher.ranges ++ [x])).Nodup :=
    hperm.nodup_iff.2 hnd0
  have hmemS : ∀ r ∈ sortSlice launchLess (st.squasher.ranges ++ [x]), r ∈ T :=
    fun r hr => hin r (hperm.subset hr)
  have hsym : chain.Pairwise (fun a b => a.ExclusiveEndBlock ≤ b.StartBlock
      ∨ b.ExclusiveEndBlock ≤ a.StartBlock) := hpw.imp (fun h => Or.inl h)
  have hstrict : (sortSlice launchLess (st.squasher.ranges ++ [x])).Pairwise
      (fun a b => a.StartBlock < b.StartBlock) := by
    refine List.Pairwise.imp_of_mem ?_ (hsorted.and hnd)
    intro a b ha hb hab
    have hne : a ≠ b := hab.2
    have := List.Pairwise.forall (fun x y h => h.symm) hsym
      (hTsub a (hmemS a ha)) (hTsub b (hmemS b hb)) hne
    have hwa := hwf a (hTsub a (hmemS a ha))
    have hwb := hwf b (hTsub b (hmemS b hb))
    have hle := hab.1
    omega
  have hTstrict : T.Pairwise (fun a b => a.StartBlock < b.StartBlock) := by
    have := chain_startLt chain hpw hwf
    rw [hsplit] at this
    exact (List.pairwise_append.1 this).2.1
  haveI : IsAntisymm Range (fun a b => a.StartBlock < b.StartBlock) :=
    ⟨fun a b h1 h2 => absurd h1 (Nat.lt_asymm h2)⟩
  have hsubS : (sortSlice launchLess (st.squasher.ranges ++ [x])).Sublist T :=
    List.sublist_of_subperm_of_sorted (List.subperm_of_subset hnd hmemS) hstrict hTstrict
  obtain ⟨P, B2, T2, h1, h2, h3, ⟨o, h4⟩, h5, h6, h7, h8⟩ :=
    processRangesLoop_on_chain env st.round hmerge hsave endB
      (sortSlice launchLess (st.squasher.ranges ++ [x])) T 0
      { st.squasher with ranges := sortSlice launchLess (st.squasher.ranges ++ [x]) }
      ⟨0, 0⟩ [] hsubS hch (fun r hr => hwf r (hTsub r hr))
      (fun r hr => hload r (hTsub r hr)) hint
  have hPR : processRanges env st.round
      { st.squasher with ranges := sortSlice launchLess (st.squasher.ranges ++ [x]) }
      = processRangesLoop env st.round (sortSlice launchLess (st.squasher.ranges ++ [x])) 0
          { st.squasher with ranges := sortSlice launchLess (st.squasher.ranges ++ [x]) }
          ⟨0, 0⟩ [] := rfl
  rw [← hPR] at h4 h5 h6 h7 h8
  rcases hres : processRanges env st.round
      { st.squasher with ranges := sortSlice launchLess (st.squasher.ranges ++ [x]) }
    with ⟨o1, s1, issued⟩
  rw [hres] at h4 h5 h6 h7 h8
  simp only at h4 h5 h6 h7 h8
  subst h4
  have hw := egWaitFails_of_saves env hsave issued
  have hmemPB : ∀ y, (y ∈ P ∨ y ∈ B2) ↔ (y ∈ st.squasher.ranges ∨ y = x) := by
    intro y
    have := hperm.mem_iff (a := y)
    rw [h1] at this
    simpa [List.mem_append] using this
  simp only [launchStep, hres, hw, Bool.false_eq_true, if_false]
  refine ⟨hrun, hcomp, by rw [h7]; exact hint, T2, ?_, h6, by rw [h5]; exact h3, ?_⟩
  · rw [mergedRanges_append, h8, hsplit, h2]; simp [mergedRanges]
  · intro y
    rw [mergedRanges_append, h8, h5]
    simp only [List.mem_cons, List.mem_append, mergedRanges, List.nil_append, hD y]
    have := hmemPB y
    tauto

theorem launchRun_on_chain {σ : Type} (env : Env σ)
    (hmerge : ∀ st p, (env.merge st p).2 = true)
    (hsave : ∀ e, env.saveFails e = false) (chain : List Range) (endB : Nat)
    (hpw : chain.Pairwise (fun x y => x.ExclusiveEndBlock ≤ y.StartBlock))
    (hwf : ∀ r ∈ chain, r.StartBlock < r.ExclusiveEndBlock)
    (hload : ∀ r ∈ chain, (env.loadStore r).isSome = true)
    (rest : List Range) (D : List Range) (st : LaunchState σ)
    (hnd : (D ++ rest).Nodup) (hrest : ∀ x ∈ rest, x ∈ chain)
    (hrun : st.status = .running) (hcomp : st.completion = [])
    (hint : 0 < st.squasher.storeSaveInterval)
    (hT : ∃ T, chain = mergedRanges st.effects ++ T
      ∧ ChainFromTo st.squasher.nextExpectedStartBlock T endB
      ∧ st.squasher.ranges.Sublist T.tail)
    (hD : ∀ y, y ∈ D ↔ (y ∈ mergedRanges st.effects ∨ y ∈ st.squasher.ranges)) :
    (launchRun env st (rest.map (fun r => Event.chunk [r]))).status = .running
    ∧ (launchRun env st (rest.map (fun r => Event.chunk [r]))).completion = []
    ∧ (∃ T, chain = mergedRanges (launchRun env st (rest.map (fun r => Event.chunk [r]))).effects
          ++ T
      ∧ ChainFromTo
          (launchRun env st (rest.map (fun r => Event.chunk [r]))).squasher.nextExpectedStartBlock
          T endB
      ∧ (launchRun env st (rest.map (fun r => Event.chunk [r]))).squasher.ranges.Sublist T.tail)
    ∧ (∀ y, y ∈ D ++ rest ↔
        (y ∈ mergedRanges (launchRun env st (rest.map (fun r => Event.chunk [r]))).effects
          ∨ y ∈ (launchRun env st (rest.map (fun r => Event.chunk [r]))).squasher.ranges)) := by
  induction rest generalizing D st with
  | nil =>
    simp only [List.map_nil, launchRun, List.append_nil]
    exact ⟨hrun, hcomp, hT, hD⟩
  | cons x xs ih =>
    obtain ⟨T, hsplit, hch, hsubl⟩ := hT
    have hxD : x ∉ D := by
      intro h
      have := (List.nodup_append.1 hnd).2.2
      exact this h (List.mem_cons_self _ _)
    obtain ⟨s1, s2, s3, T2, s4, s5, s6, s7⟩ := launchStep_on_chain env hmerge hsave chain endB
      hpw hwf hload st D x hrun hcomp hint T hsplit hch hsubl hD
      (hrest x (List.mem_cons_self _ _)) hxD
    have hnd2 : ((D ++ [x]) ++ xs).Nodup := by simpa using hnd
    have hD2 : ∀ y, y ∈ D ++ [x] ↔
        (y ∈ mergedRanges (launchStep env st (.chunk [x])).effects
          ∨ y ∈ (launchStep env st (.chunk [x])).squasher.ranges) := by
      intro y
      rw [← s7 y]
      simp only [List.mem_append, List.mem_singleton, List.mem_cons]
      tauto
    have key := ih (D ++ [x]) (launchStep env st (.chunk [x])) hnd2
      (fun y hy => hrest y (List.mem_cons_of_mem _ hy)) s1 s2 s3 ⟨T2, s4, s5, s6⟩ hD2
    have hstep : launchRun env st ((x :: xs).map (fun r => Event.chunk [r]))
        = launchRun env (launchStep env st (.chunk [x])) (xs.map (fun r => Event.chunk [r])) := by
      simp only [List.map_cons, launchRun, hrun]
    rw [hstep]
    have happ : D ++ x :: xs = (D ++ [x]) ++ xs := by simp
    rw [happ]
    exact key

/-! ### The content of the full store after the merges -/

theorem mergeAll_append {σ : Type} (env : Env σ) (st : FullKV σ) (a b : List Range) :
    mergeAll env st (a ++ b) = mergeAll env (mergeAll env st a) b := by
  induction a generalizing st with
  | nil => rfl
  | cons r t ih =>
    have hcons : (r :: t) ++ b = r :: (t ++ b) := rfl
    rw [hcons]
    cases hl : env.loadStore r with
    | none =>
      simp only [mergeAll, hl]
      exact ih st
    | some nextStore =>
      simp only [mergeAll, hl]
      exact ih _

/-- When no merge fails, the store processRange leaves is the store it found
with the ranges it merged merged in. -/
theorem processRange_store {σ : Type} (env : Env σ)
    (hmerge : ∀ st p, (env.merge st p).2 = true) (s : StoreSquasher σ) (r : Range) :
    (processRange env s r).2.1.store
      = mergeAll env s.store (mergedRanges (processRange env s r).2.2) := by
  unfold processRange
  split
  · simp [mergedRanges, mergeAll]
  · split
    · simp [mergedRanges, mergeAll]
    · split
      · simp [mergedRanges, mergeAll]
      · rename_i nextStore hl
        simp only [hmerge, Bool.not_true, Bool.false_eq_true, if_false]
        split
        · simp [mergedRanges, mergeAll, hl]
        · split <;> simp [mergedRanges, mergedRanges_append, mergeAll, hl]

theorem processRangesLoop_store {σ : Type} (env : Env σ)
    (hmerge : ∀ st p, (env.merge st p).2 = true) (round : Nat) (rs : List Range)
    (i : Nat) (s : StoreSquasher σ) (out : rangeProgress) (issued : List Effect) :
    ∃ extra, (processRangesLoop env round rs i s out issued).2.2 = issued ++ extra
      ∧ (processRangesLoop env round rs i s out issued).2.1.store
          = mergeAll env s.store (mergedRanges extra) := by
  induction rs generalizing i s out issued with
  | nil => exact ⟨[], by simp [processRangesLoop], by simp [processRangesLoop, mergedRanges, mergeAll]⟩
  | cons r rest ih =>
    unfold processRangesLoop
    split
    · exact ⟨[], by simp, by simp [mergedRanges, mergeAll]⟩
    · have hm := processRange_store env hmerge { s with ranges := r :: rest } r
      split
      all_goals rename_i s1 e1 hp
      all_goals simp only [hp] at hm
      · exact ⟨e1, rfl, hm⟩
      · exact ⟨e1, rfl, hm⟩
      · exact ⟨e1, rfl, hm⟩
      · simp only
        obtain ⟨extra, he, hc⟩ := ih (i + 1)
          { s1 with
            ranges := rest
            targetExclusiveEndBlockReach :=
              if r.ExclusiveEndBlock == s1.targetExclusiveEndBlock then true
              else s1.targetExclusiveEndBlockReach }
          { squashCount := out.squashCount, lastExclusiveEndBlock := r.ExclusiveEndBlock }
          (issued ++ e1)
        refine ⟨e1 ++ extra, by rw [he]; simp, ?_⟩
        rw [hc, mergedRanges_append, mergeAll_append]
        simp only
        rw [hm]

theorem launchStep_store {σ : Type} (env : Env σ)
    (hmerge : ∀ st p, (env.merge st p).2 = true) (st : LaunchState σ) (ev : Event)
    (init : FullKV σ)
    (h : st.squasher.store = mergeAll env init (mergedRanges st.effects)) :
    (launchStep env st ev).squasher.store
      = mergeAll env init (mergedRanges (launchStep env st ev).effects) := by
  cases ev with
  | ctxDone => simpa [launchStep] using h
  | closed => simpa [launchStep] using h
  | chunk pc =>
    obtain ⟨extra, he, hc⟩ := processRangesLoop_store env hmerge st.round
      (sortSlice launchLess (st.squasher.ranges ++ pc)) 0
      { st.squasher with ranges := sortSlice launchLess (st.squasher.ranges ++ pc) } ⟨0, 0⟩ []
    simp only [List.nil_append] at he
    have key : ∀ o s1 issued,
        processRanges env st.round
          { st.squasher with ranges := sortSlice launchLess (st.squasher.ranges ++ pc) }
          = (o, s1, issued) →
        s1.store = mergeAll env init (mergedRanges (st.effects ++ issued)) := by
      intro o s1 issued hp
      unfold processRanges at hp
      simp only [hp] at he hc
      rw [mergedRanges_append, mergeAll_append, ← h, hc, he]
    simp only [launchStep]
    split
    · rename_i s1 issued hp
      exact key _ _ _ hp
    · rename_i e s1 issued hp
      split <;> exact key _ _ _ hp
    · rename_i out s1 issued hp
      split <;> exact key _ _ _ hp

theorem launchRun_store {σ : Type} (env : Env σ)
    (hmerge : ∀ st p, (env.merge st p).2 = true) (events : List Event) (st : LaunchState σ)
    (init : FullKV σ)
    (h : st.squasher.store = mergeAll env init (mergedRanges st.effects)) :
    (launchRun env st events).squasher.store
      = mergeAll env init (mergedRanges (launchRun env st events).effects) := by
  induction events generalizing st with
  | nil => simpa [launchRun] using h
  | cons ev evs ih =>
    unfold launchRun
    split
    · exact ih _ (launchStep_store env hmerge st ev init h)
    · exact h


/-- Counterexample to C2: the chain `[0,100), [100,200)` is delivered in chain
order and every load and merge succeeds. When the `Save` of the full store
fails, launch reports the error of the wait after the first event and returns:
`[100,200)` is never merged and nextExpectedStartBlock stays at 100. With a
save interval of 0 the goroutine stops on the panic of `% 0` after the first
merge. -/
theorem squash_stops_on_failed_save :
    ChainFromTo 0 [⟨0, 100⟩, ⟨100, 200⟩] 200
    ∧ (∀ r, (saveFailEnv.loadStore r).isSome = true)
    ∧ (∀ st p, (saveFailEnv.merge st p).2 = true)
    ∧ mergedRanges (launch saveFailEnv (NewStoreSquasher ⟨0, ()⟩ 200 0 100)
        ([(⟨0, 100⟩ : Range), ⟨100, 200⟩].map (fun r => Event.chunk [r]))).effects
        = [⟨0, 100⟩]
    ∧ (launch saveFailEnv (NewStoreSquasher ⟨0, ()⟩ 200 0 100)
        ([(⟨0, 100⟩ : Range), ⟨100, 200⟩].map
          (fun r => Event.chunk [r]))).squasher.nextExpectedStartBlock = 100
    ∧ (launch saveFailEnv (NewStoreSquasher ⟨0, ()⟩ 200 0 100)
        ([(⟨0, 100⟩ : Range), ⟨100, 200⟩].map (fun r => Event.chunk [r]))).status = .returned
    ∧ (launch saveFailEnv (NewStoreSquasher ⟨0, ()⟩ 200 0 100)
        ([(⟨0, 100⟩ : Range), ⟨100, 200⟩].map (fun r => Event.chunk [r]))).completion
        = [some .waiting]
    ∧ mergedRanges (launch quietEnv (NewStoreSquasher ⟨0, ()⟩ 200 0 0)
        ([(⟨0, 100⟩ : Range), ⟨100, 200⟩].map (fun r => Event.chunk [r]))).effects
        = [⟨0, 100⟩]
    ∧ (launch quietEnv (NewStoreSquasher ⟨0, ()⟩ 200 0 0)
        ([(⟨0, 100⟩ : Range), ⟨100, 200⟩].map (fun r => Event.chunk [r]))).status = .crashed := by
  refine ⟨by simp [ChainFromTo], fun _ => rfl, fun _ _ => rfl, ?_, ?_, ?_, ?_, ?_, ?_⟩ <;> decide

/-- Claim C2, amended: squashing does not depend on the order of delivery. For a
chain of ranges `r1..rk` that starts at the squasher's nextExpectedStartBlock,
each with StartBlock < ExclusiveEndBlock and each ending where the next starts
(it ends at `endB`, the ExclusiveEndBlock of `rk`), delivered one range per
inbox event in any order to a new squasher, with loads, merges and saves
succeeding and a save interval above 0: after the last event launch is still
running and has reported no error, every range of the chain has been merged
exactly once and in chain order, the buffer is empty, nextExpectedStartBlock is
`endB`, and the full store is the initial store with the stores of `r1..rk`
merged into it in that order. -/
theorem squash_order_independent {σ : Type} (env : Env σ) (initialStore : FullKV σ)
    (targetExclusiveBlock nextExpectedStartBlock storeSaveInterval endB : Nat)
    (chain order : List Range)
    (hchain : ChainFromTo nextExpectedStartBlock chain endB)
    (hwf : ∀ r ∈ chain, r.StartBlock < r.ExclusiveEndBlock)
    (horder : order.Perm chain)
    (hload : ∀ r ∈ chain, (env.loadStore r).isSome = true)
    (hmerge : ∀ st p, (env.merge st p).2 = true)
    (hsave : ∀ e, env.saveFails e = false)
    (hint : 0 < storeSaveInterval) :
    mergedRanges (launch env (NewStoreSquasher initialStore targetExclusiveBlock
        nextExpectedStartBlock storeSaveInterval)
        (order.map (fun r => Event.chunk [r]))).effects = chain
    ∧ (launch env (NewStoreSquasher initialStore targetExclusiveBlock
        nextExpectedStartBlock storeSaveInterval)
        (order.map (fun r => Event.chunk [r]))).squasher.ranges = []
    ∧ (launch env (NewStoreSquasher initialStore targetExclusiveBlock
        nextExpectedStartBlock storeSaveInterval)
        (order.map (fun r => Event.chunk [r]))).squasher.nextExpectedStartBlock = endB
    ∧ (launch env (NewStoreSquasher initialStore targetExclusiveBlock
        nextExpectedStartBlock storeSaveInterval)
        (order.map (fun r => Event.chunk [r]))).status = .running
    ∧ (launch env (NewStoreSquasher initialStore targetExclusiveBlock
        nextExpectedStartBlock storeSaveInterval)
        (order.map (fun r => Event.chunk [r]))).completion = []
    ∧ (launch env (NewStoreSquasher initialStore targetExclusiveBlock
        nextExpectedStartBlock storeSaveInterval)
        (order.map (fun r => Event.chunk [r]))).squasher.store
        = mergeAll env initialStore chain := by
  have hpw := (ChainFromTo_pairwise _ _ chain hchain hwf).1
  have hstore := launchRun_store env hmerge (order.map (fun r => Event.chunk [r]))
    (launchInit (NewStoreSquasher initialStore targetExclusiveBlock
      nextExpectedStartBlock storeSaveInterval)) initialStore
    (by simp [launchInit, NewStoreSquasher, mergedRanges, mergeAll])
  have hnodup : chain.Nodup := chain_nodup chain hpw hwf
  obtain ⟨h1, h2, ⟨T, h3, h4, h5⟩, h6⟩ := launchRun_on_chain env hmerge hsave chain endB hpw hwf
    hload order [] (launchInit (NewStoreSquasher initialStore targetExclusiveBlock
      nextExpectedStartBlock storeSaveInterval))
    (by simpa using horder.nodup_iff.2 hnodup)
    (fun x hx => horder.subset hx) rfl rfl hint
    ⟨chain, by simp [launchInit, mergedRanges], hchain, by simp [launchInit, NewStoreSquasher]⟩
    (by simp [launchInit, mergedRanges, NewStoreSquasher])
  unfold launch
  have hTnil : T = [] := by
    cases T with
    | nil => rfl
    | cons t1 T1 =>
      exfalso
      have hmem : t1 ∈ chain := by rw [h3]; simp
      have hnd := hnodup
      rw [h3] at hnd
      have hdisj := (List.nodup_append.1 hnd)
      have ht1 : t1 ∉ T1 := (List.nodup_cons.1 hdisj.2.1).1
      rcases (h6 t1).1 (by simpa using horder.symm.subset hmem) with h | h
      · exact hdisj.2.2 h (List.mem_cons_self _ _)
      · exact ht1 (h5.subset h)
  subst hTnil
  simp only [List.append_nil] at h3
  simp only [ChainFromTo] at h4
  simp only [List.tail_nil, List.sublist_nil] at h5
  refine ⟨h3.symm, h5, h4, h1, h2, ?_⟩
  rw [hstore, ← h3]

/-- Witness for C2: the chain `[0,100), [100,200)` delivered last range first,
scenario 6 of the specification, with stores that record what is merged into
them: the full store ends up holding `[0,100)` and then `[100,200)`. -/
theorem squash_order_independent_witness :
    mergedRanges (launch recordingEnv (NewStoreSquasher ⟨0, []⟩ 200 0 100)
        ([(⟨100, 200⟩ : Range), ⟨0, 100⟩].map (fun r => Event.chunk [r]))).effects
        = [⟨0, 100⟩, ⟨100, 200⟩]
    ∧ (launch recordingEnv (NewStoreSquasher ⟨0, []⟩ 200 0 100)
        ([(⟨100, 200⟩ : Range), ⟨0, 100⟩].map (fun r => Event.chunk [r]))).squasher.ranges = []
    ∧ (launch recordingEnv (NewStoreSquasher ⟨0, []⟩ 200 0 100)
        ([(⟨100, 200⟩ : Range), ⟨0, 100⟩].map
          (fun r => Event.chunk [r]))).squasher.nextExpectedStartBlock = 200
    ∧ (launch recordingEnv (NewStoreSquasher ⟨0, []⟩ 200 0 100)
        ([(⟨100, 200⟩ : Range), ⟨0, 100⟩].map (fun r => Event.chunk [r]))).status = .running
    ∧ (launch recordingEnv (NewStoreSquasher ⟨0, []⟩ 200 0 100)
        ([(⟨100, 200⟩ : Range), ⟨0, 100⟩].map (fun r => Event.chunk [r]))).completion = []
    ∧ (launch recordingEnv (NewStoreSquasher ⟨0, []⟩ 200 0 100)
        ([(⟨100, 200⟩ : Range), ⟨0, 100⟩].map (fun r => Event.chunk [r]))).squasher.store
        = ⟨0, [⟨0, 100⟩, ⟨100, 200⟩]⟩ :=
  squash_order_independent recordingEnv ⟨0, []⟩ 200 0 100 200
    [⟨0, 100⟩, ⟨100, 200⟩] [⟨100, 200⟩, ⟨0, 100⟩]
    (by simp [ChainFromTo]) (by decide) (List.Perm.swap _ _ _)
    (fun _ _ => rfl) (fun _ _ => rfl) (fun _ => rfl) (by decide)

/-! ### What the buffer holds when launch reports completion -/

/-- Counterexample to C7: after the batch `[[100,200)]`, which cannot be merged
while block 0 is expected, closing the inbox makes launch send nil although the
buffer still holds `[100,200)` and nothing has been merged. -/
theorem launch_reports_nil_with_buffered_range :
    (launch quietEnv demoSquasher [.chunk [⟨100, 200⟩], .closed]).completion = [none]
    ∧ (launch quietEnv demoSquasher [.chunk [⟨100, 200⟩], .closed]).squasher.ranges
        = [⟨100, 200⟩]
    ∧ mergedRanges (launch quietEnv demoSquasher [.chunk [⟨100, 200⟩], .closed]).effects
        = [] := by
  decide

theorem launchRun_of_not_running {σ : Type} (env : Env σ) (st : LaunchState σ)
    (events : List Event) (h : st.status ≠ .running) : launchRun env st events = st := by
  cases events with
  | nil => rfl
  | cons ev evs =>
    unfold launchRun
    split
    · rename_i hs; exact absurd hs h
    · rfl

theorem processRange_merged_outcome {σ : Type} (env : Env σ) (s : StoreSquasher σ)
    (r : Range) :
    mergedRanges (processRange env s r).2.2 = [r] →
      ((processRange env s r).1 = .done ∨ (processRange env s r).1 = .panicked) := by
  unfold processRange
  split
  · simp [mergedRanges]
  · split
    · simp [mergedRanges]
    · split
      · simp [mergedRanges]
      · simp only
        split
        · simp [mergedRanges]
        · split
          · simp
          · split <;> simp

/-- A call of processRanges that returns a progress value has merged a head
part of the buffer, in order, and left the rest in the buffer. -/
theorem processRangesLoop_conserves {σ : Type} (env : Env σ) (round : Nat) (rs : List Range)
    (i : Nat) (s : StoreSquasher σ) (out : rangeProgress) (issued : List Effect)
    (o : rangeProgress)
    (h : (processRangesLoop env round rs i s out issued).1 = .progress o) :
    ∃ extra, (processRangesLoop env round rs i s out issued).2.2 = issued ++ extra
      ∧ rs = mergedRanges extra
          ++ (processRangesLoop env round rs i s out issued).2.1.ranges := by
  induction rs generalizing i s out issued with
  | nil => exact ⟨[], by simp [processRangesLoop], by simp [processRangesLoop, mergedRanges]⟩
  | cons r rest ih =>
    have hm := processRange_merged env { s with ranges := r :: rest } r
    have hr := processRange_ranges env { s with ranges := r :: rest } r
    have ho := processRange_merged_outcome env { s with ranges := r :: rest } r
    rw [processRangesLoop] at h ⊢
    by_cases hstop : egStop env round i issued = true
    · simp only [hstop, if_true]
      exact ⟨[], by simp, by simp [mergedRanges]⟩
    · simp only [hstop, Bool.false_eq_true, if_false] at h ⊢
      rcases hp : processRange env { s with ranges := r :: rest } r with ⟨o1, s1, e1⟩
      rw [hp] at hm hr ho
      simp only [hp] at h ⊢
      simp only at hm hr ho
      cases o1 with
      | skipRange =>
        rcases hm with ⟨h1, _, _⟩ | ⟨h1, _, _⟩
        · exact ⟨e1, rfl, by rw [h1, hr]; simp⟩
        · rcases ho h1 with h2 | h2 <;> simp at h2
      | failed e => simp at h
      | panicked => simp at h
      | done =>
        rcases hm with ⟨_, _, h3⟩ | ⟨h1, _, _⟩
        · exact absurd rfl h3
        · obtain ⟨extra, he, hc⟩ := ih (i + 1)
            { s1 with
              ranges := rest
              targetExclusiveEndBlockReach :=
                if r.ExclusiveEndBlock == s1.targetExclusiveEndBlock then true
                else s1.targetExclusiveEndBlockReach }
            { squashCount := out.squashCount, lastExclusiveEndBlock := r.ExclusiveEndBlock }
            (issued ++ e1) h
          refine ⟨e1 ++ extra, by rw [he]; simp, ?_⟩
          rw [mergedRanges_append, h1]
          simp only [List.singleton_append, List.cons_append, List.cons.injEq, true_and]
          exact hc

theorem launchStep_chunk_conserves {σ : Type} (env : Env σ) (st : LaunchState σ)
    (b R : List Range) (hnone : none ∉ st.completion)
    (hR : R.Perm (mergedRanges st.effects ++ st.squasher.ranges)) :
    none ∉ (launchStep env st (.chunk b)).completion
    ∧ ((launchStep env st (.chunk b)).status = .running →
        (R ++ b).Perm (mergedRanges (launchStep env st (.chunk b)).effects
          ++ (launchStep env st (.chunk b)).squasher.ranges)) := by
  have hPR : processRanges env st.round
      { st.squasher with ranges := sortSlice launchLess (st.squasher.ranges ++ b) }
      = processRangesLoop env st.round (sortSlice launchLess (st.squasher.ranges ++ b)) 0
          { st.squasher with ranges := sortSlice launchLess (st.squasher.ranges ++ b) }
          ⟨0, 0⟩ [] := rfl
  rcases hres : processRanges env st.round
      { st.squasher with ranges := sortSlice launchLess (st.squasher.ranges ++ b) }
    with ⟨o1, s1, issued⟩
  cases o1 with
  | panicked =>
    simp only [launchStep, hres]
    exact ⟨hnone, fun h => by simp at h⟩
  | failed e =>
    simp only [launchStep, hres]
    split
    · exact ⟨by simp [hnone], fun h => by simp at h⟩
    · exact ⟨by simp [hnone], fun h => by simp at h⟩
  | progress out =>
    simp only [launchStep, hres]
    split
    · exact ⟨by simp [hnone], fun h => by simp at h⟩
    · refine ⟨hnone, fun _ => ?_⟩
      have hc := processRangesLoop_conserves env st.round
        (sortSlice launchLess (st.squasher.ranges ++ b)) 0
        { st.squasher with ranges := sortSlice launchLess (st.squasher.ranges ++ b) }
        ⟨0, 0⟩ [] out (by rw [← hPR, hres])
      rw [← hPR, hres] at hc
      obtain ⟨extra, he, hs⟩ := hc
      simp only [List.nil_append] at he hs
      subst he
      have hsort := sortSlice_perm launchLess (st.squasher.ranges ++ b)
      rw [hs] at hsort
      rw [mergedRanges_append]
      have h1 : (R ++ b).Perm ((mergedRanges st.effects ++ st.squasher.ranges) ++ b) :=
        List.Perm.append_right b hR
      have h2 : ((mergedRanges st.effects ++ st.squasher.ranges) ++ b).Perm
          (mergedRanges st.effects ++ (mergedRanges issued ++ s1.ranges)) := by
        rw [List.append_assoc]
        exact List.Perm.append_left _ hsort.symm
      simpa [List.append_assoc] using h1.trans h2

theorem launchRun_nil_conserves {σ : Type} (env : Env σ) (events : List Event)
    (st : LaunchState σ) (R : List Range) (hrun : st.status = .running)
    (hnone : none ∉ st.completion)
    (hR : R.Perm (mergedRanges st.effects ++ st.squasher.ranges))
    (hnil : none ∈ (launchRun env st events).completion) :
    ∃ (batches : List (List Range)) (later : List Event), events = batches.map Event.chunk ++ Event.closed :: later
      ∧ (R ++ batches.flatten).Perm (mergedRanges (launchRun env st events).effects
          ++ (launchRun env st events).squasher.ranges) := by
  induction events generalizing st R with
  | nil => exact absurd hnil hnone
  | cons ev evs ih =>
    have hstep : launchRun env st (ev :: evs) = launchRun env (launchStep env st ev) evs := by
      simp only [launchRun, hrun]
    rw [hstep] at hnil ⊢
    cases ev with
    | ctxDone =>
      have hst : (launchStep env st .ctxDone).status ≠ .running := by simp [launchStep]
      rw [launchRun_of_not_running env _ evs hst] at hnil
      simp [launchStep, hnone] at hnil
    | closed =>
      have hst : (launchStep env st .closed).status ≠ .running := by simp [launchStep]
      rw [launchRun_of_not_running env _ evs hst]
      exact ⟨[], evs, by simp, by simpa [launchStep] using hR⟩
    | chunk b =>
      obtain ⟨h1, h2⟩ := launchStep_chunk_conserves env st b R hnone hR
      by_cases hst : (launchStep env st (.chunk b)).status = .running
      · obtain ⟨batches, later, he, hp⟩ := ih (launchStep env st (.chunk b)) (R ++ b) hst h1
          (h2 hst) hnil
        exact ⟨b :: batches, later, by simp [he], by simpa [List.append_assoc] using hp⟩
      · rw [launchRun_of_not_running env _ evs hst] at hnil
        exact absurd hnil h1

/-- Claim C7, amended: launch sends nil on the completion channel only when the
`select` finds the inbox closed after a run of batches, and it then reports at
once, without draining the buffer: at the moment nil is sent the ranges
received (with those the buffer held at the start) are exactly the ranges
merged so far together with the ranges still in the buffer `ranges`. The buffer
is therefore empty only if every received range has been merged. -/
theorem launch_nil_conserves_received {σ : Type} (env : Env σ) (s : StoreSquasher σ)
    (events : List Event) (hnil : none ∈ (launch env s events).completion) :
    ∃ (batches : List (List Range)) (later : List Event), events = batches.map Event.chunk ++ Event.closed :: later
      ∧ (s.ranges ++ batches.flatten).Perm (mergedRanges (launch env s events).effects
          ++ (launch env s events).squasher.ranges) := by
  unfold launch at hnil ⊢
  exact launchRun_nil_conserves env events (launchInit s) s.ranges rfl
    (by simp [launchInit]) (by simp [launchInit, mergedRanges]) hnil

/-- Witness for C7 (amended): the run of the counterexample, batch `[[100,200)]`
then the close of the inbox. -/
theorem launch_nil_conserves_received_witness :
    ∃ (batches : List (List Range)) (later : List Event),
      [Event.chunk [⟨100, 200⟩], Event.closed] = batches.map Event.chunk ++ Event.closed :: later
      ∧ (demoSquasher.ranges ++ batches.flatten).Perm
          (mergedRanges (launch quietEnv demoSquasher
              [Event.chunk [⟨100, 200⟩], Event.closed]).effects
            ++ (launch quietEnv demoSquasher
              [Event.chunk [⟨100, 200⟩], Event.closed]).squasher.ranges) :=
  launch_nil_conserves_received quietEnv demoSquasher
    [Event.chunk [⟨100, 200⟩], Event.closed] (by decide)

/-! ## Store deltas -/

theorem revertDelta_ApplyDelta (s : BaseStore) (d : StoreDelta) (h : d.Faithful s.kv) :
    (s.ApplyDelta d).revertDelta d = s := by
  cases s with
  | mk kv deltas =>
    unfold StoreDelta.Faithful at h
    unfold BaseStore.ApplyDelta BaseStore.revertDelta
    cases hop : d.Operation <;> simp only [hop] at h ⊢ <;>
      · congr 1
        funext k
        by_cases hk : k = d.Key
        · subst hk; simp [KV.set, KV.delete, h]
        · simp [KV.set, KV.delete, hk]

theorem ApplyDeltasReverse_applyDeltas (s : BaseStore) (D : List StoreDelta)
    (h : s.FaithfulDeltas D) : (s.applyDeltas D).ApplyDeltasReverse D = s := by
  induction D generalizing s with
  | nil => rfl
  | cons d ds ih =>
    simp only [BaseStore.FaithfulDeltas] at h
    have := ih (s.ApplyDelta d) h.2
    simp only [BaseStore.applyDeltas, List.foldl_cons, BaseStore.ApplyDeltasReverse,
      List.foldr_cons] at this ⊢
    rw [this]
    exact revertDelta_ApplyDelta s d h.1

/-- Counterexample to C8: on the map `{k1: [1]}` the delta `CREATE k1 = [2]`
(a create of a key that is already bound) is applied and then reverted; the
revert deletes `k1`, so the map is not the one before. -/
theorem ApplyDeltasReverse_not_identity :
    ((({ kv := KV.set KV.empty "k1" [1], deltas := [] } : BaseStore).applyDeltas
        [{ Operation := .CREATE, Ordinal := 0, Key := "k1", OldValue := [], NewValue := [2] }]
      ).ApplyDeltasReverse
        [{ Operation := .CREATE, Ordinal := 0, Key := "k1", OldValue := [], NewValue := [2] }]).kv
      ≠ KV.set KV.empty "k1" [1] := by
  intro h
  have := congrFun h "k1"
  simp [BaseStore.applyDeltas, BaseStore.ApplyDeltasReverse, BaseStore.ApplyDelta,
    BaseStore.revertDelta, KV.set, KV.delete, KV.empty] at this

/-- Claim C8, amended: undo after apply is the identity on the store for deltas
that record the mutations faithfully. For any pre-state `S` and any sequence of
deltas `D` in which each create is of a key absent at that point and each
update or delete carries as old value the value the key has at that point,
applying every delta of `D` in order with ApplyDelta and then calling
ApplyDeltasReverse(D) yields a kv map equal to that of `S`. -/
theorem undo_after_apply_faithful (S : BaseStore) (D : List StoreDelta)
    (h : S.FaithfulDeltas D) : ((S.applyDeltas D).ApplyDeltasReverse D).kv = S.kv := by
  rw [ApplyDeltasReverse_applyDeltas S D h]

/-- Witness for C8 (amended): scenario 3 of the specification, the deltas
`CREATE k1=v1, CREATE k2=v2, DELETE k1 (old=v1)` on the empty store. -/
theorem undo_after_apply_faithful_witness :
    ((({ kv := KV.empty, deltas := [] } : BaseStore).applyDeltas
        [{ Operation := .CREATE, Ordinal := 0, Key := "k1", OldValue := [], NewValue := [1] },
         { Operation := .CREATE, Ordinal := 0, Key := "k2", OldValue := [], NewValue := [2] },
         { Operation := .DELETE, Ordinal := 0, Key := "k1", OldValue := [1], NewValue := [] }]
      ).ApplyDeltasReverse
        [{ Operation := .CREATE, Ordinal := 0, Key := "k1", OldValue := [], NewValue := [1] },
         { Operation := .CREATE, Ordinal := 0, Key := "k2", OldValue := [], NewValue := [2] },
         { Operation := .DELETE, Ordinal := 0, Key := "k1", OldValue := [1], NewValue := [] }]).kv
      = KV.empty :=
  undo_after_apply_faithful { kv := KV.empty, deltas := [] }
    [{ Operation := .CREATE, Ordinal := 0, Key := "k1", OldValue := [], NewValue := [1] },
     { Operation := .CREATE, Ordinal := 0, Key := "k2", OldValue := [], NewValue := [2] },
     { Operation := .DELETE, Ordinal := 0, Key := "k1", OldValue := [1], NewValue := [] }]
    (by simp [BaseStore.FaithfulDeltas, StoreDelta.Faithful, BaseStore.ApplyDelta, KV.set,
      KV.empty])

theorem applyDeltas_kv (s : BaseStore) (D : List StoreDelta) :
    (s.applyDeltas D).kv = D.foldl deltaUpdate s.kv := by
  induction D generalizing s with
  | nil => rfl
  | cons d ds ih =>
    simp only [BaseStore.applyDeltas, List.foldl_cons] at ih ⊢
    rw [ih (s.ApplyDelta d)]
    congr 1
    funext k
    unfold BaseStore.ApplyDelta deltaUpdate
    cases hop : d.Operation <;> simp [KV.set, KV.delete]

/-- Claim C9: ApplyDelta binds the key of the delta to the new value when the
operation is CREATE or UPDATE and removes the key when it is DELETE, and
leaves the value of every other key unchanged; applying a list of deltas in
order gives the map obtained by folding these updates over the initial map, and
on the deltas `CREATE k1=v1, CREATE k2=v2, DELETE k1` from the empty map that
is the map `{k2: v2}`. -/
theorem ApplyDelta_updates_key (s : BaseStore) (d : StoreDelta) (D : List StoreDelta)
    (v1 v2 : Bytes) :
    ((d.Operation = .CREATE ∨ d.Operation = .UPDATE) →
        (s.ApplyDelta d).kv d.Key = some d.NewValue)
    ∧ (d.Operation = .DELETE → (s.ApplyDelta d).kv d.Key = none)
    ∧ (∀ k, k ≠ d.Key → (s.ApplyDelta d).kv k = s.kv k)
    ∧ (s.applyDeltas D).kv = D.foldl deltaUpdate s.kv
    ∧ (({ kv := KV.empty, deltas := [] } : BaseStore).applyDeltas
        [{ Operation := .CREATE, Ordinal := 0, Key := "k1", OldValue := [], NewValue := v1 },
         { Operation := .CREATE, Ordinal := 0, Key := "k2", OldValue := [], NewValue := v2 },
         { Operation := .DELETE, Ordinal := 0, Key := "k1", OldValue := v1, NewValue := [] }]).kv
        = KV.set KV.empty "k2" v2 := by
  refine ⟨?_, ?_, ?_, applyDeltas_kv s D, ?_⟩
  · rintro (h | h) <;> simp [BaseStore.ApplyDelta, h, KV.set]
  · intro h; simp [BaseStore.ApplyDelta, h, KV.delete]
  · intro k hk
    unfold BaseStore.ApplyDelta
    cases hop : d.Operation <;> simp [KV.set, KV.delete, hk]
  · funext k
    by_cases h1 : k = "k1"
    · subst h1
      simp [BaseStore.applyDeltas, BaseStore.ApplyDelta, KV.set, KV.delete, KV.empty]
    · simp [BaseStore.applyDeltas, BaseStore.ApplyDelta, KV.set, KV.delete, KV.empty, h1]

/-! ## Ordinal reads within a block -/

/-- The delta that `set` records. -/
theorem set_deltas (s : BaseStore) (ord : Nat) (key : String) (value : Bytes) :
    ∃ d : StoreDelta, d.Faithful s.kv ∧ d.Key = key ∧ d.Ordinal = ord ∧ d.NewValue = value
      ∧ d.Operation ≠ .DELETE
      ∧ s.set ord key value = { kv := (s.ApplyDelta d).kv, deltas := s.deltas ++ [d] } := by
  unfold BaseStore.set BaseStore.GetLast
  cases h : s.kv key with
  | none =>
    exact ⟨_, by simp [StoreDelta.Faithful, h], rfl, rfl, rfl, by simp, rfl⟩
  | some val =>
    exact ⟨_, by simp [StoreDelta.Faithful, h], rfl, rfl, rfl, by simp, rfl⟩

theorem ApplyDelta_kv_only (s : BaseStore) (d : StoreDelta) (ds : List StoreDelta) :
    ({ kv := s.kv, deltas := ds } : BaseStore).ApplyDelta d
      = { kv := (s.ApplyDelta d).kv, deltas := ds } := by
  unfold BaseStore.ApplyDelta
  cases d.Operation <;> rfl

theorem revertDelta_kv_congr (a b : BaseStore) (d : StoreDelta) (h : a.kv = b.kv) :
    (a.revertDelta d).kv = (b.revertDelta d).kv := by
  unfold BaseStore.revertDelta
  cases d.Operation <;> simp [h]

theorem ApplyDeltasReverse_kv_only (kv : KV) (ds1 ds2 D : List StoreDelta) :
    (({ kv := kv, deltas := ds1 } : BaseStore).ApplyDeltasReverse D).kv
      = (({ kv := kv, deltas := ds2 } : BaseStore).ApplyDeltasReverse D).kv := by
  induction D with
  | nil => rfl
  | cons d ds ih =>
    simp only [BaseStore.ApplyDeltasReverse, List.foldr_cons] at ih ⊢
    exact revertDelta_kv_congr _ _ d ih

/-- The map before the block, as the reads see it: the deltas of the block
undone. A `set` does not change it. -/
theorem set_preserves_first (s : BaseStore) (ord : Nat) (key : String) (value : Bytes) :
    ((s.set ord key value).ApplyDeltasReverse (s.set ord key value).deltas).kv
      = (s.ApplyDeltasReverse s.deltas).kv := by
  obtain ⟨d, hf, _, _, _, _, hs⟩ := set_deltas s ord key value
  rw [hs]
  simp only [BaseStore.ApplyDeltasReverse, List.foldr_append, List.foldr_cons, List.foldr_nil]
  have h1 : (({ kv := (s.ApplyDelta d).kv, deltas := s.deltas ++ [d] } : BaseStore).revertDelta d)
      = { kv := s.kv, deltas := s.deltas ++ [d] } := by
    have := revertDelta_ApplyDelta { kv := s.kv, deltas := s.deltas ++ [d] } d hf
    rw [ApplyDelta_kv_only] at this
    exact this
  rw [h1]
  exact ApplyDeltasReverse_kv_only s.kv (s.deltas ++ [d]) s.deltas s.deltas

theorem GetAt_set_same (s : BaseStore) (ord : Nat) (key : String) (value : Bytes) :
    (s.set ord key value).GetAt ord key = some value := by
  obtain ⟨d, hf, hk, ho, hv, hop, hs⟩ := set_deltas s ord key value
  unfold BaseStore.GetAt
  rw [applyDeltas_kv, set_preserves_first, hs]
  simp only [List.filter_append, List.filter_cons, List.filter_nil, ho, le_refl, decide_True,
    if_true]
  rw [List.foldl_append]
  simp only [List.foldl_cons, List.foldl_nil, deltaUpdate, hk, hv, hop, if_true, if_false]

theorem GetAt_set_earlier (s : BaseStore) (ord ord2 : Nat) (key : String) (value : Bytes)
    (h : ord2 < ord) : (s.set ord key value).GetAt ord2 key = s.GetAt ord2 key := by
  obtain ⟨d, hf, hk, ho, hv, hop, hs⟩ := set_deltas s ord key value
  unfold BaseStore.GetAt
  rw [applyDeltas_kv, applyDeltas_kv, set_preserves_first, hs]
  have hn : ¬ ord ≤ ord2 := by omega
  simp only [List.filter_append, List.filter_cons, List.filter_nil, ho, hn, decide_False,
    Bool.false_eq_true, if_false, List.append_nil]

theorem GetLast_set (s : BaseStore) (ord : Nat) (key : String) (value : Bytes) :
    (s.set ord key value).GetLast key = some value := by
  obtain ⟨d, hf, hk, ho, hv, hop, hs⟩ := set_deltas s ord key value
  rw [hs]
  unfold BaseStore.GetLast BaseStore.ApplyDelta
  cases hopc : d.Operation
  · simp [KV.set, hk, hv]
  · simp [KV.set, hk, hv]
  · exact absurd hopc hop

theorem setAll_append (s : BaseStore) (key : String) (ws : List (Nat × Bytes))
    (w : Nat × Bytes) : s.setAll key (ws ++ [w]) = (s.setAll key ws).set w.1 key w.2 := by
  simp [BaseStore.setAll, List.foldl_append, BaseStore.Set]

theorem setAll_first (s : BaseStore) (key : String) (ws : List (Nat × Bytes)) :
    ((s.setAll key ws).ApplyDeltasReverse (s.setAll key ws).deltas).kv
      = (s.ApplyDeltasReverse s.deltas).kv := by
  induction ws using List.reverseRecOn with
  | nil => rfl
  | append_singleton ws w ih =>
    rw [setAll_append, set_preserves_first, ih]

/-- Claim C10: ordinal reads within a block. After `Reset()`, for writes
`Set(o1,k,v1), ..., Set(on,k,vn)` of one key with strictly increasing
ordinals, `GetFirst(k)` returns what `k` was bound to when the block began
(the value `kv` held at the Reset), `GetAt(oi, k)` returns `vi` for every write
and `GetLast(k)` returns `vn`. -/
theorem ordinal_reads_within_block (s0 : BaseStore) (key : String)
    (writes : List (Nat × Bytes))
    (hord : writes.Pairwise (fun a b => a.1 < b.1)) :
    (s0.Reset.setAll key writes).GetFirst key = s0.kv key
    ∧ (∀ w ∈ writes, (s0.Reset.setAll key writes).GetAt w.1 key = some w.2)
    ∧ (∀ w, writes.getLast? = some w → (s0.Reset.setAll key writes).GetLast key = some w.2) := by
  refine ⟨?_, ?_, ?_⟩
  · unfold BaseStore.GetFirst
    rw [setAll_first]
    rfl
  · induction writes using List.reverseRecOn with
    | nil => intro w hw; simp at hw
    | append_singleton ws w ih =>
      have hp := List.pairwise_append.1 hord
      intro x hx
      rw [setAll_append]
      rcases List.mem_append.1 hx with h | h
      · have hlt : x.1 < w.1 := hp.2.2 x h w (List.mem_singleton_self w)
        rw [GetAt_set_earlier _ _ _ _ _ hlt]
        exact ih hp.1 x h
      · rw [List.mem_singleton.1 h]
        exact GetAt_set_same _ _ _ _
  · intro w hw
    induction writes using List.reverseRecOn with
    | nil => simp at hw
    | append_singleton ws x _ =>
      rw [List.getLast?_concat] at hw
      simp only [Option.some.injEq] at hw
      subst hw
      rw [setAll_append]
      exact GetLast_set _ _ _ _

/-- Witness for C10: the writes of TestStore after its Reset, at ordinals 0, 1,
3 and 5, on a store in which the key is bound to the last value set before. -/
theorem ordinal_reads_within_block_witness :
    ((({ kv := KV.set KV.empty "1" [3], deltas := [] } : BaseStore).Reset.setAll "1"
        [(0, [4]), (1, [5]), (3, [6]), (5, [7])]).GetFirst "1"
      = (KV.set KV.empty "1" [3]) "1")
    ∧ (∀ w ∈ [((0 : Nat), ([4] : Bytes)), (1, [5]), (3, [6]), (5, [7])],
        (({ kv := KV.set KV.empty "1" [3], deltas := [] } : BaseStore).Reset.setAll "1"
          [(0, [4]), (1, [5]), (3, [6]), (5, [7])]).GetAt w.1 "1" = some w.2)
    ∧ (∀ w, [((0 : Nat), ([4] : Bytes)), (1, [5]), (3, [6]), (5, [7])].getLast? = some w →
        (({ kv := KV.set KV.empty "1" [3], deltas := [] } : BaseStore).Reset.setAll "1"
          [(0, [4]), (1, [5]), (3, [6]), (5, [7])]).GetLast "1" = some w.2) :=
  ordinal_reads_within_block { kv := KV.set KV.empty "1" [3], deltas := [] } "1"
    [(0, [4]), (1, [5]), (3, [6]), (5, [7])] (by decide)

/-! ## Decimal block numbers in file names -/

theorem toDigitsCore_fuel (n : Nat) : ∀ (fuel : Nat) (ds : List Char), n < fuel →
    Nat.toDigitsCore 10 fuel n ds = Nat.toDigitsCore 10 (n + 1) n [] ++ ds := by
  induction n using Nat.strong_induction_on with
  | _ n ih =>
    intro fuel ds hlt
    cases fuel with
    | zero => omega
    | succ f =>
      by_cases h0 : n / 10 = 0
      · simp [Nat.toDigitsCore, h0]
      · have hlt2 : n / 10 < n := Nat.div_lt_self (by omega) (by decide)
        have e1 := ih (n / 10) hlt2 f (Nat.digitChar (n % 10) :: ds) (by omega)
        have e2 := ih (n / 10) hlt2 n [Nat.digitChar (n % 10)] hlt2
        simp only [Nat.toDigitsCore, h0, if_false]
        rw [e1, e2]
        simp

theorem decimal_step (n : Nat) (h : n / 10 ≠ 0) :
    decimal n = decimal (n / 10) ++ [Nat.digitChar (n % 10)] := by
  have hlt2 : n / 10 < n := Nat.div_lt_self (by omega) (by decide)
  unfold decimal Nat.toDigits
  have e2 := toDigitsCore_fuel (n / 10) n [Nat.digitChar (n % 10)] hlt2
  simp only [Nat.toDigitsCore, h, if_false]
  exact e2

theorem decimal_small (n : Nat) (h : n / 10 = 0) : decimal n = [Nat.digitChar n] := by
  have hn : n % 10 = n := Nat.mod_eq_of_lt (by omega)
  unfold decimal Nat.toDigits
  simp [Nat.toDigitsCore, h, hn]

theorem digitChar_value (k : Nat) (h : k < 10) :
    (Nat.digitChar k).toNat - 48 = k ∧ isDecimalDigit (Nat.digitChar k) = true
      ∧ (k ≠ 0 → Nat.digitChar k ≠ '0') := by
  interval_cases k <;> decide

theorem digitChar_of_digit (c : Char) (h : isDecimalDigit c = true) :
    Nat.digitChar (c.toNat - 48) = c ∧ c.toNat - 48 < 10
      ∧ (c ≠ '0' → c.toNat - 48 ≠ 0) := by
  simp only [isDecimalDigit, decide_eq_true_eq] at h
  have hc : Char.ofNat c.toNat = c := Char.ofNat_toNat c
  have hk : ∃ k, k < 10 ∧ c.toNat = 48 + k := ⟨c.toNat - 48, by omega, by omega⟩
  obtain ⟨k, hk, he⟩ := hk
  rw [← hc, he]
  interval_cases k <;> decide

theorem decimalValue_snoc (ds : List Char) (c : Char) :
    decimalValue (ds ++ [c]) = 10 * decimalValue ds + (c.toNat - 48) := by
  simp [decimalValue, List.foldl_append]

theorem decimalValue_decimal (n : Nat) : decimalValue (decimal n) = n := by
  induction n using Nat.strong_induction_on with
  | _ n ih =>
    by_cases h0 : n / 10 = 0
    · rw [decimal_small n h0]
      have := (digitChar_value n (by omega)).1
      simp [decimalValue, this]
    · have hlt2 : n / 10 < n := Nat.div_lt_self (by omega) (by decide)
      rw [decimal_step n h0, decimalValue_snoc, ih _ hlt2,
        (digitChar_value (n % 10) (Nat.mod_lt _ (by decide))).1]
      omega

theorem decimal_all_digits (n : Nat) : (decimal n).all isDecimalDigit = true := by
  induction n using Nat.strong_induction_on with
  | _ n ih =>
    by_cases h0 : n / 10 = 0
    · rw [decimal_small n h0]
      simp [(digitChar_value n (by omega)).2.1]
    · have hlt2 : n / 10 < n := Nat.div_lt_self (by omega) (by decide)
      rw [decimal_step n h0, List.all_append, ih _ hlt2]
      simp [(digitChar_value (n % 10) (Nat.mod_lt _ (by decide))).2.1]

theorem decimal_length_le (n : Nat) (h : n < 10 ^ 10) : (decimal n).length ≤ 10 := by
  unfold decimal Nat.toDigits
  exact Nat.toDigitsCore_length 10 (by decide) (n + 1) n 10 h (by decide)

theorem decimal_ne_nil (n : Nat) : decimal n ≠ [] := by
  by_cases h0 : n / 10 = 0
  · rw [decimal_small n h0]; simp
  · rw [decimal_step n h0]; simp

/-- A run of digits that is not empty and has no zero in front is the decimal
print of its value. -/
theorem decimal_decimalValue (ds : List Char) (hne : ds ≠ [])
    (hd : ds.all isDecimalDigit = true) (h0 : ds.head? ≠ some '0') :
    decimal (decimalValue ds) = ds := by
  induction ds using List.reverseRecOn with
  | nil => exact absurd rfl hne
  | append_singleton ds c ih =>
    rw [List.all_append] at hd
    simp only [Bool.and_eq_true, List.all_cons, List.all_nil, Bool.and_true] at hd
    obtain ⟨hc1, hc2, hc3⟩ := digitChar_of_digit c hd.2
    rw [decimalValue_snoc]
    cases ds with
    | nil =>
      simp only [decimalValue, List.foldl_nil, Nat.mul_zero, Nat.zero_add, List.nil_append]
      rw [decimal_small _ (by omega), hc1]
    | cons d ds2 =>
      have hh : (d :: ds2).head? ≠ some '0' := by simpa using h0
      have e := ih (by simp) hd.1 hh
      have hv : decimalValue (d :: ds2) ≠ 0 := by
        intro hz
        rw [hz] at e
        have : decimal 0 = ['0'] := by decide
        rw [this] at e
        rw [← e] at hh
        exact hh rfl
      have hdiv : (10 * decimalValue (d :: ds2) + (c.toNat - 48)) / 10
          = decimalValue (d :: ds2) := by omega
      have hmod : (10 * decimalValue (d :: ds2) + (c.toNat - 48)) % 10 = c.toNat - 48 := by
        omega
      rw [decimal_step _ (by rw [hdiv]; exact hv), hdiv, hmod, e, hc1]

theorem decimalValue_zero_cons (cs : List Char) : decimalValue ('0' :: cs) = decimalValue cs := by
  simp [decimalValue]

theorem decimal_zero : decimal 0 = ['0'] := by decide

/-- A run of digits is the decimal print of its value with zeros in front up to
the length of the run. -/
theorem zeros_decimal_decimalValue (cs : List Char) (hne : cs ≠ [])
    (hd : cs.all isDecimalDigit = true) :
    List.replicate (cs.length - (decimal (decimalValue cs)).length) '0'
      ++ decimal (decimalValue cs) = cs := by
  induction cs with
  | nil => exact absurd rfl hne
  | cons c t ih =>
    by_cases hc : c = '0'
    · subst hc
      rw [decimalValue_zero_cons]
      cases t with
      | nil => simp [decimalValue, decimal_zero]
      | cons d t2 =>
        have hd2 : (d :: t2).all isDecimalDigit = true := by
          simp only [List.all_cons, Bool.and_eq_true] at hd ⊢
          exact hd.2
        have e := ih (by simp) hd2
        have hlen : (decimal (decimalValue (d :: t2))).length ≤ (d :: t2).length := by
          have := congrArg List.length e
          simp only [List.length_append, List.length_replicate] at this
          omega
        have hrep : ('0' :: d :: t2).length - (decimal (decimalValue (d :: t2))).length
            = ((d :: t2).length - (decimal (decimalValue (d :: t2))).length) + 1 := by
          simp only [List.length_cons] at hlen ⊢
          omega
        rw [hrep, List.replicate_succ, List.cons_append, e]
    · have e := decimal_decimalValue (c :: t) (by simp) hd (by simpa using hc)
      rw [e]
      simp

theorem pad_data (n : Nat) :
    (pad n).data = List.replicate (10 - (decimal n).length) '0' ++ decimal n := rfl

theorem decimalValue_zeros (k : Nat) (cs : List Char) :
    decimalValue (List.replicate k '0' ++ cs) = decimalValue cs := by
  induction k with
  | zero => simp
  | succ k ih => rw [List.replicate_succ, List.cons_append, decimalValue_zero_cons, ih]

/-- The text `pad n` is a decimal print of `n`: digits only, of value `n`, and
exactly 10 characters long when `n < 10^10`. -/
theorem pad_decimal (n : Nat) :
    (pad n).data.all isDecimalDigit = true ∧ decimalValue (pad n).data = n
      ∧ (n < 10 ^ 10 → (pad n).length = 10) := by
  refine ⟨?_, ?_, ?_⟩
  · rw [pad_data, List.all_append, decimal_all_digits]
    simp [isDecimalDigit]
  · rw [pad_data, decimalValue_zeros, decimalValue_decimal]
  · intro h
    have := decimal_length_le n h
    simp only [String.length, pad_data, List.length_append, List.length_replicate]
    omega

/-- The padded print of the value of a padded run of digits is that run. -/
theorem pad_of_padded (cs : List Char) (h : isPadded cs = true) :
    (pad (decimalValue cs)).data = cs := by
  simp only [isPadded, Bool.and_eq_true, Bool.or_eq_true, beq_iff_eq, decide_eq_true_eq,
    bne_iff_ne, ne_eq] at h
  obtain ⟨hd, hlen⟩ := h
  have hne : cs ≠ [] := by
    intro e; subst e; simp at hlen
  rw [pad_data]
  rcases hlen with h10 | ⟨hgt, hhead⟩
  · have := zeros_decimal_decimalValue cs hne hd
    rw [h10] at this
    exact this
  · have e := decimal_decimalValue cs hne hd hhead
    rw [e]
    have : 10 - cs.length = 0 := by omega
    rw [this]; simp

theorem ParseInt_digits (cs : List Char) (hne : cs ≠ [])
    (hd : cs.all isDecimalDigit = true) :
    ParseInt cs = if decimalValue cs < 2 ^ 63 then some (decimalValue cs : Int) else none := by
  cases cs with
  | nil => exact absurd rfl hne
  | cons c t =>
    have hc : isDecimalDigit c = true := by
      simp only [List.all_cons, Bool.and_eq_true] at hd; exact hd.1
    have h1 : c ≠ '-' := by rintro rfl; exact absurd hc (by decide)
    have h2 : c ≠ '+' := by rintro rfl; exact absurd hc (by decide)
    unfold ParseInt
    split
    · rename_i ds heq
      exact absurd (List.cons.inj heq).1 h1
    · rename_i ds heq
      exact absurd (List.cons.inj heq).1 h2
    · simp only [ne_eq, reduceCtorEq, not_false_eq_true, hd, true_and]

theorem u64OfInt_natCast (n : Nat) (h : n < 2 ^ 64) : u64OfInt (n : Int) = n := by
  unfold u64OfInt
  have : ((n : Int) % (2 ^ 64 : Int)) = (n : Int) := by
    apply Int.emod_eq_of_lt
    · exact Int.ofNat_nonneg n
    · exact_mod_cast h
  rw [this]
  simp

theorem isPadded_digits (cs : List Char) (h : isPadded cs = true) :
    cs ≠ [] ∧ cs.all isDecimalDigit = true := by
  simp only [isPadded, Bool.and_eq_true, Bool.or_eq_true, beq_iff_eq, decide_eq_true_eq] at h
  refine ⟨?_, h.1⟩
  intro e; subst e; simp at h

theorem MustAtoi_padded (cs : List Char) (v : Int) (h : isPadded cs = true)
    (hv : MustAtoi (String.mk cs) = some v) : u64OfInt v = decimalValue cs := by
  obtain ⟨hne, hd⟩ := isPadded_digits cs h
  unfold MustAtoi at hv
  simp only [ParseInt_digits cs hne hd] at hv
  split at hv
  · rename_i hlt
    simp only [Option.some.injEq] at hv
    rw [← hv]
    exact u64OfInt_natCast _ (by omega)
  · simp at hv

/-- Claim C12: range closure for output-cache names. For every filename that
fileNameToRange accepts, with `r` the range it returns,
`ComputeDBinFilename(r.StartBlock, r.ExclusiveEndBlock)` is that filename. -/
theorem fileNameToRange_closure (filename : String) (r : Range)
    (h : fileNameToRange filename = .ok r) :
    ComputeDBinFilename r.StartBlock r.ExclusiveEndBlock = filename := by
  unfold fileNameToRange at h
  split at h
  · simp at h
  · rename_i startGroup endGroup hm
    unfold cacheFilenameSubmatch at hm
    split at hm
    · simp at hm
    · rename_i x afterDash hdrop
      split at hm
      · rename_i hcond
        obtain ⟨hsuf, hpa, hpb⟩ := hcond
        simp only [Option.some.injEq, Prod.mk.injEq] at hm
        obtain ⟨rfl, rfl⟩ := hm
        split at h
        · rename_i startBlock endBlock hs he
          simp only [GoResult.ok.injEq] at h
          subst h
          have hx : x = '-' := by
            have := List.head?_dropWhile_not (fun c => c != '-') filename.data
            rw [hdrop] at this
            simpa using this
          subst hx
          have hsplit := List.takeWhile_append_dropWhile (fun c => c != '-') filename.data
          rw [hdrop] at hsplit
          have hafter := List.take_append_drop (afterDash.length - 7) afterDash
          rw [hsuf] at hafter
          have e1 := MustAtoi_padded _ _ hpa hs
          have e2 := MustAtoi_padded _ _ hpb he
          apply String.ext
          simp only [ComputeDBinFilename, String.data_append, e1, e2, pad_of_padded _ hpa,
            pad_of_padded _ hpb]
          calc List.takeWhile (fun c => c != '-') filename.data ++ "-".data
                  ++ List.take (afterDash.length - 7) afterDash ++ ".output".data
              = List.takeWhile (fun c => c != '-') filename.data
                  ++ '-' :: (List.take (afterDash.length - 7) afterDash ++ ".output".data) := by
                simp
            _ = List.takeWhile (fun c => c != '-') filename.data ++ '-' :: afterDash := by
                rw [hafter]
            _ = filename.data := hsplit
        · simp at h
      · simp at hm

/-- Witness for C12: the canonical name of the range `[100, 200)`. -/
theorem fileNameToRange_closure_witness :
    ComputeDBinFilename (⟨100, 200⟩ : Range).StartBlock (⟨100, 200⟩ : Range).ExclusiveEndBlock
      = "0000000100-0000000200.output" :=
  fileNameToRange_closure "0000000100-0000000200.output" ⟨100, 200⟩ (by decide)

/-- Claim C11: store segment names put the end block first. For a range
`[s, e)` with `s, e < 10^10`, fullStateFileName is the 10-digit zero-padded
decimal of `e`, `-`, the 10-digit zero-padded decimal of `s`, then `.kv`;
partialFileName is the same with the suffix `.partial`; fullStateFilePrefix(e)
is the 10-digit zero-padded decimal of `e` and a prefix of the full-state name;
the names of the state package are these after `<module>-`. Each padded number
is 10 decimal digits whose value is the number. -/
theorem store_segment_names (r : Range) (storeName : String)
    (hs : r.StartBlock < 10 ^ 10) (he : r.ExclusiveEndBlock < 10 ^ 10) :
    fullStateFileName r = pad r.ExclusiveEndBlock ++ "-" ++ pad r.StartBlock ++ ".kv"
    ∧ partialFileName r = pad r.ExclusiveEndBlock ++ "-" ++ pad r.StartBlock ++ ".partial"
    ∧ fullStateFilePrefix r.ExclusiveEndBlock = pad r.ExclusiveEndBlock
    ∧ (fullStateFilePrefix r.ExclusiveEndBlock).data <+: (fullStateFileName r).data
    ∧ ((pad r.ExclusiveEndBlock).length = 10
        ∧ (pad r.ExclusiveEndBlock).data.all isDecimalDigit = true
        ∧ decimalValue (pad r.ExclusiveEndBlock).data = r.ExclusiveEndBlock)
    ∧ ((pad r.StartBlock).length = 10
        ∧ (pad r.StartBlock).data.all isDecimalDigit = true
        ∧ decimalValue (pad r.StartBlock).data = r.StartBlock)
    ∧ StateFileName storeName r.StartBlock r.ExclusiveEndBlock
        = storeName ++ "-" ++ fullStateFileName r
    ∧ PartialFileName storeName r.StartBlock r.ExclusiveEndBlock
        = storeName ++ "-" ++ partialFileName r
    ∧ StateFilePrefix storeName r.ExclusiveEndBlock
        = storeName ++ "-" ++ fullStateFilePrefix r.ExclusiveEndBlock := by
  obtain ⟨a1, a2, a3⟩ := pad_decimal r.ExclusiveEndBlock
  obtain ⟨b1, b2, b3⟩ := pad_decimal r.StartBlock
  refine ⟨rfl, rfl, rfl, ?_, ⟨a3 he, a1, a2⟩, ⟨b3 hs, b1, b2⟩, ?_, ?_, rfl⟩
  · simp only [fullStateFilePrefix, fullStateFileName, String.data_append, List.append_assoc]
    exact List.prefix_append _ _
  · simp only [StateFileName, fullStateFileName, String.append_assoc]
  · simp only [PartialFileName, partialFileName, String.append_assoc]

/-- Witness for C11: the names of TestFileName and TestStateFileName for the
range `[100, 10000)` of the module `test`. -/
theorem store_segment_names_witness :
    fullStateFileName ⟨100, 10000⟩ = pad 10000 ++ "-" ++ pad 100 ++ ".kv"
    ∧ partialFileName ⟨100, 10000⟩ = pad 10000 ++ "-" ++ pad 100 ++ ".partial"
    ∧ fullStateFilePrefix 10000 = pad 10000
    ∧ (fullStateFilePrefix 10000).data <+: (fullStateFileName ⟨100, 10000⟩).data
    ∧ ((pad 10000).length = 10
        ∧ (pad 10000).data.all isDecimalDigit = true
        ∧ decimalValue (pad 10000).data = 10000)
    ∧ ((pad 100).length = 10
        ∧ (pad 100).data.all isDecimalDigit = true
        ∧ decimalValue (pad 100).data = 100)
    ∧ StateFileName "test" 100 10000 = "test" ++ "-" ++ fullStateFileName ⟨100, 10000⟩
    ∧ PartialFileName "test" 100 10000 = "test" ++ "-" ++ partialFileName ⟨100, 10000⟩
    ∧ StateFilePrefix "test" 10000 = "test" ++ "-" ++ fullStateFilePrefix 10000 :=
  store_segment_names ⟨100, 10000⟩ "test" (by decide) (by decide)

/-- The names the tests TestFileName and TestStateFileName expect. -/
theorem store_segment_names_tests :
    fullStateFilePrefix 10000 = "0000010000"
    ∧ fullStateFileName ⟨100, 10000⟩ = "0000010000-0000000100.kv"
    ∧ partialFileName ⟨10000, 20000⟩ = "0000020000-0000010000.partial"
    ∧ StateFilePrefix "test" 10000 = "test-0000010000"
    ∧ StateFileName "test" 100 10000 = "test-0000010000-0000000100.kv"
    ∧ PartialFileName "test" 10000 20000 = "test-0000020000-0000010000.partial" := by
  decide

/-! ## The output cache -/

/-- Claim C13: for every output cache and every block id `b`, Delete(b) leaves a
map with no entry for `b` in which every other block id has the entry it had
before, and the other fields of the cache as they were; deleting an id that has
no entry leaves the cache unchanged. -/
theorem OutputCache_Delete_frame (c : OutputCache) (b : String) :
    (c.Delete b).entry b = none
    ∧ (∀ id, id ≠ b → (c.Delete b).entry id = c.entry id)
    ∧ (c.entry b = none → c.Delete b = c)
    ∧ (c.Delete b).currentBlockRange = c.currentBlockRange
    ∧ (c.Delete b).moduleName = c.moduleName
    ∧ (c.Delete b).saveBlockInterval = c.saveBlockInterval
    ∧ ((c.Delete b).kv.isSome = c.kv.isSome) := by
  cases c with
  | mk moduleName currentBlockRange kv saveBlockInterval =>
    cases kv with
    | none => simp [OutputCache.Delete, OutputCache.entry]
    | some m =>
      refine ⟨by simp [OutputCache.Delete, OutputCache.entry], ?_, ?_, rfl, rfl, rfl, rfl⟩
      · intro id hid
        simp [OutputCache.Delete, OutputCache.entry, hid]
      · intro h
        simp only [OutputCache.entry] at h
        simp only [OutputCache.Delete, OutputCache.mk.injEq, Option.some.injEq, true_and,
          and_true]
        funext id
        by_cases hid : id = b
        · subst hid; simp [h]
        · simp [hid]

/-- The first case of TestOutputCache_Delete: from the map with the block ids
`1` and `2`, deleting `2` leaves the map with the block id `1` only. -/
theorem OutputCache_Delete_test (i1 i2 : CacheItem) :
    (({ moduleName := "module1", currentBlockRange := none, saveBlockInterval := 10,
        kv := some (fun id => if id = "1" then some i1 else if id = "2" then some i2 else none) }
        : OutputCache).Delete "2").kv
      = some (fun id => if id = "1" then some i1 else none) := by
  simp only [OutputCache.Delete, Option.some.injEq]
  funext id
  by_cases h2 : id = "2"
  · subst h2; simp
  · simp [h2]

/-- Claim C14: the Set/Get law of the output cache. On a cache whose map is
initialised, Set(clock, cursor, data) succeeds, and after it Get returns
`(data, true)` for every clock with the id of `clock` and, for every clock with
another id, what it returned before; Get of an id with no entry returns
`(nil, false)`. -/
theorem OutputCache_Set_Get (c : OutputCache) (clock : Clock) (cursor : String) (data : Bytes)
    (hkv : c.kv.isSome = true) :
    ∃ c2, c.Set clock cursor data = .ok c2
      ∧ (∀ q : Clock, q.Id = clock.Id → c2.Get q = some data)
      ∧ (∀ q : Clock, q.Id ≠ clock.Id → c2.Get q = c.Get q)
      ∧ (∀ (c0 : OutputCache) (q : Clock), c0.entry q.Id = none → c0.Get q = none) := by
  cases c with
  | mk moduleName currentBlockRange kv saveBlockInterval =>
    cases kv with
    | none => simp at hkv
    | some m =>
      refine ⟨_, rfl, ?_, ?_, ?_⟩
      · intro q hq
        simp [OutputCache.Get, OutputCache.entry, hq]
      · intro q hq
        simp [OutputCache.Get, OutputCache.entry, hq]
      · intro c0 q h
        simp [OutputCache.Get, h]

/-- Witness for C14: a Set on a cache with an empty map. -/
theorem OutputCache_Set_Get_witness :
    ∃ c2, emptyCache.Set ⟨1, "a", 0⟩ "cursor" [1, 2] = .ok c2
      ∧ (∀ q : Clock, q.Id = (⟨1, "a", 0⟩ : Clock).Id → c2.Get q = some [1, 2])
      ∧ (∀ q : Clock, q.Id ≠ (⟨1, "a", 0⟩ : Clock).Id → c2.Get q = emptyCache.Get q)
      ∧ (∀ (c0 : OutputCache) (q : Clock), c0.entry q.Id = none → c0.Get q = none) :=
  OutputCache_Set_Get emptyCache ⟨1, "a", 0⟩ "cursor" [1, 2] rfl

theorem findBlockRange_calls (store : ObjectStore) (atBlock : Nat) :
    (findBlockRange store atBlock).2
        = List.replicate (RetryContext (store.listFiles (pad atBlock))).2
            (StoreCall.listFiles (pad atBlock))
    ∧ (∀ r, (findBlockRange store atBlock).1 = .ok (some r) → r.StartBlock = atBlock) := by
  unfold findBlockRange
  simp only
  split
  · exact ⟨rfl, fun r h => by simp at h⟩
  · split
    · exact ⟨rfl, fun r h => by simp at h⟩
    · split
      · refine ⟨rfl, fun r h => ?_⟩
        simp only [GoResult.ok.injEq, Option.some.injEq] at h
        rw [← h]
      · exact ⟨rfl, fun r h => by simp at h⟩
      · exact ⟨rfl, fun r h => by simp at h⟩

theorem RetryContext_attempts {α : Type} (f : Nat → Option α) :
    1 ≤ (RetryContext f).2 ∧ (RetryContext f).2 ≤ 3 := by
  unfold RetryContext
  split
  · simp
  · split <;> simp

theorem Load_effect (store : ObjectStore) (c : OutputCache) (r : Range) :
    (OutputCache.Load store c r).2.2
        = List.replicate (RetryContext (store.openObject
            (ComputeDBinFilename r.StartBlock r.ExclusiveEndBlock))).2
            (StoreCall.openObject (ComputeDBinFilename r.StartBlock r.ExclusiveEndBlock))
    ∧ ((OutputCache.Load store c r).1 = .ok () →
        (OutputCache.Load store c r).2.1.currentBlockRange = some r) := by
  unfold OutputCache.Load
  simp only
  split
  · exact ⟨rfl, fun h => by simp at h⟩
  · exact ⟨rfl, fun _ => rfl⟩

/-- Counterexample to C15: with a save interval of 100, LoadAtBlock(150) lists
the keys under `0000000150`, not under the prefix `0000000100` of the aligned
block `150 - 150 % 100`, and the range it loads, `[150, 250)`, starts at 150. -/
theorem LoadAtBlock_does_not_align :
    (OutputCache.LoadAtBlock oneFileStore (NewOutputCache "m" 100) 150).1 = .ok true
    ∧ (OutputCache.LoadAtBlock oneFileStore (NewOutputCache "m" 100) 150).2.2
        = [.listFiles "0000000150", .openObject "0000000150-0000000250.output"]
    ∧ (OutputCache.LoadAtBlock oneFileStore (NewOutputCache "m" 100) 150).2.1.currentBlockRange
        = some ⟨150, 250⟩
    ∧ ComputeStartBlock 150 100 = some 100
    ∧ pad 100 = "0000000100" := by
  decide

/-- Claim C15, amended: LoadAtBlock(atBlock) lists the object keys under the
10-digit zero-padded prefix of `atBlock` itself, whatever the save interval
(it does not apply ComputeStartBlock), and when a file is found the range it
loads starts at `atBlock` and is read from the file of that name. The prefix is
that of the interval-aligned block exactly when `atBlock` already is a multiple
of saveBlockInterval. -/
theorem LoadAtBlock_lists_under_atBlock (store : ObjectStore) (c : OutputCache)
    (atBlock : Nat) :
    (∃ n calls, 1 ≤ n
        ∧ (c.LoadAtBlock store atBlock).2.2
            = List.replicate n (StoreCall.listFiles (pad atBlock)) ++ calls
        ∧ (∀ call ∈ calls, ∃ e, call
            = StoreCall.openObject (ComputeDBinFilename atBlock e)))
    ∧ ((c.LoadAtBlock store atBlock).1 = .ok true →
        ∃ e, (c.LoadAtBlock store atBlock).2.1.currentBlockRange = some ⟨atBlock, e⟩)
    ∧ (0 < c.saveBlockInterval →
        (ComputeStartBlock atBlock c.saveBlockInterval = some atBlock
          ↔ atBlock % c.saveBlockInterval = 0)) := by
  obtain ⟨hcalls, hstart⟩ := findBlockRange_calls store atBlock
  obtain ⟨hn1, _⟩ := RetryContext_attempts (store.listFiles (pad atBlock))
  refine ⟨?_, ?_, ?_⟩
  · unfold OutputCache.LoadAtBlock
    simp only
    rcases hf : findBlockRange store atBlock with ⟨res, calls⟩
    rw [hf] at hcalls hstart
    simp only at hcalls hstart
    cases res with
    | error => exact ⟨_, [], hn1, by simp [hcalls], by simp⟩
    | panic => exact ⟨_, [], hn1, by simp [hcalls], by simp⟩
    | ok found =>
      cases found with
      | none => exact ⟨_, [], hn1, by simp [hcalls], by simp⟩
      | some r =>
        have hr := hstart r rfl
        obtain ⟨hl, _⟩ := Load_effect store { c with kv := some outputKV.empty } r
        simp only
        rcases hload : OutputCache.Load store { c with kv := some outputKV.empty } r
          with ⟨lres, c2, calls2⟩
        rw [hload] at hl
        simp only at hl
        have hmem : ∀ call ∈ calls2, ∃ e, call
            = StoreCall.openObject (ComputeDBinFilename atBlock e) := by
          intro call hc
          rw [hl] at hc
          rw [List.eq_of_mem_replicate hc, hr]
          exact ⟨_, rfl⟩
        cases lres with
        | ok u => exact ⟨_, calls2, hn1, by simp [hcalls], hmem⟩
        | error => exact ⟨_, calls2, hn1, by simp [hcalls], hmem⟩
        | panic => exact ⟨_, calls2, hn1, by simp [hcalls], hmem⟩
  · unfold OutputCache.LoadAtBlock
    simp only
    rcases hf : findBlockRange store atBlock with ⟨res, calls⟩
    rw [hf] at hstart
    simp only at hstart
    cases res with
    | error => simp
    | panic => simp
    | ok found =>
      cases found with
      | none => simp
      | some r =>
        have hr := hstart r rfl
        obtain ⟨_, hl⟩ := Load_effect store { c with kv := some outputKV.empty } r
        simp only
        rcases hload : OutputCache.Load store { c with kv := some outputKV.empty } r
          with ⟨lres, c2, calls2⟩
        rw [hload] at hl
        simp only at hl
        cases lres with
        | ok u =>
          intro _
          refine ⟨r.ExclusiveEndBlock, ?_⟩
          simp only
          rw [hl rfl, ← hr]
        | error => simp
        | panic => simp
  · intro hpos
    unfold ComputeStartBlock
    have hne : c.saveBlockInterval ≠ 0 := by omega
    simp only [hne, if_false, Option.some.injEq]
    have := Nat.mod_le atBlock c.saveBlockInterval
    omega

/-- Claim C16: when the object store lists no file under the looked-up prefix,
LoadAtBlock(atBlock) returns `found = false` with no error, leaves the map of
the cache empty (whatever it held before), sets the current range to
`[atBlock, atBlock + saveBlockInterval)`, and opens no object. -/
theorem LoadAtBlock_not_found (store : ObjectStore) (c : OutputCache) (atBlock : Nat)
    (hlist : (RetryContext (store.listFiles (pad atBlock))).1 = some [])
    (hfit : atBlock + c.saveBlockInterval < 2 ^ 64) :
    (c.LoadAtBlock store atBlock).1 = .ok false
    ∧ (c.LoadAtBlock store atBlock).2.1.kv = some outputKV.empty
    ∧ (c.LoadAtBlock store atBlock).2.1.currentBlockRange
        = some ⟨atBlock, atBlock + c.saveBlockInterval⟩
    ∧ (c.LoadAtBlock store atBlock).2.1.saveBlockInterval = c.saveBlockInterval
    ∧ (∀ call ∈ (c.LoadAtBlock store atBlock).2.2, call = StoreCall.listFiles (pad atBlock)) := by
  have hf : findBlockRange store atBlock
      = (.ok none, List.replicate (RetryContext (store.listFiles (pad atBlock))).2
          (StoreCall.listFiles (pad atBlock))) := by
    unfold findBlockRange
    simp only [hlist, List.length_nil, if_true]
  have hL : c.LoadAtBlock store atBlock
      = (.ok false,
          { c with kv := some outputKV.empty,
                   currentBlockRange := some (Range.mk atBlock (atBlock + c.saveBlockInterval)) },
          List.replicate (RetryContext (store.listFiles (pad atBlock))).2
            (StoreCall.listFiles (pad atBlock))) := by
    unfold OutputCache.LoadAtBlock
    simp only [hf, Nat.mod_eq_of_lt hfit]
  rw [hL]
  exact ⟨rfl, rfl, rfl, rfl, fun call hc => List.eq_of_mem_replicate hc⟩

/-- Witness for C16: a store with no file, a cache with a save interval of 100,
read at block 150. -/
theorem LoadAtBlock_not_found_witness :
    ((NewOutputCache "m" 100).LoadAtBlock noFileStore 150).1 = .ok false
    ∧ ((NewOutputCache "m" 100).LoadAtBlock noFileStore 150).2.1.kv = some outputKV.empty
    ∧ ((NewOutputCache "m" 100).LoadAtBlock noFileStore 150).2.1.currentBlockRange
        = some ⟨150, 150 + (NewOutputCache "m" 100).saveBlockInterval⟩
    ∧ ((NewOutputCache "m" 100).LoadAtBlock noFileStore 150).2.1.saveBlockInterval
        = (NewOutputCache "m" 100).saveBlockInterval
    ∧ (∀ call ∈ ((NewOutputCache "m" 100).LoadAtBlock noFileStore 150).2.2,
        call = StoreCall.listFiles (pad 150)) :=
  LoadAtBlock_not_found noFileStore (NewOutputCache "m" 100) 150 rfl (by decide)

/-! ## Snapshots -/

theorem lastCompleteLoop_none (b : Nat) (L : List Range) :
    lastCompleteLoop b L = none ↔ ∀ c ∈ L, b < c.ExclusiveEndBlock := by
  induction L with
  | nil => simp [lastCompleteLoop]
  | cons comp earlier ih =>
    unfold lastCompleteLoop
    split
    · rename_i h
      rw [ih]
      constructor
      · intro hall c hc
        rcases List.mem_cons.1 hc with rfl | hc
        · exact h
        · exact hall c hc
      · intro hall c hc
        exact hall c (List.mem_cons_of_mem _ hc)
    · rename_i h
      simp only [reduceCtorEq, false_iff, not_forall]
      exact ⟨comp, List.mem_cons_self _ _, h⟩

theorem lastCompleteLoop_some (b : Nat) (L : List Range) (r : Range)
    (hdesc : L.Pairwise (fun a c => c.ExclusiveEndBlock ≤ a.ExclusiveEndBlock))
    (h : lastCompleteLoop b L = some r) :
    r ∈ L ∧ r.ExclusiveEndBlock ≤ b
      ∧ ∀ c ∈ L, c.ExclusiveEndBlock ≤ b → c.ExclusiveEndBlock ≤ r.ExclusiveEndBlock := by
  induction L with
  | nil => simp [lastCompleteLoop] at h
  | cons comp earlier ih =>
    have hp := List.pairwise_cons.1 hdesc
    unfold lastCompleteLoop at h
    split at h
    · rename_i hgt
      obtain ⟨h1, h2, h3⟩ := ih hp.2 h
      refine ⟨List.mem_cons_of_mem _ h1, h2, ?_⟩
      intro c hc hcb
      rcases List.mem_cons.1 hc with rfl | hc
      · omega
      · exact h3 c hc hcb
    · rename_i hle
      simp only [Option.some.injEq] at h
      subst h
      refine ⟨List.mem_cons_self _ _, by omega, ?_⟩
      intro c hc _
      rcases List.mem_cons.1 hc with rfl | hc
      · exact le_refl _
      · exact hp.1 c hc

/-- Claim C17: for Snapshots whose Completes are sorted by ascending
ExclusiveEndBlock and every block number `b`, LastCompleteSnapshotBefore(b) is
nil exactly when no complete has ExclusiveEndBlock ≤ b, and otherwise it is a
member of Completes whose ExclusiveEndBlock is ≤ b and is the greatest among
the completes with ExclusiveEndBlock ≤ b. -/
theorem LastCompleteSnapshotBefore_greatest (s : Snapshots) (b : Nat)
    (hsorted : s.Completes.Pairwise (fun a c => a.ExclusiveEndBlock ≤ c.ExclusiveEndBlock)) :
    (s.LastCompleteSnapshotBefore b = none ↔ ∀ c ∈ s.Completes, ¬ c.ExclusiveEndBlock ≤ b)
    ∧ (∀ r, s.LastCompleteSnapshotBefore b = some r →
        r ∈ s.Completes ∧ r.ExclusiveEndBlock ≤ b
          ∧ ∀ c ∈ s.Completes, c.ExclusiveEndBlock ≤ b →
              c.ExclusiveEndBlock ≤ r.ExclusiveEndBlock) := by
  unfold Snapshots.LastCompleteSnapshotBefore
  constructor
  · rw [lastCompleteLoop_none]
    simp only [List.mem_reverse, not_le]
  · intro r h
    have hdesc : s.Completes.reverse.Pairwise
        (fun a c => c.ExclusiveEndBlock ≤ a.ExclusiveEndBlock) :=
      List.pairwise_reverse.2 hsorted
    obtain ⟨h1, h2, h3⟩ := lastCompleteLoop_some b _ r hdesc h
    exact ⟨List.mem_reverse.1 h1, h2, fun c hc => h3 c (List.mem_reverse.2 hc)⟩

/-- Witness for C17: the completes `[0,100), [0,200), [0,300)` read before
block 250. -/
theorem LastCompleteSnapshotBefore_greatest_witness :
    ((⟨[⟨0, 100⟩, ⟨0, 200⟩, ⟨0, 300⟩], []⟩ : Snapshots).LastCompleteSnapshotBefore 250 = none
      ↔ ∀ c ∈ (⟨[⟨0, 100⟩, ⟨0, 200⟩, ⟨0, 300⟩], []⟩ : Snapshots).Completes,
          ¬ c.ExclusiveEndBlock ≤ 250)
    ∧ (∀ r, (⟨[⟨0, 100⟩, ⟨0, 200⟩, ⟨0, 300⟩], []⟩ : Snapshots).LastCompleteSnapshotBefore 250
          = some r →
        r ∈ (⟨[⟨0, 100⟩, ⟨0, 200⟩, ⟨0, 300⟩], []⟩ : Snapshots).Completes
          ∧ r.ExclusiveEndBlock ≤ 250
          ∧ ∀ c ∈ (⟨[⟨0, 100⟩, ⟨0, 200⟩, ⟨0, 300⟩], []⟩ : Snapshots).Completes,
              c.ExclusiveEndBlock ≤ 250 → c.ExclusiveEndBlock ≤ r.ExclusiveEndBlock) :=
  LastCompleteSnapshotBefore_greatest ⟨[⟨0, 100⟩, ⟨0, 200⟩, ⟨0, 300⟩], []⟩ 250 (by decide)

theorem listSnapshotsLoop_eq (out : Snapshots) (files : List FileInfo) :
    (listSnapshotsLoop out files).Completes
        = out.Completes ++ (files.filter (fun f => !f.Partial)).map FileInfo.toRange
    ∧ (listSnapshotsLoop out files).Partials
        = out.Partials ++ (files.filter (fun f => f.Partial)).map FileInfo.toRange := by
  induction files generalizing out with
  | nil => simp [listSnapshotsLoop]
  | cons file rest ih =>
    unfold listSnapshotsLoop
    by_cases h : file.Partial = true
    · simp only [h, if_true]
      obtain ⟨h1, h2⟩ := ih { out with Partials := out.Partials ++ [file.toRange] }
      rw [h1, h2]
      simp [List.filter_cons, h]
    · have hf : file.Partial = false := by simpa using h
      simp only [hf, Bool.false_eq_true, if_false]
      obtain ⟨h1, h2⟩ := ih { out with Completes := out.Completes ++ [file.toRange] }
      rw [h1, h2]
      simp [List.filter_cons, hf]

theorem getLast_greatest (l : List Range) (r : Range)
    (hs : l.Pairwise (fun a c => a.ExclusiveEndBlock ≤ c.ExclusiveEndBlock))
    (h : l.getLast? = some r) :
    r ∈ l ∧ ∀ c ∈ l, c.ExclusiveEndBlock ≤ r.ExclusiveEndBlock := by
  induction l using List.reverseRecOn with
  | nil => simp at h
  | append_singleton l x _ =>
    rw [List.getLast?_concat] at h
    simp only [Option.some.injEq] at h
    subst h
    have hp := List.pairwise_append.1 hs
    refine ⟨by simp, ?_⟩
    intro c hc
    rcases List.mem_append.1 hc with hc | hc
    · exact hp.2.2 c hc x (List.mem_singleton_self x)
    · rw [List.mem_singleton.1 hc]

/-- Claim C18: for every list of snapshot files, the Snapshots that
listSnapshots builds has its Completes in ascending order of ExclusiveEndBlock
and its Partials in ascending order of StartBlock, each a permutation of the
ranges of the input files of that kind; its LastCompletedBlock() is 0 when
there is no complete file and otherwise the greatest ExclusiveEndBlock of the
complete files. -/
theorem listSnapshots_sorted (files : List FileInfo) :
    ∃ s, listSnapshots (some files) = .ok s
      ∧ s.Completes.Pairwise (fun a c => a.ExclusiveEndBlock ≤ c.ExclusiveEndBlock)
      ∧ s.Completes.Perm ((files.filter (fun f => !f.Partial)).map FileInfo.toRange)
      ∧ s.Partials.Pairwise (fun a c => a.StartBlock ≤ c.StartBlock)
      ∧ s.Partials.Perm ((files.filter (fun f => f.Partial)).map FileInfo.toRange)
      ∧ ((∀ f ∈ files, f.Partial = true) → s.LastCompletedBlock = 0)
      ∧ (∀ f ∈ files, f.Partial = false → f.EndBlock ≤ s.LastCompletedBlock)
      ∧ ((∃ f ∈ files, f.Partial = false) →
          ∃ f ∈ files, f.Partial = false ∧ f.EndBlock = s.LastCompletedBlock) := by
  obtain ⟨hC, hP⟩ := listSnapshotsLoop_eq { Completes := [], Partials := [] } files
  simp only [List.nil_append] at hC hP
  obtain ⟨c1, c2⟩ := sortSlice_sorted
    (fun a b : Range => decide (a.ExclusiveEndBlock < b.ExclusiveEndBlock))
    (fun a b => a.ExclusiveEndBlock ≤ b.ExclusiveEndBlock)
    (fun a b c h1 h2 => le_trans h1 h2)
    (listSnapshotsLoop { Completes := [], Partials := [] } files).Completes
    (fun a _ b _ => by
      simp only [decide_eq_true_eq, decide_eq_false_iff_not]
      constructor <;> intro h <;> omega)
  obtain ⟨p1, p2⟩ := sortSlice_sorted
    (fun a b : Range => decide (a.StartBlock < b.StartBlock))
    (fun a b => a.StartBlock ≤ b.StartBlock)
    (fun a b c h1 h2 => le_trans h1 h2)
    (listSnapshotsLoop { Completes := [], Partials := [] } files).Partials
    (fun a _ b _ => by
      simp only [decide_eq_true_eq, decide_eq_false_iff_not]
      constructor <;> intro h <;> omega)
  rw [hC] at c1 c2
  rw [hP] at p1 p2
  refine ⟨_, rfl, ?_, ?_, ?_, ?_, ?_, ?_, ?_⟩
  · simpa [Snapshots.Sort, hC] using c1
  · simpa [Snapshots.Sort, hC] using c2
  · simpa [Snapshots.Sort, hP] using p1
  · simpa [Snapshots.Sort, hP] using p2
  · intro hall
    have hnil : (files.filter (fun f => !f.Partial)) = [] := by
      rw [List.filter_eq_nil_iff]
      intro f hf
      simp [hall f hf]
    rw [hnil] at c2
    have := List.Perm.eq_nil c2
    simp only [List.map_nil] at this
    simp [Snapshots.LastCompletedBlock, Snapshots.Sort, hC, hnil, this]
  · intro f hf hpart
    have hmem : f.toRange ∈ sortSlice
        (fun a b : Range => decide (a.ExclusiveEndBlock < b.ExclusiveEndBlock))
        ((files.filter (fun f => !f.Partial)).map FileInfo.toRange) := by
      apply c2.symm.subset
      exact List.mem_map.2 ⟨f, List.mem_filter.2 ⟨hf, by simp [hpart]⟩, rfl⟩
    simp only [Snapshots.LastCompletedBlock, Snapshots.Sort, hC]
    cases hl : (sortSlice
        (fun a b : Range => decide (a.ExclusiveEndBlock < b.ExclusiveEndBlock))
        ((files.filter (fun f => !f.Partial)).map FileInfo.toRange)).getLast? with
    | none =>
      rw [List.getLast?_eq_none_iff] at hl
      rw [hl] at hmem
      simp at hmem
    | some r =>
      exact (getLast_greatest _ r c1 hl).2 _ hmem
  · rintro ⟨f, hf, hpart⟩
    have hmem : f.toRange ∈ sortSlice
        (fun a b : Range => decide (a.ExclusiveEndBlock < b.ExclusiveEndBlock))
        ((files.filter (fun f => !f.Partial)).map FileInfo.toRange) := by
      apply c2.symm.subset
      exact List.mem_map.2 ⟨f, List.mem_filter.2 ⟨hf, by simp [hpart]⟩, rfl⟩
    simp only [Snapshots.LastCompletedBlock, Snapshots.Sort, hC]
    cases hl : (sortSlice
        (fun a b : Range => decide (a.ExclusiveEndBlock < b.ExclusiveEndBlock))
        ((files.filter (fun f => !f.Partial)).map FileInfo.toRange)).getLast? with
    | none =>
      rw [List.getLast?_eq_none_iff] at hl
      rw [hl] at hmem
      simp at hmem
    | some r =>
      have hr := (getLast_greatest _ r c1 hl).1
      obtain ⟨g, hg, hgr⟩ := List.mem_map.1 (c2.subset hr)
      have hg2 := List.mem_filter.1 hg
      refine ⟨g, hg2.1, by simpa using hg2.2, ?_⟩
      simp only
      rw [← hgr]
      rfl

/-! ## The fork handler -/

/-- Claim C19: removeReversibleOutput(n) removes exactly the entry of block `n`
and leaves the outputs recorded under every other block number as they were;
removing a block number that has no entry changes nothing; removals of two
block numbers commute; and from the entries at the blocks 10, 20, 30, 40 and 50
the removal of 20 and then of 30 leaves the entries at 10, 40 and 50. -/
theorem removeReversibleOutput_frame (f : ForkHandler) (n m : Nat) :
    (f.removeReversibleOutput n).reversibleOutputs n = none
    ∧ (∀ k, k ≠ n → (f.removeReversibleOutput n).reversibleOutputs k = f.reversibleOutputs k)
    ∧ (f.reversibleOutputs n = none → f.removeReversibleOutput n = f)
    ∧ (f.removeReversibleOutput n).removeReversibleOutput m
        = (f.removeReversibleOutput m).removeReversibleOutput n
    ∧ (∀ k, ((testForkHandler.removeReversibleOutput 20).removeReversibleOutput 30
          ).reversibleOutputs k
        = if k = 10 ∨ k = 40 ∨ k = 50 then some testModuleOutputs else none) := by
  refine ⟨by simp [ForkHandler.removeReversibleOutput], ?_, ?_, ?_, ?_⟩
  · intro k hk
    simp [ForkHandler.removeReversibleOutput, hk]
  · intro h
    cases f with
    | mk outs =>
      simp only [ForkHandler.removeReversibleOutput, ForkHandler.mk.injEq]
      funext k
      by_cases hk : k = n
      · subst hk; simp only [if_true]; exact h.symm
      · simp [hk]
  · simp only [ForkHandler.removeReversibleOutput, ForkHandler.mk.injEq]
    funext k
    by_cases h1 : k = n <;> by_cases h2 : k = m <;> simp [h1, h2]
  · intro k
    simp only [ForkHandler.removeReversibleOutput, testForkHandler]
    by_cases h20 : k = 20
    · subst h20; simp
    · by_cases h30 : k = 30
      · subst h30; simp
      · simp [h20, h30]

/-! ## The per-block pipeline -/

theorem executeModulesLoop_actions (env : BlockEnv) (executors : List String) (a : Action)
    (h : a ∈ (executeModulesLoop env executors).2) : ∃ e, a = .runExecutor e := by
  induction executors with
  | nil => simp [executeModulesLoop] at h
  | cons x rest ih =>
    unfold executeModulesLoop at h
    split at h
    · simp only [List.mem_singleton] at h; exact ⟨x, h⟩
    · simp only [List.mem_singleton] at h; exact ⟨x, h⟩
    · simp only [List.mem_cons] at h
      rcases h with h | h
      · exact ⟨x, h⟩
      · exact ih h

theorem executeModulesLoop_noHooks (env : BlockEnv) (executors : List String) :
    ∀ a ∈ (executeModulesLoop env executors).2, a.isHooks = false := by
  intro a h
  obtain ⟨e, rfl⟩ := executeModulesLoop_actions env executors a h
  rfl

theorem finishStepNew_noHooks (p : Pipeline) (env : BlockEnv) (done : List Action)
    (hd : ∀ a ∈ done, a.isHooks = false) :
    ∀ a ∈ (p.finishStepNew env done).2.2, a.isHooks = false := by
  have hx := executeModulesLoop_noHooks env p.moduleExecutors
  unfold Pipeline.finishStepNew
  split
  · exact hd
  · unfold Pipeline.executeModules
    rcases he : executeModulesLoop env p.moduleExecutors with ⟨o, ran⟩
    rw [he] at hx
    simp only at hx
    have hdr : ∀ a ∈ done ++ ran, a.isHooks = false := by
      intro a ha
      rcases List.mem_append.1 ha with h | h
      · exact hd a h
      · exact hx a h
    have key : ∀ b, b ∈ done ∨ b ∈ ran → b.isHooks = false :=
      fun b h => h.elim (hd b) (hx b)
    cases o with
    | error e => exact hdr
    | panic => exact hdr
    | ok =>
      simp only
      cases env.shouldReturnProgress <;> cases env.returnModuleProgressOutputs <;>
        cases env.shouldReturnDataOutputs <;> cases env.returnModuleDataOutputs <;>
        simp only [Bool.false_eq_true, if_false, if_true] <;>
        (intro a ha
         simp only [List.mem_append, List.mem_singleton, List.mem_cons, List.not_mem_nil,
           or_false] at ha
         first
           | exact key a ha
           | (rcases ha with ha | ha
              all_goals first
                | exact key a ha
                | (subst ha; rfl)
                | (rcases ha with ha | ha
                   all_goals first
                     | exact key a ha
                     | (subst ha; rfl)
                     | (rcases ha with ha | ha
                        all_goals first
                          | exact key a ha
                          | (subst ha; rfl)))))

theorem handleStepMatchesNew_noHooks (p : Pipeline) (env : BlockEnv) (block : Block) :
    ∀ a ∈ (p.handleStepMatchesNew env block).2.2, a.isHooks = false := by
  unfold Pipeline.handleStepMatchesNew
  split
  · intro a ha; simp only [List.mem_singleton] at ha; subst ha; rfl
  · intro a ha; simp only [List.mem_singleton] at ha; subst ha; rfl
  · split
    · intro a ha
      simp only [List.mem_cons, List.mem_singleton, List.not_mem_nil, or_false] at ha
      rcases ha with ha | ha <;> (subst ha; rfl)
    · intro a ha
      simp only [List.mem_cons, List.mem_singleton, List.not_mem_nil, or_false] at ha
      rcases ha with ha | ha <;> (subst ha; rfl)
    · have h3 : ∀ a ∈ [Action.newExecOutput, .runPreBlockHooks, .flushStores block.Num],
          a.isHooks = false := by
        intro a ha
        simp only [List.mem_cons, List.mem_singleton, List.not_mem_nil, or_false] at ha
        rcases ha with ha | ha | ha <;> (subst ha; rfl)
      split
      · exact h3
      · exact h3
      · exact finishStepNew_noHooks p env _ h3

theorem dispatchStep_noHooks (p : Pipeline) (env : BlockEnv) (block : Block) (step : StepType) :
    ∀ a ∈ (p.dispatchStep env block step).2.2, a.isHooks = false := by
  have hn := handleStepMatchesNew_noHooks p env block
  unfold Pipeline.dispatchStep
  split
  · split <;> (intro a ha; simp only [List.mem_singleton] at ha; subst ha; rfl)
  · split
    · intro a ha; simp only [List.mem_singleton] at ha; subst ha; rfl
    · split
      · rcases hh : p.handleStepMatchesNew env block with ⟨o, p1, acts⟩
        rw [hh] at hn
        cases o <;> exact hn
      · intro a ha; simp at ha

theorem afterStep_noHooks (p : Pipeline) (env : BlockEnv) (block : Block) (step : StepType)
    (done : List Action) (hd : ∀ a ∈ done, a.isHooks = false) :
    ∀ a ∈ (p.afterStep env block step done).2.2, a.isHooks = false := by
  unfold Pipeline.afterStep
  have h1 : ∀ a ∈ (if step.Irreversible = true then done ++ [.removeReversibleOutput block.Num]
      else done), a.isHooks = false := by
    split
    · intro a ha
      rcases List.mem_append.1 ha with h | h
      · exact hd a h
      · simp only [List.mem_singleton] at h; subst h; rfl
    · exact hd
  simp only
  split <;>
    (intro a ha
     rcases List.mem_append.1 ha with h | h
     · exact h1 a h
     · simp only [List.mem_singleton] at h; subst h; rfl)

/-- The method processBlock never runs the post-job hooks itself. -/
theorem processBlock_noHooks (p : Pipeline) (env : BlockEnv) (block : Block) (step : StepType) :
    ∀ a ∈ (p.processBlock env block step).2.2, a.isHooks = false := by
  have hd := dispatchStep_noHooks p env block step
  unfold Pipeline.processBlock
  rcases hh : p.dispatchStep env block step with ⟨o, p1, acts⟩
  rw [hh] at hd
  simp only at hd
  cases o with
  | error e => exact hd
  | panic => exact hd
  | ok =>
    have ha := afterStep_noHooks p1 env block step acts hd
    simp only
    rcases h2 : p1.afterStep env block step acts with ⟨o2, p2, acts2⟩
    rw [h2] at ha
    cases o2 <;> exact ha

/-- Counterexample to C20: on a block with step new on which every call
succeeds, processBlock returns nil and ProcessBlock does not run the post-job
hooks. -/
theorem ProcessBlock_success_runs_no_hooks :
    (demoPipeline.ProcessBlock calmBlockEnv ⟨60, "b60", 0⟩ ⟨true, false, false, false⟩).1 = none
    ∧ Action.runPostJobHooks (Block.clock ⟨60, "b60", 0⟩)
        ∉ (demoPipeline.ProcessBlock calmBlockEnv ⟨60, "b60", 0⟩
            ⟨true, false, false, false⟩).2.2 := by
  decide

/-- Claim C20, amended: ProcessBlock runs the post-job hooks for the clock of
the block exactly when processBlock returns an error (an error of a step, a
recovered panic, the `io.EOF` of the stop block or an error of the caching
engine), once, after the calls of processBlock; when processBlock succeeds the
hooks are not run. ProcessBlock returns what processBlock returns. -/
theorem ProcessBlock_hooks_iff_error (p : Pipeline) (env : BlockEnv) (block : Block)
    (step : StepType) :
    (Action.runPostJobHooks block.clock ∈ (p.ProcessBlock env block step).2.2
        ↔ (p.processBlock env block step).1 ≠ none)
    ∧ ((p.processBlock env block step).1 ≠ none →
        (p.ProcessBlock env block step).2.2
          = (p.processBlock env block step).2.2 ++ [.runPostJobHooks block.clock])
    ∧ ((p.processBlock env block step).1 = none →
        ∀ c, Action.runPostJobHooks c ∉ (p.ProcessBlock env block step).2.2)
    ∧ (p.ProcessBlock env block step).1 = (p.processBlock env block step).1 := by
  have hn := processBlock_noHooks p env block step
  unfold Pipeline.ProcessBlock
  rcases hh : p.processBlock env block step with ⟨err, p1, acts⟩
  rw [hh] at hn
  simp only at hn
  have hno : ∀ c, Action.runPostJobHooks c ∉ acts := by
    intro c hc
    have := hn _ hc
    simp [Action.isHooks] at this
  cases err with
  | none =>
    refine ⟨?_, ?_, ?_, rfl⟩
    · simp only [ne_eq, not_true_eq_false, iff_false]
      exact hno _
    · intro h; exact absurd rfl h
    · intro _; exact hno
  | some e =>
    refine ⟨?_, ?_, ?_, rfl⟩
    · simp
    · intro _; rfl
    · intro h; simp at h

/-! ### A block whose module execution fails -/

theorem executeModulesLoop_first_failure (env : BlockEnv) (x : String) (post : List String)
    (hx : env.runExecutor x = .error) :
    ∀ pre : List String, (∀ e ∈ pre, env.runExecutor e = .ok ()) →
      executeModulesLoop env (pre ++ x :: post)
        = (.error (.executeModules x), (pre ++ [x]).map Action.runExecutor) := by
  intro pre
  induction pre with
  | nil =>
    intro _
    simp only [List.nil_append, executeModulesLoop, hx, List.map_cons, List.map_nil]
  | cons e rest ih =>
    intro hpre
    have he : env.runExecutor e = .ok () := hpre e (List.mem_cons_self e rest)
    have hr := ih (fun y hy => hpre y (List.mem_cons_of_mem e hy))
    have hcons : (e :: rest) ++ x :: post = e :: (rest ++ x :: post) := rfl
    rw [hcons, executeModulesLoop]
    simp only [he]
    rw [hr]
    rfl

/-- Claim C21: on a new block on which the execution of a module fails (the
executor `x` returns an error after the executors `pre` before it succeeded),
executeModules runs the executors up to `x` and none after it;
handleStepMatchesNew does not return nil, leaves the pipeline as it was, and
makes no call other than the set-up calls and these executors: it calls neither
returnModuleProgressOutputs nor returnModuleDataOutputs. When the set-up calls
succeed and the stop block is not reached, it returns the error of `x`. -/
theorem handleStepMatchesNew_module_failure (p : Pipeline) (env : BlockEnv) (block : Block)
    (pre post : List String) (x : String)
    (hsplit : p.moduleExecutors = pre ++ x :: post)
    (hpre : ∀ e ∈ pre, env.runExecutor e = .ok ())
    (hx : env.runExecutor x = .error) :
    p.executeModules env = (.error (.executeModules x), (pre ++ [x]).map Action.runExecutor)
    ∧ (p.handleStepMatchesNew env block).1 ≠ .ok
    ∧ (p.handleStepMatchesNew env block).2.1 = p
    ∧ Action.returnModuleDataOutputs ∉ (p.handleStepMatchesNew env block).2.2
    ∧ Action.returnModuleProgressOutputs ∉ (p.handleStepMatchesNew env block).2.2
    ∧ (∀ a ∈ (p.handleStepMatchesNew env block).2.2,
        a = .newExecOutput ∨ a = .runPreBlockHooks ∨ a = .flushStores block.Num
          ∨ ∃ e ∈ pre ++ [x], a = .runExecutor e)
    ∧ (env.newExecOutput = .ok () → env.runPreBlockHooks = .ok () → env.flushStores = .ok ()
        → env.isStopBlockReached = false →
        p.handleStepMatchesNew env block
          = (.error (.executeModules x), p,
              [.newExecOutput, .runPreBlockHooks, .flushStores block.Num]
                ++ (pre ++ [x]).map Action.runExecutor)) := by
  have hexec : p.executeModules env
      = (.error (.executeModules x), (pre ++ [x]).map Action.runExecutor) := by
    unfold Pipeline.executeModules
    rw [hsplit]
    exact executeModulesLoop_first_failure env x post hx pre hpre
  have hfin : ∀ done : List Action, p.finishStepNew env done
      = if env.isStopBlockReached = true then (.error .eof, p, done)
        else (.error (.executeModules x), p, done ++ (pre ++ [x]).map Action.runExecutor) := by
    intro done
    unfold Pipeline.finishStepNew
    rw [hexec]
  have hall : (p.handleStepMatchesNew env block).1 ≠ .ok
      ∧ (p.handleStepMatchesNew env block).2.1 = p
      ∧ (∀ a ∈ (p.handleStepMatchesNew env block).2.2,
        a = .newExecOutput ∨ a = .runPreBlockHooks ∨ a = .flushStores block.Num
          ∨ ∃ e ∈ pre ++ [x], a = .runExecutor e) := by
    unfold Pipeline.handleStepMatchesNew
    rw [hfin]
    cases env.newExecOutput <;> cases env.runPreBlockHooks <;> cases env.flushStores <;>
      cases env.isStopBlockReached <;>
      simp only [Bool.false_eq_true, if_false, if_true] <;>
      (refine ⟨by simp, trivial, ?_⟩
       intro a ha
       simp only [List.mem_append, List.mem_cons, List.mem_singleton, List.not_mem_nil,
         or_false, List.mem_map, List.append_assoc] at ha ⊢
       aesop)
  refine ⟨hexec, hall.1, hall.2.1, ?_, ?_, hall.2.2, ?_⟩
  · intro hmem
    rcases hall.2.2 _ hmem with h | h | h | ⟨e, _, h⟩ <;> cases h
  · intro hmem
    rcases hall.2.2 _ hmem with h | h | h | ⟨e, _, h⟩ <;> cases h
  · intro h1 h2 h3 h4
    unfold Pipeline.handleStepMatchesNew
    rw [hfin]
    simp only [h1, h2, h3, h4, Bool.false_eq_true, if_false]

/-- Witness of C21 on a pipeline of two executors of which the second fails. -/
theorem handleStepMatchesNew_module_failure_witness :
    (demoPipeline.handleStepMatchesNew failingModuleEnv ⟨60, "b60", 0⟩).1 ≠ .ok
    ∧ Action.returnModuleDataOutputs
        ∉ (demoPipeline.handleStepMatchesNew failingModuleEnv ⟨60, "b60", 0⟩).2.2 :=
  have h := handleStepMatchesNew_module_failure demoPipeline failingModuleEnv ⟨60, "b60", 0⟩
    ["map_a"] [] "store_b" rfl (by decide) (by decide)
  ⟨h.2.1, h.2.2.2.1⟩

/-! ### A stalled block -/

theorem removeReversibleOutput_idem (f : ForkHandler) (n : Nat) :
    (f.removeReversibleOutput n).removeReversibleOutput n = f.removeReversibleOutput n := by
  simp only [ForkHandler.removeReversibleOutput, ForkHandler.mk.injEq]
  funext k
  by_cases h : k = n <;> simp [h]

/-- Claim C22: on a block whose step matches stalled and not undo, processBlock
runs no executor and sets up no exec output, whether or not the step also
carries new: it calls removeReversibleOutput(block number) (once more when the
step also matches irreversible) and then the caching engine, and nothing else.
The fork handler loses the entry of the block, the executors and module outputs
of the pipeline stay as they were, and the result is nil exactly when the
caching engine returns nil. -/
theorem processBlock_stalled (p : Pipeline) (env : BlockEnv) (block : Block) (step : StepType)
    (hst : step.Stalled = true) (hu : step.Undo = false) :
    (p.processBlock env block step).2.2
        = [.removeReversibleOutput block.Num]
            ++ (if step.Irreversible = true then [.removeReversibleOutput block.Num] else [])
            ++ [.cachingEngineNewBlock]
    ∧ (∀ e, Action.runExecutor e ∉ (p.processBlock env block step).2.2)
    ∧ Action.newExecOutput ∉ (p.processBlock env block step).2.2
    ∧ (∀ a ∈ (p.processBlock env block step).2.2,
        a = .removeReversibleOutput block.Num ∨ a = .cachingEngineNewBlock)
    ∧ (p.processBlock env block step).2.1
        = { p with forkHandler := p.forkHandler.removeReversibleOutput block.Num }
    ∧ ((p.processBlock env block step).1 = none ↔ env.cachingEngineNewBlock = .ok ()) := by
  have hacts : (p.processBlock env block step).2.2
        = [.removeReversibleOutput block.Num]
            ++ (if step.Irreversible = true then [.removeReversibleOutput block.Num] else [])
            ++ [.cachingEngineNewBlock] := by
    simp only [Pipeline.processBlock, Pipeline.dispatchStep, Pipeline.afterStep, hst, hu,
      Bool.false_eq_true, if_false, if_true]
    cases env.cachingEngineNewBlock <;> cases step.Irreversible <;> simp
  have honly : ∀ a ∈ (p.processBlock env block step).2.2,
      a = .removeReversibleOutput block.Num ∨ a = .cachingEngineNewBlock := by
    intro a ha
    rw [hacts] at ha
    by_cases hi : step.Irreversible = true <;>
      simp only [hi, if_false, if_true, List.mem_append, List.mem_cons,
        List.mem_singleton, List.not_mem_nil, or_false] at ha <;>
      tauto
  refine ⟨hacts, ?_, ?_, honly, ?_, ?_⟩
  · intro e hmem
    rcases honly _ hmem with h | h <;> cases h
  · intro hmem
    rcases honly _ hmem with h | h <;> cases h
  · simp only [Pipeline.processBlock, Pipeline.dispatchStep, Pipeline.afterStep, hst, hu,
      Bool.false_eq_true, if_false, if_true]
    cases env.cachingEngineNewBlock <;> cases step.Irreversible <;>
      simp [removeReversibleOutput_idem]
  · simp only [Pipeline.processBlock, Pipeline.dispatchStep, Pipeline.afterStep, hst, hu,
      Bool.false_eq_true, if_false, if_true]
    cases env.cachingEngineNewBlock <;> simp

/-- Witness of C22: a block delivered as stalled and new at once. -/
theorem processBlock_stalled_witness :
    (demoPipeline.processBlock calmBlockEnv ⟨20, "b20", 0⟩ ⟨true, false, false, true⟩).2.2
      = [.removeReversibleOutput 20, .cachingEngineNewBlock] :=
  (processBlock_stalled demoPipeline calmBlockEnv ⟨20, "b20", 0⟩ ⟨true, false, false, true⟩
    rfl rfl).1

/-! ### The order of the buffer, a failed round and the count of merges -/

/-- Claim C24 at a failing input: from an empty buffer, the batch
`[[0,100), [50,200)]` is left by the sort of launch as `[[50,200), [0,100)]`,
which is not in ascending order of StartBlock; the comparison of launch holds
both ways between the two ranges and of each range with itself. With block 0
expected, the round then skips `[50,200)` at the head and merges nothing,
although `[0,100)` is in the buffer. -/
theorem launch_sort_leaves_buffer_unsorted :
    sortSlice launchLess (demoSquasher.ranges ++ [⟨0, 100⟩, ⟨50, 200⟩])
      = [⟨50, 200⟩, ⟨0, 100⟩]
    ∧ ¬ (sortSlice launchLess (demoSquasher.ranges ++ [⟨0, 100⟩, ⟨50, 200⟩])).Pairwise
          (fun a b => a.StartBlock ≤ b.StartBlock)
    ∧ launchLess ⟨0, 100⟩ ⟨50, 200⟩ = true ∧ launchLess ⟨50, 200⟩ ⟨0, 100⟩ = true
    ∧ launchLess ⟨0, 100⟩ ⟨0, 100⟩ = true
    ∧ (launch quietEnv demoSquasher [.chunk [⟨0, 100⟩, ⟨50, 200⟩]]).squasher.ranges
        = [⟨50, 200⟩, ⟨0, 100⟩]
    ∧ mergedRanges (launch quietEnv demoSquasher [.chunk [⟨0, 100⟩, ⟨50, 200⟩]]).effects
        = [] := by
  decide

/-- Claim C25 at a failing input: a squasher that expects block 100 receives the
batch `[[0,100)]`. processRanges returns an error and no progress value; launch
sends the error on the completion channel and, as no task of the error group
failed, goes on to read `out.lastExclusiveEndBlock` of the nil `out`: the
goroutine stops on that panic instead of returning. -/
theorem launch_reads_nil_progress :
    (processRanges quietEnv 0 { squasherAt100 with ranges := [⟨0, 100⟩] }).1
      = .failed (.wrapped ⟨0, 100⟩ (.nonContiguous 100 0))
    ∧ (launch quietEnv squasherAt100 [.chunk [⟨0, 100⟩]]).completion
        = [some (.wrapped ⟨0, 100⟩ (.nonContiguous 100 0))]
    ∧ (launch quietEnv squasherAt100 [.chunk [⟨0, 100⟩]]).status = .crashed
    ∧ (launch quietEnv squasherAt100 [.chunk [⟨0, 100⟩]]).status ≠ .returned
    ∧ (launch quietEnv squasherAt100 [.chunk [⟨0, 100⟩]]).signals = [] := by
  decide

/-- The field squashCount of the progress value is never written: whatever
processRanges merges, it returns the count it started from. -/
theorem processRangesLoop_squashCount {σ : Type} (env : Env σ) (round : Nat) :
    ∀ (rs : List Range) (i : Nat) (s : StoreSquasher σ) (out : rangeProgress)
      (issued : List Effect) (res : rangeProgress),
      (processRangesLoop env round rs i s out issued).1 = .progress res →
        res.squashCount = out.squashCount := by
  intro rs
  induction rs with
  | nil =>
    intro i s out issued res h
    simp only [processRangesLoop, RangesOutcome.progress.injEq] at h
    rw [← h]
  | cons r rest ih =>
    intro i s out issued res h
    unfold processRangesLoop at h
    split at h
    · simp only [RangesOutcome.progress.injEq] at h
      rw [← h]
    · split at h
      · simp only [RangesOutcome.progress.injEq] at h
        rw [← h]
      · simp at h
      · simp at h
      · simp only at h
        have hrec := ih _ _ _ _ _ h
        simpa using hrec

/-- Claim C26 at a failing input: with block 0 expected and the buffer
`[[0,100)]`, processRanges merges one range and returns squashCount 0 (and
lastExclusiveEndBlock 100); the round took 500 units of time and launch records
an average of 0, not 500. -/
theorem processRanges_counts_no_merge :
    (processRanges timedEnv 0 { demoSquasher with ranges := [⟨0, 100⟩] }).1
      = .progress ⟨0, 100⟩
    ∧ mergedRanges (processRanges timedEnv 0 { demoSquasher with ranges := [⟨0, 100⟩] }).2.2
        = [⟨0, 100⟩]
    ∧ (launch timedEnv demoSquasher [.chunk [⟨0, 100⟩]]).lastSquashDuration = 500
    ∧ (launch timedEnv demoSquasher [.chunk [⟨0, 100⟩]]).lastSquashAvgDuration = 0
    ∧ (launch timedEnv demoSquasher [.chunk [⟨0, 100⟩]]).signals = [100] := by
  decide

/-! ### Saving the output cache -/

/-- Counterexample to C23: when every attempt of the write fails, save returns
nil all the same, as it does when the write succeeds; the three failed attempts
end in a warning of the logger. -/
theorem save_returns_nil_on_failed_write :
    (OutputCache.save (fun _ => some []) (fun _ _ _ => none) emptyCache
        "0000000000-0000000010.output").1 = none
    ∧ (OutputCache.save (fun _ => some []) (fun _ _ _ => none) emptyCache
        "0000000000-0000000010.output").2
        = [.writeObject "0000000000-0000000010.output",
           .writeObject "0000000000-0000000010.output",
           .writeObject "0000000000-0000000010.output", .warnFailedWriting]
    ∧ (OutputCache.save (fun _ => some []) (fun _ _ _ => some ()) emptyCache
        "0000000000-0000000010.output").1 = none
    ∧ (OutputCache.save (fun _ => some []) (fun _ _ _ => some ()) emptyCache
        "0000000000-0000000010.output").2 = [.writeObject "0000000000-0000000010.output"] := by
  decide

/-- Claim C23, amended: save returns as soon as the map is encoded and hands the
write to a goroutine. What it returns does not depend on the object store: it
is nil whenever the JSON encoding succeeds and the encoding error otherwise. A
write that fails at each of its three attempts only ends in a warning of the
logger; a write that succeeds within them leaves no warning. -/
theorem save_ignores_write_result (jsonEncode : Option outputKV → Option Bytes)
    (writeObject writeObject2 : String → Bytes → Nat → Option Unit) (c : OutputCache)
    (filename : String) :
    (c.save jsonEncode writeObject filename).1 = (c.save jsonEncode writeObject2 filename).1
    ∧ ((c.save jsonEncode writeObject filename).1 = none ↔ jsonEncode c.kv ≠ none)
    ∧ (∀ cnt, jsonEncode c.kv = some cnt →
        (∀ attempt, writeObject filename cnt attempt = none) →
        (c.save jsonEncode writeObject filename).1 = none
        ∧ (c.save jsonEncode writeObject filename).2
            = List.replicate 3 (SaveEvent.writeObject filename) ++ [.warnFailedWriting])
    ∧ (∀ cnt, jsonEncode c.kv = some cnt →
        (∃ attempt, attempt < 3 ∧ writeObject filename cnt attempt = some ()) →
        SaveEvent.warnFailedWriting ∉ (c.save jsonEncode writeObject filename).2) := by
  refine ⟨?_, ?_, ?_, ?_⟩
  · unfold OutputCache.save
    cases jsonEncode c.kv <;> rfl
  · unfold OutputCache.save
    cases jsonEncode c.kv <;> simp
  · intro cnt hc hfail
    simp only [OutputCache.save, hc, OutputCache.saveTask, RetryContext, hfail]
    exact ⟨trivial, trivial⟩
  · intro cnt hc hok
    obtain ⟨attempt, hlt, hw⟩ := hok
    simp only [OutputCache.save, hc, OutputCache.saveTask, RetryContext]
    have h3 : attempt = 0 ∨ attempt = 1 ∨ attempt = 2 := by omega
    cases h0 : writeObject filename cnt 0 with
    | some u => simp
    | none =>
      cases h1 : writeObject filename cnt 1 with
      | some u => simp
      | none =>
        cases h2 : writeObject filename cnt 2 with
        | some u => simp
        | none =>
          rcases h3 with h | h | h <;> subst h <;> simp_all

/-! ### The end block read back from a canonical cache name -/

theorem splitChars_no_sep (sep : Char) (cs : List Char) (h : sep ∉ cs) :
    splitChars sep cs = [cs] := by
  induction cs with
  | nil => rfl
  | cons c t ih =>
    simp only [List.mem_cons, not_or] at h
    have hc : ¬ c = sep := fun e => h.1 e.symm
    simp only [splitChars, hc, if_false, ih h.2]

theorem splitChars_append_sep (sep : Char) (rest : List Char) (pre : List Char)
    (h : sep ∉ pre) :
    splitChars sep (pre ++ sep :: rest) = pre :: splitChars sep rest := by
  induction pre with
  | nil => simp [splitChars]
  | cons c t ih =>
    simp only [List.mem_cons, not_or] at h
    have hc : ¬ c = sep := fun e => h.1 e.symm
    have hcons : (c :: t) ++ sep :: rest = c :: (t ++ sep :: rest) := rfl
    rw [hcons, splitChars]
    simp only [hc, if_false]
    rw [ih h.2]

theorem not_mem_of_all_digits (sep : Char) (hsep : isDecimalDigit sep = false) (cs : List Char)
    (hd : cs.all isDecimalDigit = true) : sep ∉ cs := by
  intro hmem
  have := List.all_eq_true.1 hd sep hmem
  rw [hsep] at this
  exact Bool.false_ne_true this

theorem decimal_head_ne_zero (n : Nat) (hn : n ≠ 0) : (decimal n).head? ≠ some '0' := by
  induction n using Nat.strong_induction_on with
  | _ n ih =>
    by_cases h0 : n / 10 = 0
    · rw [decimal_small n h0]
      have := (digitChar_value n (by omega)).2.2 hn
      simpa using this
    · have hlt : n / 10 < n := Nat.div_lt_self (by omega) (by decide)
      rw [decimal_step n h0]
      have hne := decimal_ne_nil (n / 10)
      have hrec := ih (n / 10) hlt h0
      cases hd : decimal (n / 10) with
      | nil => exact absurd hd hne
      | cons c t =>
        rw [hd] at hrec
        simpa using hrec

theorem trimLeftZeros_pad (n : Nat) :
    trimLeftZeros (pad n).data = if n = 0 then [] else decimal n := by
  have hz : ∀ (k : Nat) (l : List Char),
      trimLeftZeros (List.replicate k '0' ++ l) = trimLeftZeros l := by
    intro k l
    induction k with
    | zero => rfl
    | succ k ih =>
      rw [List.replicate_succ, List.cons_append]
      simp only [trimLeftZeros, List.dropWhile_cons, beq_self_eq_true, if_true] at ih ⊢
      exact ih
  rw [pad_data, hz]
  by_cases h : n = 0
  · subst h
    simp [decimal_zero, trimLeftZeros]
  · simp only [h, if_false]
    have hh := decimal_head_ne_zero n h
    cases hd : decimal n with
    | nil => rfl
    | cons c t =>
      rw [hd] at hh
      have hc : c ≠ '0' := by simpa using hh
      simp [trimLeftZeros, List.dropWhile_cons, hc]

theorem getExclusiveEndBlock_eq (start stop : Nat) :
    getExclusiveEndBlock (ComputeDBinFilename start stop)
      = if 1 ≤ stop ∧ stop < 2 ^ 63 then .ok stop else .error := by
  have hdata : (ComputeDBinFilename start stop).data
      = (pad start).data ++ '-' :: ((pad stop).data ++ '.' :: "output".data) := by
    simp [ComputeDBinFilename, String.data_append]
  have hs1 : '-' ∉ (pad start).data :=
    not_mem_of_all_digits '-' (by decide) _ (pad_decimal start).1
  have hs2 : '-' ∉ (pad stop).data ++ '.' :: "output".data := by
    intro hmem
    rcases List.mem_append.1 hmem with h | h
    · exact not_mem_of_all_digits '-' (by decide) _ (pad_decimal stop).1 h
    · revert h; decide
  have hs3 : '.' ∉ (pad stop).data :=
    not_mem_of_all_digits '.' (by decide) _ (pad_decimal stop).1
  unfold getExclusiveEndBlock
  rw [hdata, splitChars_append_sep '-' _ _ hs1, splitChars_no_sep '-' _ hs2]
  simp only [splitChars_append_sep '.' _ _ hs3, List.headD_cons, trimLeftZeros_pad]
  by_cases h0 : stop = 0
  · subst h0
    simp [ParseInt]
  · simp only [h0, if_false]
    rw [ParseInt_digits _ (decimal_ne_nil stop) (decimal_all_digits stop), decimalValue_decimal]
    by_cases hlt : stop < 2 ^ 63
    · have h1 : 1 ≤ stop := by omega
      simp only [hlt, if_true, h1, and_self]
      rw [u64OfInt_natCast stop (by omega)]
    · simp only [hlt, if_false, and_false]

/-- Claim C27: on the canonical name of a range, getExclusiveEndBlock succeeds
exactly when `1 ≤ end ≤ 2^63 - 1`, and then it returns `end`; otherwise it
returns an error (it never panics on such a name). In particular it returns an
error on the canonical name of a range that ends at block 0, whose digits are
all trimmed away, and on one that ends at `2^63` or above, which `ParseInt`
refuses. -/
theorem getExclusiveEndBlock_canonical (start stop : Nat) :
    ((∃ v, getExclusiveEndBlock (ComputeDBinFilename start stop) = .ok v)
        ↔ 1 ≤ stop ∧ stop ≤ 2 ^ 63 - 1)
    ∧ (∀ v, getExclusiveEndBlock (ComputeDBinFilename start stop) = .ok v → v = stop)
    ∧ (¬ (1 ≤ stop ∧ stop ≤ 2 ^ 63 - 1) →
        getExclusiveEndBlock (ComputeDBinFilename start stop) = .error)
    ∧ getExclusiveEndBlock (ComputeDBinFilename start 0) = .error
    ∧ getExclusiveEndBlock (ComputeDBinFilename start (2 ^ 63)) = .error := by
  have hiff : (1 ≤ stop ∧ stop ≤ 2 ^ 63 - 1) ↔ (1 ≤ stop ∧ stop < 2 ^ 63) := by
    constructor <;> (intro h; omega)
  refine ⟨?_, ?_, ?_, ?_, ?_⟩
  · rw [getExclusiveEndBlock_eq, hiff]
    by_cases h : 1 ≤ stop ∧ stop < 2 ^ 63
    · simp only [h, and_self, if_true, iff_true]
      exact ⟨stop, rfl⟩
    · simp only [h, if_false, iff_false]
      rintro ⟨v, hv⟩
      cases hv
  · intro v hv
    rw [getExclusiveEndBlock_eq] at hv
    split at hv
    · cases hv; rfl
    · cases hv
  · intro h
    rw [getExclusiveEndBlock_eq, if_neg (fun h2 => h (hiff.2 h2))]
  · rw [getExclusiveEndBlock_eq]; simp
  · rw [getExclusiveEndBlock_eq]; simp

/-! ## Initial snapshots -/

theorem runningTotals_append (base : Nat) (xs ys : List Nat) :
    runningTotals base (xs ++ ys) = runningTotals base xs ++ runningTotals (base + xs.sum) ys := by
  induction xs generalizing base with
  | nil => simp [runningTotals]
  | cons x t ih =>
    have hcons : (x :: t) ++ ys = x :: (t ++ ys) := rfl
    rw [hcons, runningTotals, runningTotals, ih, List.sum_cons, Nat.add_assoc]
    rfl

theorem sum_of_all_hundred (l : List InitialSnapshotData)
    (h : ∀ m ∈ l, m.Deltas.length = 100) :
    (l.map (fun m => m.Deltas.length)).sum = 100 * l.length := by
  induction l with
  | nil => rfl
  | cons m t ih =>
    have h1 := h m (List.mem_cons_self m t)
    have h2 := ih (fun x hx => h x (List.mem_cons_of_mem m hx))
    simp only [List.map_cons, List.sum_cons, List.length_cons, h1, h2]
    omega

theorem iterSnapshot_inv (modName : String) (total : Nat) :
    ∀ (rest visited : List (String × Bytes)) (count : Nat) (accum : List StoreDelta)
      (sent : List InitialSnapshotData),
      visited.length + rest.length < 2 ^ 64 →
      SnapshotInv modName total visited count accum sent →
      SnapshotInv modName total (visited ++ rest)
        (iterSnapshot modName total rest count accum sent).1
        (iterSnapshot modName total rest count accum sent).2.1
        (iterSnapshot modName total rest count accum sent).2.2 := by
  intro rest
  induction rest with
  | nil =>
    intro visited count accum sent _ hinv
    simpa [iterSnapshot] using hinv
  | cons e rest ih =>
    intro visited count accum sent hlen hinv
    obtain ⟨k, v⟩ := e
    obtain ⟨hc, ha, hcat, hall, hsl, hkeys⟩ := hinv
    simp only [List.length_cons] at hlen
    have hmod : (count + 1) % 2 ^ 64 = count + 1 := Nat.mod_eq_of_lt (by omega)
    have happ : visited ++ (k, v) :: rest = (visited ++ [(k, v)]) ++ rest := by simp
    have hlen2 : (visited ++ [(k, v)]).length + rest.length < 2 ^ 64 := by
      simp only [List.length_append, List.length_cons, List.length_nil]; omega
    have hsum := sum_of_all_hundred sent (fun m hm => (hall m hm).1)
    rw [happ]
    unfold iterSnapshot
    simp only [hmod]
    split
    · rename_i hz
      apply ih _ _ _ _ hlen2
      refine ⟨?_, ?_, ?_, ?_, ?_, ?_⟩
      · simp [hc]
      · simp [hz]
      · simp only [List.map_append, List.flatten_append, List.map_cons, List.map_nil,
          List.flatten_cons, List.flatten_nil, List.append_nil, send]
        rw [← List.append_assoc, hcat]
      · intro m hm
        rcases List.mem_append.1 hm with h | h
        · exact hall m h
        · simp only [List.mem_singleton] at h
          subst h
          refine ⟨?_, rfl, rfl⟩
          simp only [send, List.length_append, List.length_cons, List.length_nil, ha]
          omega
      · simp only [List.length_append, List.length_cons, List.length_nil, hsl]
        omega
      · simp only [List.map_append, List.map_cons, List.map_nil, runningTotals_append,
          hkeys, runningTotals, hsum, send, List.length_append, List.length_cons,
          List.length_nil, ha, hsl, Nat.zero_add]
        congr 2
        omega
    · rename_i hz
      apply ih _ _ _ _ hlen2
      refine ⟨?_, ?_, ?_, hall, ?_, hkeys⟩
      · simp [hc]
      · simp only [List.length_append, List.length_cons, List.length_nil, ha]
        omega
      · simp only [List.map_append, List.map_cons, List.map_nil]
        rw [← List.append_assoc, hcat]
      · rw [hsl]; omega

/-- The messages sent for one store: their number, their deltas, their sizes
and their SentKeys. -/
theorem storeSnapshot_spec (modName : String) (store : SnapshotStore)
    (hn : store.iterated.length < 2 ^ 64) :
    (storeSnapshot modName store).length = (store.iterated.length + 99) / 100
    ∧ ((storeSnapshot modName store).map (fun m => m.Deltas)).flatten
        = store.iterated.map (fun kv => createDelta kv.1 kv.2)
    ∧ (∀ m ∈ storeSnapshot modName store,
        1 ≤ m.Deltas.length ∧ m.Deltas.length ≤ 100
          ∧ m.ModuleName = modName ∧ m.TotalKeys = store.length)
    ∧ (∀ m ∈ (storeSnapshot modName store).dropLast, m.Deltas.length = 100)
    ∧ (storeSnapshot modName store).map (fun m => m.SentKeys)
        = runningTotals 0 ((storeSnapshot modName store).map (fun m => m.Deltas.length)) := by
  have hinv := iterSnapshot_inv modName store.length store.iterated [] 0 [] []
    (by simpa using hn) (by simp [SnapshotInv, runningTotals])
  simp only [List.nil_append] at hinv
  unfold storeSnapshot
  rcases hit : iterSnapshot modName store.length store.iterated 0 [] [] with ⟨count, accum, sent⟩
  rw [hit] at hinv
  obtain ⟨hc, ha, hcat, hall, hsl, hkeys⟩ := hinv
  simp only at hc ha hcat hall hsl hkeys ⊢
  have hsum := sum_of_all_hundred sent (fun m hm => (hall m hm).1)
  by_cases hz : accum.length = 0
  · have hnil : accum = [] := List.length_eq_zero.1 hz
    simp only [hz, ne_eq, not_true_eq_false, if_false]
    refine ⟨by omega, ?_, ?_, ?_, hkeys⟩
    · rw [← hcat, hnil, List.append_nil]
    · intro m hm
      obtain ⟨h1, h2, h3⟩ := hall m hm
      exact ⟨by omega, by omega, h2, h3⟩
    · intro m hm
      exact (hall m (List.mem_of_mem_dropLast hm)).1
  · simp only [hz, ne_eq, not_false_eq_true, if_true]
    refine ⟨?_, ?_, ?_, ?_, ?_⟩
    · simp only [List.length_append, List.length_cons, List.length_nil]
      omega
    · simp only [List.map_append, List.flatten_append, List.map_cons, List.map_nil,
        List.flatten_cons, List.flatten_nil, List.append_nil, send]
      exact hcat
    · intro m hm
      rcases List.mem_append.1 hm with h | h
      · obtain ⟨h1, h2, h3⟩ := hall m h
        exact ⟨by omega, by omega, h2, h3⟩
      · simp only [List.mem_singleton] at h
        subst h
        simp only [send]
        exact ⟨by omega, by omega, trivial, trivial⟩
    · intro m hm
      rw [List.dropLast_concat] at hm
      exact (hall m hm).1
    · simp only [List.map_append, List.map_cons, List.map_nil, runningTotals_append, hkeys,
        runningTotals, hsum, send, Nat.zero_add]
      congr 2
      omega

theorem sendSnapshotsLoop_found (storeMap : String → Option SnapshotStore) :
    ∀ (modules : List String) (sent : List Response),
      (∀ m ∈ modules, storeMap m ≠ none) →
      sendSnapshotsLoop storeMap modules sent
        = (none, sent ++ (modules.map (expectedSnapshotData storeMap)).flatten
            ++ [.snapshotComplete]) := by
  intro modules
  induction modules with
  | nil => intro sent _; simp [sendSnapshotsLoop]
  | cons m rest ih =>
    intro sent hfound
    have hm := hfound m (List.mem_cons_self m rest)
    unfold sendSnapshotsLoop
    cases hs : storeMap m with
    | none => exact absurd hs hm
    | some store =>
      simp only
      rw [ih _ (fun x hx => hfound x (List.mem_cons_of_mem m hx))]
      simp [expectedSnapshotData, hs]

theorem snapshotComplete_not_data (storeMap : String → Option SnapshotStore)
    (modules : List String) :
    Response.snapshotComplete ∉ (modules.map (expectedSnapshotData storeMap)).flatten := by
  intro hmem
  simp only [List.mem_flatten, List.mem_map] at hmem
  obtain ⟨l, ⟨m, _, rfl⟩, hl⟩ := hmem
  unfold expectedSnapshotData at hl
  cases hs : storeMap m with
  | none => simp [hs] at hl
  | some store => simp [hs] at hl

/-- With no store requested sendSnapshots sends nothing, not even the final
message; at a requested store that is not found it returns an error, after the
data of the stores before it and without the final message. -/
theorem sendSnapshots_no_final_message (storeMap : String → Option SnapshotStore) :
    sendSnapshots [] storeMap = (none, [])
    ∧ sendSnapshots ["s", "t"] demoStoreMap
        = (some "t", expectedSnapshotData demoStoreMap "s") := by
  have hs : demoStoreMap "s" = some demoStore := by simp [demoStoreMap]
  have ht : demoStoreMap "t" = none := by simp [demoStoreMap]
  refine ⟨rfl, ?_⟩
  simp [sendSnapshots, sendSnapshotsLoop, hs, ht, expectedSnapshotData]

/-- Claim C28: when at least one store is requested and every requested store
is found (and visits fewer than `2^64` keys), sendSnapshots returns nil and
sends the data messages of the requested stores in order, followed by one
snapshot-complete message and nothing else. For a store whose iteration visits
`n` keys the data messages are `ceil(n/100)` (none when `n = 0`); their deltas,
put end to end, are one CREATE delta per visited key, with that key as Key
and its value as NewValue, in iteration order; each message holds between 1 and 100 deltas and all
but the last hold 100; and the SentKeys of the messages are the running totals
of the numbers of deltas sent. -/
theorem sendSnapshots_messages (snapshotModules : List String)
    (storeMap : String → Option SnapshotStore)
    (hne : snapshotModules ≠ [])
    (hfound : ∀ m ∈ snapshotModules,
      ∃ store, storeMap m = some store ∧ store.iterated.length < 2 ^ 64) :
    sendSnapshots snapshotModules storeMap
      = (none, (snapshotModules.map (expectedSnapshotData storeMap)).flatten
          ++ [.snapshotComplete])
    ∧ Response.snapshotComplete
        ∉ (snapshotModules.map (expectedSnapshotData storeMap)).flatten
    ∧ (∀ modName ∈ snapshotModules, ∀ store, storeMap modName = some store →
        expectedSnapshotData storeMap modName
          = (storeSnapshot modName store).map Response.snapshotData
        ∧ (storeSnapshot modName store).length = (store.iterated.length + 99) / 100
        ∧ (store.iterated.length = 0 → storeSnapshot modName store = [])
        ∧ ((storeSnapshot modName store).map (fun m => m.Deltas)).flatten
            = store.iterated.map (fun kv =>
                ({ Operation := .CREATE, Ordinal := 0, Key := kv.1, OldValue := [],
                   NewValue := kv.2 } : StoreDelta))
        ∧ ((storeSnapshot modName store).map (fun m => m.Deltas)).flatten.map
              (fun delta => (delta.Key, delta.NewValue)) = store.iterated
        ∧ (∀ delta ∈ ((storeSnapshot modName store).map (fun m => m.Deltas)).flatten,
            delta.Operation = .CREATE)
        ∧ (∀ m ∈ storeSnapshot modName store,
            1 ≤ m.Deltas.length ∧ m.Deltas.length ≤ 100
              ∧ m.ModuleName = modName ∧ m.TotalKeys = store.length)
        ∧ (∀ m ∈ (storeSnapshot modName store).dropLast, m.Deltas.length = 100)
        ∧ (storeSnapshot modName store).map (fun m => m.SentKeys)
            = runningTotals 0
                ((storeSnapshot modName store).map (fun m => m.Deltas.length))) := by
  refine ⟨?_, snapshotComplete_not_data storeMap snapshotModules, ?_⟩
  · unfold sendSnapshots
    have hlen : ¬ snapshotModules.length = 0 := fun h => hne (List.length_eq_zero.1 h)
    simp only [hlen, if_false]
    rw [sendSnapshotsLoop_found storeMap snapshotModules []
      (fun m hm => by
        obtain ⟨store, hs, _⟩ := hfound m hm
        rw [hs]; simp)]
    simp
  · intro modName hm store hs
    obtain ⟨store2, hs2, hn⟩ := hfound modName hm
    have heq : store2 = store := by
      rw [hs] at hs2
      exact (Option.some.inj hs2).symm
    subst heq
    obtain ⟨h1, h2, h3, h4, h5⟩ := storeSnapshot_spec modName store2 hn
    refine ⟨by simp [expectedSnapshotData, hs], h1, ?_, h2, ?_, ?_, h3, h4, h5⟩
    · intro h0
      apply List.length_eq_zero.1
      rw [h1, h0]
    · rw [h2, List.map_map]
      have hid : ((fun delta : StoreDelta => (delta.Key, delta.NewValue))
          ∘ fun kv : String × Bytes => createDelta kv.1 kv.2) = id := by
        funext kv
        rfl
      rw [hid, List.map_id]
    · intro delta hd
      rw [h2] at hd
      obtain ⟨kv, _, rfl⟩ := List.mem_map.1 hd
      rfl

/-- Witness of C28: the store `s` of 250 keys is sent in 3 messages. -/
theorem sendSnapshots_messages_witness :
    (sendSnapshots ["s"] demoStoreMap).1 = none
    ∧ (storeSnapshot "s" demoStore).length = (demoStore.iterated.length + 99) / 100 :=
  have hs : demoStoreMap "s" = some demoStore := by simp [demoStoreMap]
  have h := sendSnapshots_messages ["s"] demoStoreMap (by simp)
    (by
      intro m hm
      simp only [List.mem_singleton] at hm
      subst hm
      exact ⟨demoStore, hs, by simp only [demoStore, List.length_replicate]; norm_num⟩)
  ⟨congrArg Prod.fst h.1, (h.2.2 "s" (by simp) demoStore hs).2.1⟩

end Substreams
